import Mathlib

/-!
Verification development for the text-format registry import/export engine
(regproc.c).  The engine is shallowly embedded: wide characters are natural
numbers (UTF-16 code units), byte buffers are lists of naturals below 256,
and the external key-value store collaborator is modelled as a tree of keys.
C strings are modelled as lists of code units that contain no interior NUL;
theorems that quantify over raw inputs carry that as a hypothesis where the
C code's NUL-termination could matter.
-/

namespace Regproc

/-- A wide (UTF-16 code unit) string, as handled by the WCHAR-based parser. -/
abbrev WStr := List Nat

/-- A byte buffer (each entry is a byte value below 256). -/
abbrev Bytes := List Nat

/-- Convert a Lean string literal of ASCII characters to a `WStr`. -/
def strW (s : String) : WStr := s.toList.map Char.toNat

/-- `' '` or `'\t'`, the two characters the parser treats as blank padding. -/
def isBlank (c : Nat) : Bool := c == 32 || c == 9

/-- The C `isspace` set, as used by `strtoul` when skipping leading space. -/
def isSpaceC (c : Nat) : Bool :=
  c == 32 || c == 9 || c == 10 || c == 11 || c == 12 || c == 13

/-- `isxdigitW`: ASCII hexadecimal digit. -/
def isXDigit (c : Nat) : Bool :=
  (48 ≤ c && c ≤ 57) || (97 ≤ c && c ≤ 102) || (65 ≤ c && c ≤ 70)

/-- Numeric value of a hexadecimal digit character. -/
def hexVal (c : Nat) : Nat :=
  if c ≤ 57 then c - 48 else if c ≤ 70 then c - 55 else c - 87

/-- Value of a string of hexadecimal digits (most significant first). -/
def hexListVal (l : WStr) : Nat := l.foldl (fun acc c => acc * 16 + hexVal c) 0

/-- `tolowerW` restricted to the ASCII range (sufficient for the parser's
single use, which compares against the letter `x`). -/
def toLowerC (c : Nat) : Nat := if 65 ≤ c && c ≤ 90 then c + 32 else c

/-- `toupperW` restricted to the ASCII range; the root class names compared
case-insensitively by `strncmpiW` are pure ASCII. -/
def toUpperC (c : Nat) : Nat := if 97 ≤ c && c ≤ 122 then c - 32 else c

/-- Case-insensitive ASCII equality of two characters. -/
def eqNoCase (a b : Nat) : Bool := toUpperC a == toUpperC b

/-- `strncmpiW s t n = 0`: the first `n` characters agree case-insensitively
(`s` is treated as NUL-free; `t` is a full root-class name of length `n`). -/
def prefixNoCase : WStr → WStr → Bool
  | _, [] => true
  | [], _ :: _ => false
  | a :: s, b :: t => eqNoCase a b && prefixNoCase s t

/-- Character of a hexadecimal digit, lowercase (as printed by `%x`). -/
def hexDigitChar (d : Nat) : Nat := if d < 10 then 48 + d else 87 + d

/-- Hexadecimal rendering helper; the first argument is fuel bounding the
number of digits (any fuel at least the digit count gives the same result). -/
def toHexAux : Nat → Nat → WStr
  | 0, _ => []
  | fuel + 1, n => if n = 0 then [] else toHexAux fuel (n / 16) ++ [hexDigitChar (n % 16)]

/-- `sprintfW "%x"`: lowercase hexadecimal rendering of a number. -/
def toHex (n : Nat) : WStr := if n = 0 then [48] else toHexAux n n

/-- `sprintfW "%08x"`: zero-padded 8-digit lowercase hexadecimal rendering. -/
def toHex8 (n : Nat) : WStr :=
  let s := toHex n
  List.replicate (8 - s.length) 48 ++ s

/-- `sprintfW "%02x"`: zero-padded 2-digit lowercase hexadecimal rendering. -/
def toHex2 (n : Nat) : WStr :=
  let s := toHex n
  List.replicate (2 - s.length) 48 ++ s

/-- Serialize wide characters as little-endian byte pairs (the layout of a
WCHAR buffer in memory, as passed to and from the store). -/
def wideBytes : WStr → Bytes
  | [] => []
  | c :: rest => c % 256 :: c / 256 % 256 :: wideBytes rest

/-- Reassemble little-endian byte pairs into wide characters; a trailing odd
byte is dropped, matching `fread` with a two-byte element size. -/
def bytePairs : Bytes → WStr
  | b0 :: b1 :: rest => (b0 + 256 * b1) :: bytePairs rest
  | _ => []

/-- Active-code-page conversion, byte to wide character.  Modelled from the
spec: the engine converts narrow data "using the active code page"; the
external `MultiByteToWideChar` collaborator is modelled as the identity
single-byte code page, faithful on code points below 0x100. -/
def acpToWide (bs : Bytes) : WStr := bs

/-- Active-code-page conversion, wide character to byte.  Modelled from the
spec, as the inverse of `acpToWide` (identity single-byte code page); code
points at and above 0x100 are reduced mod 256 and are excluded by the
well-formedness hypotheses of every theorem that uses narrow output. -/
def acpFromWide (ws : WStr) : Bytes := ws.map (fun c => c % 256)

/-- `strlenW` on a buffer that may contain an interior NUL. -/
def cstr (l : WStr) : WStr := l.takeWhile (fun c => c ≠ 0)

/-- Split a decoded character stream into logical lines the way `get_lineA`
and `get_lineW` do: a line ends at `\r`, `\n`, or `\r\n` (one terminator);
the text after the last terminator is always produced as a final line, even
when it is empty (the reader returns the residual buffer at end of stream). -/
def splitLines : WStr → List WStr
  | [] => [[]]
  | 13 :: 10 :: rest => [] :: splitLines rest
  | 13 :: rest => [] :: splitLines rest
  | 10 :: rest => [] :: splitLines rest
  | c :: rest =>
    match splitLines rest with
    | l :: ls => (c :: l) :: ls
    | [] => [[c]]

/-- Result of the modelled `strtoulW(s, &end, 16)`: the returned value, the
number of characters consumed from the start of `s` (0 when no conversion was
performed, in which case `end` equals `s`), and whether `ERANGE` was set. -/
structure Strtoul where
  val : Nat
  consumed : Nat
  erange : Bool
  deriving Repr, DecidableEq

/-- Digit scan of `strtoul` base 16 after whitespace and sign: an optional
`0x`/`0X` prefix (consumed only when followed by a hexadecimal digit, else
the subject sequence is just the leading `0`), then hexadecimal digits.
Returns the digit value and the number of characters consumed. -/
def hasHexPrefix (s : WStr) : Bool :=
  (decide (s.take 2 = [48, 120]) || decide (s.take 2 = [48, 88])) &&
    (match (s.drop 2).head? with | some d => isXDigit d | none => false)

def scanHex (s : WStr) : Nat × Nat :=
  if hasHexPrefix s then
    let ds := (s.drop 2).takeWhile isXDigit
    (hexListVal ds, 2 + ds.length)
  else
    let ds := s.takeWhile isXDigit
    (hexListVal ds, ds.length)

/-- `strtoulW(s, &end, 16)` on a 32-bit unsigned long: skips C whitespace,
accepts an optional sign (a minus negates in unsigned arithmetic), an
optional `0x` prefix and hexadecimal digits; on overflow returns `ULONG_MAX`
with `ERANGE`.  When no digit is found, nothing is consumed and 0 returned. -/
def wcstoul16 (s : WStr) : Strtoul :=
  let ws := s.takeWhile isSpaceC
  let s1 := s.drop ws.length
  let (neg, signLen) :=
    if s1.head? = some 43 then ((false : Bool), 1)
    else if s1.head? = some 45 then (true, 1)
    else (false, 0)
  let s2 := s1.drop signLen
  let (m, k) := scanHex s2
  if k = 0 then ⟨0, 0, false⟩
  else if m > 4294967295 then ⟨4294967295, ws.length + signLen + k, true⟩
  else if neg then ⟨(4294967296 - m) % 4294967296, ws.length + signLen + k, false⟩
  else ⟨m, ws.length + signLen + k, false⟩

/-! ## Registry data type tags -/

def REG_NONE : Nat := 0
def REG_SZ : Nat := 1
def REG_EXPAND_SZ : Nat := 2
def REG_BINARY : Nat := 3
def REG_DWORD : Nat := 4
def REG_MULTI_SZ : Nat := 7

/-! ## Data-type codec (import direction) -/

/-- Result of `parse_data_type`: the coarse parse kind, the resolved data
type tag, and the remainder of the line after the recognized prefix. -/
structure DataTypeResult where
  parse_type : Nat
  data_type : Nat
  rest : WStr
  deriving Repr, DecidableEq

/-- `parse_data_type`: recognizes, in priority order, a double quote
(string), `hex:` (binary), `dword:`, and `hex(NN):` with NN hexadecimal
(rejecting an `x` as the second character of NN and an out-of-range NN). -/
def parse_data_type (line : WStr) : Option DataTypeResult :=
  if line.take 1 = [34] then some ⟨REG_SZ, REG_SZ, line.drop 1⟩
  else if line.take 4 = strW "hex:" then some ⟨REG_BINARY, REG_BINARY, line.drop 4⟩
  else if line.take 6 = strW "dword:" then some ⟨REG_DWORD, REG_DWORD, line.drop 6⟩
  else if line.take 4 = strW "hex(" then
    let rest := line.drop 4
    match rest with
    | [] => none
    | c0 :: r1 =>
      if (match r1 with | c1 :: _ => toLowerC c1 == 120 | [] => false) then none
      else
        let r := wcstoul16 (c0 :: r1)
        match (c0 :: r1).drop r.consumed with
        | 41 :: 58 :: rest2 =>
          if r.erange && r.val = 4294967295 then none
          else some ⟨REG_BINARY, r.val, rest2⟩
        | _ => none
  else none

/-- `convert_hex_to_dword`: skips blanks, takes at most 8 hexadecimal
digits, allows trailing blanks and a `;` comment, and returns the value.
An empty input (after blanks) is rejected; zero digits directly followed
by a comment are accepted with value 0. -/
def convert_hex_to_dword (s : WStr) : Option Nat :=
  let s1 := s.dropWhile isBlank
  match s1 with
  | [] => none
  | _ :: _ =>
    let digits := s1.takeWhile isXDigit
    if digits.length > 8 then none
    else
      match (s1.drop digits.length).dropWhile isBlank with
      | [] => some (hexListVal digits)
      | c :: _ => if c = 59 then some (hexListVal digits) else none

/-- Outcome of `convert_hex_csv_to_hex`: on success the accumulated data,
the continuation flag and the updated line position; on failure the data
buffer as mutated so far (the caller discards it). -/
inductive CsvOut where
  | ok (data : Bytes) (backslash : Bool) (rest : WStr)
  | fail (data : Bytes)
  deriving Repr, DecidableEq

/-- Loop body of `convert_hex_csv_to_hex`; the fuel argument strictly
exceeds the number of loop iterations (each iteration consumes at least one
character or returns). -/
def convertHexCsvAux : Nat → Bytes → WStr → CsvOut
  | 0, data, _ => .ok data false []
  | fuel + 1, data, s =>
    match s with
    | [] => .ok data false []
    | _ :: _ =>
      let r := wcstoul16 s
      if r.val > 255 then .fail data
      else if r.consumed = 0 then
        let e2 := s.dropWhile isBlank
        if e2.head? = some 92 then .ok data true (e2.drop 1)
        else if e2.head? = some 59 then .ok data false []
        else .fail data
      else
        let data2 := data ++ [r.val]
        match s.drop r.consumed with
        | [] => convertHexCsvAux fuel data2 []
        | c :: rest =>
          if c = 44 then convertHexCsvAux fuel data2 rest
          else
            match (c :: rest).dropWhile isBlank with
            | [] => .ok data2 false []
            | c2 :: _ => if c2 = 59 then .ok data2 false [] else .fail data2

/-- `convert_hex_csv_to_hex`: parses a comma-separated hexadecimal byte
list, appending to the data accumulated so far; a token at which `strtoul`
consumes nothing, followed by optional blanks and a backslash, sets the
continuation flag and repositions the line after the backslash. -/
def convert_hex_csv_to_hex (data : Bytes) (s : WStr) : CsvOut :=
  match convertHexCsvAux (s.length + 2) data s with
  | .ok d true rest => .ok d true rest
  | .ok d false _ => .ok d false s
  | .fail d => .fail d

/-- One step of `REGPROC_unescape_string`'s in-place rewriting: the value
written for the character following a backslash. -/
def unescChar (c : Nat) : Nat :=
  if c = 110 then 10 else if c = 114 then 13 else if c = 48 then 0 else c

/-- Scanner of `REGPROC_unescape_string`: returns the unescaped value chars
and, when an unescaped closing quote is found, the remainder after it.
A backslash as the final character consumes the NUL terminator (the source
copies it and the scan runs past the end; no closing quote is found). -/
def unescapeAux : WStr → WStr × Option WStr
  | [] => ([], none)
  | c :: rest =>
    if c = 92 then
      match rest with
      | [] => ([0], none)
      | c2 :: rest2 =>
        let (vs, r) := unescapeAux rest2
        (unescChar c2 :: vs, r)
    else if c = 34 then ([], some rest)
    else
      let (vs, r) := unescapeAux rest
      (c :: vs, r)

/-- `REGPROC_unescape_string`: `some (value, rest)` when a closing quote is
found, `none` otherwise (the caller abandons the line in that case). -/
def REGPROC_unescape_string (s : WStr) : Option (WStr × WStr) :=
  match unescapeAux s with
  | (v, some rest) => some (v, rest)
  | (_, none) => none

/-- The escape sequence emitted by `REGPROC_escape_string` for one char. -/
def escapeChar (c : Nat) : WStr :=
  if c = 13 then [92, 114] else if c = 10 then [92, 110]
  else if c = 92 then [92, 92] else if c = 34 then [92, 34]
  else if c = 0 then [92, 48] else [c]

/-- `REGPROC_escape_string`: escape CR, LF, backslash, quote and NUL. -/
def REGPROC_escape_string : WStr → WStr
  | [] => []
  | c :: rest => escapeChar c ++ REGPROC_escape_string rest

/-! ## File header and key paths -/

/-- The registry file format versions distinguished by the header parser. -/
inductive RegVersion where
  | v31 | v40 | v50 | fuzzy | invalid
  deriving Repr, DecidableEq

def header31 : WStr := strW "REGEDIT"
def header40 : WStr := strW "REGEDIT4"
def header50 : WStr := strW "Windows Registry Editor Version 5.00"

/-- `parse_file_header`: skip blanks, compare against the three exact
headers, and accept any other line starting with `REGEDIT` as fuzzy. -/
def parse_file_header (s : WStr) : RegVersion :=
  let s1 := s.dropWhile isBlank
  if s1 = header31 then .v31
  else if s1 = header40 then .v40
  else if s1 = header50 then .v50
  else if s1.take 7 = header31 then .fuzzy
  else .invalid

/-- Modelled from the spec: the root class name table `reg_class_namesW`
(defined outside this translation unit), in the order of `reg_class_keys`:
LOCAL_MACHINE, USERS, CLASSES_ROOT, CURRENT_CONFIG, CURRENT_USER,
DYN_DATA. -/
def regClassNames : List WStr :=
  [strW "HKEY_LOCAL_MACHINE", strW "HKEY_USERS", strW "HKEY_CLASSES_ROOT",
   strW "HKEY_CURRENT_CONFIG", strW "HKEY_CURRENT_USER", strW "HKEY_DYN_DATA"]

/-- `strchrW(s, backslash)` based subpath: the text after the first
backslash, or `none` when the path has no backslash. -/
def keyPathOf (s : WStr) : Option WStr :=
  if 92 ∈ s then some ((s.dropWhile (fun c => c ≠ 92)).drop 1) else none

/-- The root-class match of `parse_key_name`: case-insensitive prefix match
ending at a NUL or a backslash. -/
def matchesRoot (s : WStr) (name : WStr) : Bool :=
  prefixNoCase s name &&
    (s.length = name.length || (s.drop name.length).head? = some 92)

/-- `parse_key_name`: resolve the root class (by index) and the subpath. -/
def parse_key_name (s : WStr) : Option (Nat × Option WStr) :=
  match regClassNames.findIdx? (fun n => matchesRoot s n) with
  | some i => some (i, keyPathOf s)
  | none => none

/-- Split a subkey path on backslashes into segments. -/
def splitSegs : WStr → List WStr
  | [] => [[]]
  | 92 :: rest => [] :: splitSegs rest
  | c :: rest =>
    match splitSegs rest with
    | l :: ls => (c :: l) :: ls
    | [] => [[c]]

/-- Path segments denoted by an optional subpath: `RegCreateKeyExW` with a
NUL subkey (no backslash in the path) or an empty subkey opens the class
root itself; otherwise the backslash-separated segments. -/
def segsOf : Option WStr → List WStr
  | none => []
  | some [] => []
  | some p => splitSegs p

/-! ## The key-value store

Modelled from the spec: the backing store is an external collaborator
offering open/create, delete-tree, delete-value, set-value and enumeration;
it is modelled as a finite tree of keys.  Lookups use exact names; value
and subkey updates replace an existing entry in place or append at the end,
matching enumeration-by-index order for keys and values created in order. -/

/-- A stored value: name (empty for the default value), type tag, data. -/
structure RegValue where
  name : WStr
  ty : Nat
  data : Bytes
  deriving Repr, DecidableEq

mutual
/-- A registry key: its values and its subkeys, in enumeration order. -/
inductive RegTree where
  | mk (values : List RegValue) (subkeys : SubkeyList)
/-- The named children of a key, in enumeration order. -/
inductive SubkeyList where
  | nil
  | cons (name : WStr) (tree : RegTree) (rest : SubkeyList)
end

def RegTree.values : RegTree → List RegValue
  | .mk v _ => v

def RegTree.subkeys : RegTree → SubkeyList
  | .mk _ s => s

def emptyTree : RegTree := .mk [] .nil

def subFind : SubkeyList → WStr → Option RegTree
  | .nil, _ => none
  | .cons m t rest, n => if m = n then some t else subFind rest n

/-- Child lookup defaulting to a fresh empty key (create-if-absent). -/
def subGetD (sks : SubkeyList) (n : WStr) : RegTree :=
  (subFind sks n).getD emptyTree

/-- Replace the named child, or append it at the end when absent. -/
def subPut : SubkeyList → WStr → RegTree → SubkeyList
  | .nil, n, t => .cons n t .nil
  | .cons m u rest, n, t =>
    if m = n then .cons m t rest else .cons m u (subPut rest n t)

/-- Remove the named child (no-op when absent). -/
def subRemove : SubkeyList → WStr → SubkeyList
  | .nil, _ => .nil
  | .cons m u rest, n => if m = n then rest else .cons m u (subRemove rest n)

/-- Replace the value of the same name, or append at the end. -/
def valPut : List RegValue → RegValue → List RegValue
  | [], v => [v]
  | w :: rest, v => if w.name = v.name then v :: rest else w :: valPut rest v

/-- Remove the named value (no-op when absent). -/
def valRemove : List RegValue → WStr → List RegValue
  | [], _ => []
  | w :: rest, n => if w.name = n then rest else w :: valRemove rest n

/-- `RegCreateKeyExW` path walk: create every missing key on the path. -/
def treeCreate : RegTree → List WStr → RegTree
  | t, [] => t
  | .mk vs sks, n :: rest => .mk vs (subPut sks n (treeCreate (subGetD sks n) rest))

/-- `RegSetValueExW` on an open key, addressed by path; a vanished key
(deleted after it was opened) makes the call fail without effect. -/
def treeSet : RegTree → List WStr → RegValue → RegTree
  | .mk vs sks, [], v => .mk (valPut vs v) sks
  | .mk vs sks, n :: rest, v =>
    match subFind sks n with
    | none => .mk vs sks
    | some t => .mk vs (subPut sks n (treeSet t rest v))

/-- `RegDeleteValueW` on an open key, addressed by path. -/
def treeDelValue : RegTree → List WStr → WStr → RegTree
  | .mk vs sks, [], n => .mk (valRemove vs n) sks
  | .mk vs sks, m :: rest, n =>
    match subFind sks m with
    | none => .mk vs sks
    | some t => .mk vs (subPut sks m (treeDelValue t rest n))

/-- `RegDeleteTreeW` with a nonempty subkey path: remove that subtree. -/
def treeDelTree : RegTree → List WStr → RegTree
  | t, [] => t
  | .mk vs sks, [n] => .mk vs (subRemove sks n)
  | .mk vs sks, n :: rest =>
    match subFind sks n with
    | none => .mk vs sks
    | some t => .mk vs (subPut sks n (treeDelTree t rest))

/-- The whole store: one tree per root class, indexed as in
`regClassNames`. -/
abbrev Store := List RegTree

def emptyStore : Store :=
  [emptyTree, emptyTree, emptyTree, emptyTree, emptyTree, emptyTree]

def storeGet (st : Store) (i : Nat) : RegTree := st.getD i emptyTree

def storePut (st : Store) (i : Nat) (t : RegTree) : Store := st.set i t

/-! ## Import state machine -/

/-- The parser states of the import state machine. -/
inductive PState where
  | HEADER | PARSE_WIN31_LINE | LINE_START | KEY_NAME | DELETE_KEY
  | DEFAULT_VALUE_NAME | QUOTED_VALUE_NAME | DATA_START | DELETE_VALUE
  | DATA_TYPE | STRING_DATA | DWORD_DATA | HEX_DATA | EOL_BACKSLASH
  | HEX_MULTILINE | UNKNOWN_DATA | SET_VALUE
  deriving Repr, DecidableEq

/-- A store API call actually issued on an open key or root class. -/
inductive RegOp where
  | createKey (cls : Nat) (segs : List WStr)
  | setValue (cls : Nat) (segs : List WStr) (v : RegValue)
  | deleteValue (cls : Nat) (segs : List WStr) (name : WStr)
  | deleteTree (cls : Nat) (segs : List WStr)
  deriving Repr, DecidableEq

/-- The `struct parser` context, together with the modelled store and the
trace of store operations performed. -/
structure PCtx where
  is_unicode : Bool
  two_wchars : WStr
  reg_version : Option RegVersion
  hkey : Option (Nat × List WStr)
  value_name : Option WStr
  parse_type : Nat
  data_type : Nat
  data : Bytes
  backslash : Bool
  state : PState
  store : Store
  ops : List RegOp

/-- `open_key`: close the current key, resolve the root class, and create
or open the named key (the modelled store's create always succeeds once the
class resolves).  Returns the updated context and whether it succeeded. -/
def open_key (p : PCtx) (path : WStr) : PCtx × Bool :=
  let p1 := { p with hkey := none }
  match parse_key_name path with
  | none => (p1, false)
  | some (cls, sub) =>
    let segs := segsOf sub
    let st := storePut p1.store cls (treeCreate (storeGet p1.store cls) segs)
    ({ p1 with hkey := some (cls, segs), store := st,
               ops := p1.ops ++ [RegOp.createKey cls segs] }, true)

/-- `delete_registry_key`: ignores an empty name; calls `error_exit`
(modelled as `none`, terminating the process) when the root class does not
resolve or the subkey path is empty; a path with no backslash at all makes
the source dereference a NULL `key_name`, likewise modelled as `none`. -/
def delete_registry_key (p : PCtx) (name : WStr) : Option PCtx :=
  if name = [] then some p
  else
    match parse_key_name name with
    | none => none
    | some (cls, sub) =>
      match sub with
      | none => none
      | some [] => none
      | some sp =>
        let segs := splitSegs sp
        some { p with
               store := storePut p.store cls (treeDelTree (storeGet p.store cls) segs),
               ops := p.ops ++ [RegOp.deleteTree cls segs] }

/-- Everything before the last occurrence of `c`, or `none` if absent
(`strrchrW`). -/
def beforeLast (c : Nat) : WStr → Option WStr
  | [] => none
  | a :: rest =>
    match beforeLast c rest with
    | some r => some (a :: r)
    | none => if a = c then some [] else none

/-- Strip trailing blanks (the in-place truncation in `data_start_state`). -/
def trimTrailing (l : WStr) : WStr := (l.reverse.dropWhile isBlank).reverse

/-- Little-endian four-byte layout of a DWORD. -/
def dwordBytes (d : Nat) : Bytes :=
  [d % 256, d / 256 % 256, d / 65536 % 256, d / 16777216 % 256]

/-- First character is a blank (used by `key_name_state`). -/
def headIsBlank : WStr → Bool
  | c :: _ => isBlank c
  | [] => false

/-- The rest of the line is empty or starts a comment. -/
def restOk : WStr → Bool
  | [] => true
  | c :: _ => c = 59

/-- `header_state` body once the line is read: classify the header (with
the two sniffed characters prepended in narrow mode) and either transition
or stop the whole parse (fuzzy/invalid). -/
def header_state (p : PCtx) (l : WStr) : PCtx × Bool :=
  let hdr := if p.is_unicode then l else p.two_wchars ++ l
  let v := parse_file_header hdr
  let p2 := { p with reg_version := some v }
  match v with
  | .v31 => ({ p2 with state := .PARSE_WIN31_LINE }, true)
  | .v40 => ({ p2 with state := .LINE_START }, true)
  | .v50 => ({ p2 with state := .LINE_START }, true)
  | _ => (p2, false)

/-- `parse_win31_line_state` body once the line is read. -/
def parse_win31_line_state (p : PCtx) (l : WStr) : PCtx × WStr :=
  if l.take 17 ≠ strW "HKEY_CLASSES_ROOT" then (p, l)
  else
    let keyEnd := (l.takeWhile (fun c => !isSpaceC c)).length
    let key := l.take keyEnd
    let v1 := (l.drop keyEnd).dropWhile isBlank
    let v2 := match v1 with | 61 :: r => r | _ => v1
    let v3 := match v2 with | 32 :: r => r | _ => v2
    let (p2, ok) := open_key p key
    if ok then
      ({ p2 with value_name := none, data_type := REG_SZ,
                 data := wideBytes (v3 ++ [0]), state := .SET_VALUE }, v3)
    else (p2, l)

/-- `line_start_state` body once the line is read: skip blanks and dispatch
on the first significant character; anything else leaves the state alone
(the line is ignored). -/
def line_start_state (p : PCtx) (l : WStr) : PCtx × WStr :=
  let l1 := l.dropWhile isBlank
  match l1 with
  | 91 :: rest => ({ p with state := .KEY_NAME }, rest)
  | 64 :: _ => ({ p with state := .DEFAULT_VALUE_NAME }, l1)
  | 34 :: rest => ({ p with state := .QUOTED_VALUE_NAME }, rest)
  | _ => (p, l1)

/-- `key_name_state`: abort the line when it starts with a blank or has no
closing bracket; dispatch deletion on a leading `-`; otherwise open the
key, reporting but not aborting on failure. -/
def key_name_state (p : PCtx) (pos : WStr) : PCtx × WStr :=
  if headIsBlank pos then ({ p with state := .LINE_START }, pos)
  else
    match beforeLast 93 pos with
    | none => ({ p with state := .LINE_START }, pos)
    | some content =>
      match content with
      | 45 :: rest => ({ p with state := .DELETE_KEY }, rest)
      | _ =>
        let (p2, _) := open_key p content
        ({ p2 with state := .LINE_START }, content)

/-- `delete_key_state`: only a path starting with `H` or `h` is passed to
`delete_registry_key` (which may terminate the process). -/
def delete_key_state (p : PCtx) (pos : WStr) : Option (PCtx × WStr) :=
  let q :=
    match pos with
    | c :: _ => if c = 72 || c = 104 then delete_registry_key p pos else some p
    | [] => some p
  q.map (fun p2 => ({ p2 with state := .LINE_START }, pos))

/-- `default_value_name_state`. -/
def default_value_name_state (p : PCtx) (pos : WStr) : PCtx × WStr :=
  ({ p with value_name := none, state := .DATA_START }, pos.drop 1)

/-- `quoted_value_name_state`: free the previous name, unescape, and keep a
copy of the unescaped name (up to its first NUL, as `lstrcpyW` does). -/
def quoted_value_name_state (p : PCtx) (pos : WStr) : PCtx × WStr :=
  let p1 := { p with value_name := none }
  match REGPROC_unescape_string pos with
  | none => ({ p1 with state := .LINE_START }, pos)
  | some (v, rest) =>
    ({ p1 with value_name := some (cstr v), state := .DATA_START }, rest)

/-- `data_start_state`: require `=`, trim trailing blanks, and dispatch on
a leading `-` (value deletion) versus data parsing. -/
def data_start_state (p : PCtx) (pos : WStr) : PCtx × WStr :=
  match pos.dropWhile isBlank with
  | 61 :: r =>
    let r3 := trimTrailing (r.dropWhile isBlank)
    match r3 with
    | 45 :: _ => ({ p with state := .DELETE_VALUE }, r3)
    | _ => ({ p with state := .DATA_TYPE }, r3)
  | other => ({ p with state := .LINE_START }, other)

/-- `delete_value_state`: the rest of the line must be blank or a comment;
the deletion is issued only when a key is open. -/
def delete_value_state (p : PCtx) (pos : WStr) : PCtx × WStr :=
  let p1 := (pos.drop 1).dropWhile isBlank
  if restOk p1 then
    match p.hkey with
    | some (cls, segs) =>
      let n := p.value_name.getD []
      ({ p with
         store := storePut p.store cls (treeDelValue (storeGet p.store cls) segs n),
         ops := p.ops ++ [RegOp.deleteValue cls segs n],
         state := .LINE_START }, p1)
    | none => ({ p with state := .LINE_START }, p1)
  else ({ p with state := .LINE_START }, p1)

/-- `data_type_state`: classify the data type and dispatch. -/
def data_type_state (p : PCtx) (pos : WStr) : PCtx × WStr :=
  match parse_data_type pos with
  | none => ({ p with state := .LINE_START }, pos)
  | some r =>
    let st :=
      if r.parse_type = REG_SZ then PState.STRING_DATA
      else if r.parse_type = REG_DWORD then PState.DWORD_DATA
      else if r.parse_type = REG_BINARY then PState.HEX_DATA
      else PState.UNKNOWN_DATA
    ({ p with parse_type := r.parse_type, data_type := r.data_type, state := st }, r.rest)

/-- `string_data_state`: unescape the payload; the remainder must be blank
or a comment; the stored data is the NUL-terminated wide string. -/
def string_data_state (p : PCtx) (pos : WStr) : PCtx × WStr :=
  match REGPROC_unescape_string pos with
  | none => ({ p with data := [], state := .LINE_START }, pos)
  | some (v, rest) =>
    let r2 := rest.dropWhile isBlank
    if restOk r2 then
      ({ p with data := wideBytes (cstr v ++ [0]), state := .SET_VALUE }, r2)
    else ({ p with data := [], state := .LINE_START }, r2)

/-- `dword_data_state`. -/
def dword_data_state (p : PCtx) (pos : WStr) : PCtx × WStr :=
  match convert_hex_to_dword pos with
  | some dw => ({ p with data := dwordBytes dw, state := .SET_VALUE }, pos)
  | none => ({ p with data := [], state := .LINE_START }, pos)

/-- `prepare_hex_string_data`: for REG_EXPAND_SZ/REG_MULTI_SZ append a
terminating zero byte when the last byte is nonzero (the source reads
`data[size-1]`, which for empty data is an out-of-bounds read; the model
treats that case as already terminated), then widen narrow input. -/
def prepare_hex_string_data (p : PCtx) : PCtx :=
  if p.data_type = REG_EXPAND_SZ || p.data_type = REG_MULTI_SZ then
    let d1 := if (p.data.getLast?).getD 0 ≠ 0 then p.data ++ [0] else p.data
    if p.is_unicode then { p with data := d1 }
    else { p with data := wideBytes (acpToWide d1) }
  else p

/-- `hex_data_state`: parse (more) comma-separated bytes; dispatch on the
continuation flag. -/
def hex_data_state (p : PCtx) (pos : WStr) : PCtx × WStr :=
  match convert_hex_csv_to_hex p.data pos with
  | .fail _ => ({ p with data := [], backslash := false, state := .LINE_START }, pos)
  | .ok d bs rest =>
    if bs then ({ p with data := d, backslash := true, state := .EOL_BACKSLASH }, rest)
    else
      let p2 := prepare_hex_string_data { p with data := d, backslash := false }
      ({ p2 with state := .SET_VALUE }, rest)

/-- `eol_backslash_state`: after the backslash only blanks or a comment. -/
def eol_backslash_state (p : PCtx) (pos : WStr) : PCtx × WStr :=
  let p1 := pos.dropWhile isBlank
  if restOk p1 then ({ p with state := .HEX_MULTILINE }, pos)
  else ({ p with data := [], state := .LINE_START }, p1)

/-- `hex_multiline_state` body once the line is read: skip a blank or
comment line, reject a line that does not resume with a hexadecimal digit,
otherwise continue hex parsing on this line. -/
def hex_multiline_state (p : PCtx) (l : WStr) : PCtx × WStr :=
  let l1 := l.dropWhile isBlank
  match l1 with
  | [] => (p, l1)
  | c :: _ =>
    if c = 59 then (p, l1)
    else if isXDigit c then ({ p with state := .HEX_DATA }, l1)
    else ({ p with data := [], state := .LINE_START }, l1)

/-- `set_value_state`: write the pending value when a key is open, always
release the pending data, and return to line parsing. -/
def set_value_state (p : PCtx) (pos : WStr) : PCtx × WStr :=
  let p2 :=
    match p.hkey with
    | some (cls, segs) =>
      let v : RegValue := ⟨p.value_name.getD [], p.data_type, p.data⟩
      { p with store := storePut p.store cls (treeSet (storeGet p.store cls) segs v),
               ops := p.ops ++ [RegOp.setValue cls segs v] }
    | none => p
  let p3 := { p2 with data := [] }
  if p3.reg_version = some RegVersion.v31 then ({ p3 with state := .PARSE_WIN31_LINE }, pos)
  else ({ p3 with state := .LINE_START }, pos)

/-- The states whose handlers begin by pulling a fresh line. -/
def needsLine : PState → Bool
  | .HEADER | .PARSE_WIN31_LINE | .LINE_START | .HEX_MULTILINE => true
  | _ => false

/-- One step of the dispatch table for the states that work on the current
line position; `none` models `error_exit` terminating the process. -/
def chainStep (p : PCtx) (pos : WStr) : Option (PCtx × WStr) :=
  match p.state with
  | .KEY_NAME => some (key_name_state p pos)
  | .DELETE_KEY => delete_key_state p pos
  | .DEFAULT_VALUE_NAME => some (default_value_name_state p pos)
  | .QUOTED_VALUE_NAME => some (quoted_value_name_state p pos)
  | .DATA_START => some (data_start_state p pos)
  | .DELETE_VALUE => some (delete_value_state p pos)
  | .DATA_TYPE => some (data_type_state p pos)
  | .STRING_DATA => some (string_data_state p pos)
  | .DWORD_DATA => some (dword_data_state p pos)
  | .HEX_DATA => some (hex_data_state p pos)
  | .EOL_BACKSLASH => some (eol_backslash_state p pos)
  | .UNKNOWN_DATA => some ({ p with state := .LINE_START }, pos)
  | .SET_VALUE => some (set_value_state p pos)
  | _ => some (p, pos)

/-- Run the dispatch loop until a line-reading state is reached.  The state
graph of the in-line states is acyclic, with chains of length at most
seven, so fuel 16 always suffices. -/
def chain : Nat → PCtx → WStr → Option PCtx
  | 0, p, _ => some p
  | fuel + 1, p, pos =>
    if needsLine p.state then some p
    else
      match chainStep p pos with
      | none => none
      | some (p2, pos2) => chain fuel p2 pos2

/-- Feed one line to the machine (the machine is in a line-reading state):
run that state's handler and then the in-line dispatch loop.  The returned
flag is false when the parser main loop stops (fatal header). -/
def feed (p : PCtx) (l : WStr) : Option (PCtx × Bool) :=
  match p.state with
  | .HEADER =>
    let (p2, cont) := header_state p l
    if cont then (chain 16 p2 l).map (fun q => (q, true))
    else some (p2, false)
  | .PARSE_WIN31_LINE =>
    let (p2, pos) := parse_win31_line_state p l
    (chain 16 p2 pos).map (fun q => (q, true))
  | .LINE_START =>
    let (p2, pos) := line_start_state p l
    (chain 16 p2 pos).map (fun q => (q, true))
  | .HEX_MULTILINE =>
    let (p2, pos) := hex_multiline_state p l
    (chain 16 p2 pos).map (fun q => (q, true))
  | _ => some (p, false)

/-- Behaviour at end of stream.  A line-reading state other than
HEX_MULTILINE receives NULL and stops.  HEX_MULTILINE finalizes the
pending hex data and sets the value; the line reader's static buffer then
yields one final empty line (a no-op for LINE_START and
PARSE_WIN31_LINE) before NULL stops the loop. -/
def runEpilogue (p : PCtx) : Option PCtx :=
  match p.state with
  | .HEX_MULTILINE =>
    let p1 := { prepare_hex_string_data p with state := PState.SET_VALUE }
    match chain 16 p1 [] with
    | none => none
    | some p2 =>
      match feed p2 [] with
      | none => none
      | some (p3, _) => some p3
  | _ => some p

/-- The parser main loop over the logical lines of the file. -/
def runLines : PCtx → List WStr → Option PCtx
  | p, [] => runEpilogue p
  | p, l :: ls =>
    match feed p l with
    | none => none
    | some (p2, true) => runLines p2 ls
    | some (p2, false) => some p2

/-- `import_registry_file`: sniff the first two bytes for the byte-order
mark, decode the rest of the stream into logical lines (narrow bytes via
the modelled code page, wide as little-endian code-unit pairs), run the
state machine, and report failure only for an invalid header.  `none`
models process termination through `error_exit`. -/
def import_registry_file (file : Bytes) (st : Store) :
    Option (Bool × Store × List RegOp) :=
  match file with
  | b0 :: b1 :: rest =>
    let uni := b0 == 255 && b1 == 254
    let lines := if uni then splitLines (bytePairs rest) else splitLines (acpToWide rest)
    let p0 : PCtx :=
      ⟨uni, [b0, b1], none, none, none, 0, 0, [], false, .HEADER, st, []⟩
    match runLines p0 lines with
    | none => none
    | some q =>
      if q.reg_version = some RegVersion.fuzzy then some (true, q.store, q.ops)
      else if q.reg_version = some RegVersion.invalid then some (false, q.store, q.ops)
      else some (true, q.store, q.ops)
  | _ => some (false, st, [])

/-! ## Export walker -/

/-- The escape emitted by `REGPROC_export_string` for one character (no
NUL case: the input is always measured by `lstrlenW`). -/
def exportStrChar (c : Nat) : WStr :=
  if c = 10 then [92, 110] else if c = 13 then [92, 114]
  else if c = 92 || c = 34 then [92, c] else [c]

/-- `REGPROC_export_string`: escape LF, CR, backslash and quote. -/
def REGPROC_export_string : WStr → WStr
  | [] => []
  | c :: rest => exportStrChar c ++ REGPROC_export_string rest

/-- The `hex:` or `hex(%x):` prefix used by both hex renderers. -/
def hexPrefixText (ty : Nat) : WStr :=
  if ty = REG_BINARY then strW "hex:" else strW "hex(" ++ toHex ty ++ strW "):"

/-- Shared wrapping loop of `REGPROC_export_binary` and `export_hex_data`:
render each byte as two hex digits; after each comma add 3 to the column
counter, and at 77 or more emit backslash, CRLF and a two-space indent,
resetting the counter to 2. -/
def hexWrapLoop : Nat → Bytes → WStr
  | _, [] => []
  | _, [b] => toHex2 b
  | col, b :: rest =>
    let c2 := col + 3
    toHex2 b ++ [44] ++
      (if 77 ≤ c2 then [92, 13, 10, 32, 32] ++ hexWrapLoop 2 rest
       else hexWrapLoop c2 rest)

/-- `REGPROC_export_binary`: hex rendering used by `export_hkey`; for the
string types in narrow mode the wide payload is converted to narrow bytes
first.  Includes the trailing CRLF the function writes. -/
def REGPROC_export_binary (ty : Nat) (data : Bytes) (lineLen : Nat) (uni : Bool) : WStr :=
  let pre := hexPrefixText ty
  let d :=
    if (ty = REG_SZ || ty = REG_EXPAND_SZ || ty = REG_MULTI_SZ) && !uni then
      acpFromWide (bytePairs data)
    else data
  -- for empty data the source writes an uninitialized buffer (undefined);
  -- the model renders nothing
  pre ++ hexWrapLoop (lineLen + pre.length) d ++ [13, 10]

/-- `export_hkey` (as called for REG_SZ values): a well-formed
NUL-terminated wide payload is rendered as a quoted escaped string,
anything else through the generic binary renderer. -/
def export_hkey_text (uni : Bool) (ty : Nat) (data : Bytes) : WStr :=
  if 2 ≤ data.length ∧ data.length % 2 = 0 ∧ (bytePairs data).getLast? = some 0 then
    [34] ++ REGPROC_export_string (cstr (bytePairs data)) ++ [34, 13, 10]
  else REGPROC_export_binary ty data 0 uni

/-- `export_value_name`: `"escaped"=` or `@=` for the default value. -/
def export_value_name_text (name : WStr) : WStr :=
  if name ≠ [] then [34] ++ REGPROC_escape_string name ++ [34, 61]
  else [64, 61]

/-- The DWORD stored in the first four bytes, little endian (the source
reads a DWORD from the buffer regardless of the stored size; the model
zero-extends short data). -/
def dwordOfBytes (d : Bytes) : Nat :=
  d.getD 0 0 + 256 * d.getD 1 0 + 65536 * d.getD 2 0 + 16777216 * d.getD 3 0

/-- `export_dword_data`: `dword:%08x`. -/
def export_dword_text (data : Bytes) : WStr := strW "dword:" ++ toHex8 (dwordOfBytes data)

/-- `export_hex_data`: type prefix, narrow conversion for the expandable
string types, then the wrapped byte list (trailing CRLF added by
`export_data`). -/
def export_hex_data_text (uni : Bool) (ty : Nat) (lineLen : Nat) (data : Bytes) : WStr :=
  let pre := hexPrefixText ty
  let d :=
    if !uni && (ty = REG_EXPAND_SZ || ty = REG_MULTI_SZ) then acpFromWide (bytePairs data)
    else data
  pre ++ hexWrapLoop (lineLen + pre.length) d

/-- `export_data`: dword or hex rendering plus the final CRLF. -/
def export_data_text (uni : Bool) (ty : Nat) (lineLen : Nat) (data : Bytes) : WStr :=
  (if ty = REG_DWORD then export_dword_text data
   else export_hex_data_text uni ty lineLen data) ++ [13, 10]

/-- One value line (possibly wrapped over several physical lines), as
written by `export_registry_data`: the name, then either the generic data
renderer (all types except REG_SZ) or `export_hkey`. -/
def exportValueText (uni : Bool) (v : RegValue) : WStr :=
  let nm := export_value_name_text v.name
  nm ++ (if v.ty ≠ REG_SZ then export_data_text uni v.ty nm.length v.data
         else export_hkey_text uni v.ty v.data)

/-- `export_key_name`: a blank line then `[path]`. -/
def export_key_name_text (path : WStr) : WStr := [13, 10, 91] ++ path ++ [93, 13, 10]

/-- The value section of one key. -/
def exportValues (uni : Bool) : List RegValue → WStr
  | [] => []
  | v :: rest => exportValueText uni v ++ exportValues uni rest

mutual
/-- `export_registry_data`: the key header, its values, then every subkey
depth-first in enumeration order. -/
def exportTree (uni : Bool) (path : WStr) : RegTree → WStr
  | .mk vals subs =>
    export_key_name_text path ++ exportValues uni vals ++ exportSubs uni path subs
/-- The recursive subkey walk, with paths built by `build_subkey_path`. -/
def exportSubs (uni : Bool) (path : WStr) : SubkeyList → WStr
  | .nil => []
  | .cons n t rest => exportTree uni (path ++ [92] ++ n) t ++ exportSubs uni path rest
end

/-- The full text written by `REGPROC_open_export_file` followed by
`export_registry_data`. -/
def exportFileText (uni : Bool) (path : WStr) (t : RegTree) : WStr :=
  (if uni then header50 else header40) ++ [13, 10] ++ exportTree uni path t

/-- The bytes of the exported file: in wide mode the byte-order mark and
UTF-16LE code units, in narrow mode the code-page conversion of each
written line (identity code page model). -/
def exportFileBytes (uni : Bool) (path : WStr) (t : RegTree) : Bytes :=
  if uni then 255 :: 254 :: wideBytes (exportFileText true path t)
  else acpFromWide (exportFileText false path t)

/-- Key lookup along a path (`RegOpenKeyExW` for the export side). -/
def treeGetPath : RegTree → List WStr → Option RegTree
  | t, [] => some t
  | t, n :: rest =>
    match subFind t.subkeys n with
    | none => none
    | some u => treeGetPath u rest

/-- `export_key` as reached from `export_registry_key` with a nonempty
path: resolve the root class, open the key, and produce the file bytes
(`none` when the class or key cannot be opened). -/
def export_key_bytes (st : Store) (path : WStr) (uni : Bool) : Option Bytes :=
  match parse_key_name path with
  | none => none
  | some (cls, sub) =>
    match treeGetPath (storeGet st cls) (segsOf sub) with
    | none => none
    | some t => some (exportFileBytes uni path t)

/-! ## Well-formedness of stores and paths

The round-trip law holds for values whose representation survives the
textual form: string-typed data must be genuine NUL-terminated wide text,
DWORD data must be exactly four bytes, hex-rendered data must be nonempty,
and in narrow mode every character must fit the single-byte code page. -/

/-- Characters representable in the chosen output encoding. -/
def charsOk (uni : Bool) (l : WStr) : Bool :=
  l.all (fun c => c < if uni then 65536 else 256)

/-- An even-length buffer of bytes (a valid WCHAR buffer image). -/
def isWideData (d : Bytes) : Bool :=
  d.length % 2 = 0 && d.all (fun b => b < 256)

/-- Well-formed value payload for the given type and encoding. -/
def wfValue (uni : Bool) (v : RegValue) : Bool :=
  (v.name.all (fun c => c ≠ 0)) && charsOk uni v.name &&
  (if v.ty = REG_DWORD then v.data.length = 4 && v.data.all (fun b => b < 256)
   else if v.ty = REG_SZ then
     isWideData v.data && 2 ≤ v.data.length &&
     (bytePairs v.data).getLast? = some 0 &&
     (bytePairs v.data).dropLast.all (fun c => c ≠ 0) &&
     charsOk uni (bytePairs v.data)
   else if v.ty = REG_EXPAND_SZ || v.ty = REG_MULTI_SZ then
     isWideData v.data && 2 ≤ v.data.length &&
     (bytePairs v.data).getLast? = some 0 &&
     charsOk uni (bytePairs v.data)
   else v.ty < 4294967296 && v.data ≠ [] && v.data.all (fun b => b < 256))

/-- Pairwise distinct value names within one key. -/
def distinctNames : List RegValue → Bool
  | [] => true
  | v :: rest => rest.all (fun w => w.name ≠ v.name) && distinctNames rest

/-- A legal key name: nonempty, within the enumeration buffer, free of
NUL, CR, LF and backslash, and representable in the output encoding. -/
def wfName (uni : Bool) (n : WStr) : Bool :=
  n ≠ [] && n.length ≤ 256 && charsOk uni n &&
  n.all (fun c => c ≠ 0 && c ≠ 13 && c ≠ 10 && c ≠ 92)

/-- No child of this name in the list. -/
def subAbsent : SubkeyList → WStr → Bool
  | .nil, _ => true
  | .cons m _ rest, n => m ≠ n && subAbsent rest n

mutual
/-- Well-formed key: well-formed distinct values and subkeys. -/
def wfTree (uni : Bool) : RegTree → Bool
  | .mk vals subs => vals.all (wfValue uni) && distinctNames vals && wfSubs uni subs
/-- Well-formed subkey list: legal distinct names, recursively. -/
def wfSubs (uni : Bool) : SubkeyList → Bool
  | .nil => true
  | .cons n t rest => wfName uni n && wfTree uni t && subAbsent rest n && wfSubs uni rest
end

/-- Join path segments with backslashes. -/
def joinSegs : List WStr → WStr
  | [] => []
  | [s] => s
  | s :: rest => s ++ [92] ++ joinSegs rest

/-- The textual key path for a root class and segment list. -/
def pathText (cls : Nat) (segs : List WStr) : WStr :=
  match segs with
  | [] => regClassNames.getD cls []
  | _ => regClassNames.getD cls [] ++ [92] ++ joinSegs segs

/-- A single chain of empty keys along `segs` ending in `t`. -/
def graft : List WStr → RegTree → RegTree
  | [], t => t
  | n :: rest, t => RegTree.mk [] (.cons n (graft rest t) .nil)

/-- The header text actually classified by `header_state` for a given
file: the first decoded line, with the two sniffed characters prepended in
narrow mode. -/
def headerLineOf (file : Bytes) : WStr :=
  match file with
  | b0 :: b1 :: rest =>
    if b0 == 255 && b1 == 254 then (splitLines (bytePairs rest)).headI
    else [b0, b1] ++ (splitLines (acpToWide rest)).headI
  | _ => []

end Regproc

deriving instance DecidableEq for Regproc.RegTree

open Regproc

/-! ## Basic list lemmas -/

namespace Regproc

theorem dropWhile_append_all {p : Nat → Bool} {ws r : WStr} (h : ws.all p = true) :
    (ws ++ r).dropWhile p = r.dropWhile p := by
  induction ws with
  | nil => rfl
  | cons c t ih =>
    simp only [List.all_cons, Bool.and_eq_true] at h
    simpa [List.dropWhile_cons, h.1] using ih h.2

theorem dropWhile_all_nil {p : Nat → Bool} {ws : WStr} (h : ws.all p = true) :
    ws.dropWhile p = [] := by
  simpa using dropWhile_append_all (r := []) h

theorem takeWhile_append_all {p : Nat → Bool} {ws r : WStr} (h : ws.all p = true) :
    (ws ++ r).takeWhile p = ws ++ r.takeWhile p := by
  induction ws with
  | nil => rfl
  | cons c t ih =>
    simp only [List.all_cons, Bool.and_eq_true] at h
    simpa [List.takeWhile_cons, h.1] using ih h.2

theorem dropWhile_head_neg {p : Nat → Bool} {c : Nat} {r : WStr} (h : p c = false) :
    (c :: r).dropWhile p = c :: r := by
  simp [List.dropWhile_cons, h]

theorem takeWhile_head_neg {p : Nat → Bool} {c : Nat} {r : WStr} (h : p c = false) :
    (c :: r).takeWhile p = [] := by
  simp [List.takeWhile_cons, h]

theorem splitLines_ne_nil (l : WStr) : splitLines l ≠ [] := by
  induction l using splitLines.induct with
  | case1 => simp [splitLines]
  | case2 rest ih => simp [splitLines]
  | case3 rest ih => simp [splitLines]
  | case4 rest ih => simp [splitLines]
  | case5 c rest h1 h2 h3 ih =>
    simp only [splitLines]
    split <;> simp_all
  | case6 => simp_all

end Regproc

namespace Regproc

theorem isSpaceC_of_isBlank {c : Nat} (h : isBlank c = true) : isSpaceC c = true := by
  simp only [isBlank, Bool.or_eq_true, beq_iff_eq] at h
  rcases h with h | h <;> simp [isSpaceC, h]

theorem all_isSpaceC_of_all_isBlank {ws : WStr} (h : ws.all isBlank = true) :
    ws.all isSpaceC = true := by
  rw [List.all_eq_true] at h ⊢
  exact fun c hc => isSpaceC_of_isBlank (h c hc)

end Regproc

namespace Regproc

theorem wideBytes_length (l : WStr) : (wideBytes l).length = 2 * l.length := by
  induction l with
  | nil => rfl
  | cons c rest ih => simp [wideBytes, ih]; ring

/-- `strtoul` consumes nothing at a blank run followed by a character that
is neither space, sign, nor hexadecimal digit. -/
theorem wcstoul16_stuck {ws : WStr} (hws : ws.all isBlank = true) {c : Nat} (r : WStr)
    (hc1 : isSpaceC c = false) (hc2 : c ≠ 43) (hc3 : c ≠ 45)
    (hc4 : isXDigit c = false) :
    wcstoul16 (ws ++ c :: r) = ⟨0, 0, false⟩ := by
  have hsp := all_isSpaceC_of_all_isBlank hws
  have h48 : c ≠ 48 := by intro h; subst h; simp [isXDigit] at hc4
  have htw : (ws ++ c :: r).takeWhile isSpaceC = ws := by
    rw [takeWhile_append_all hsp, takeWhile_head_neg hc1, List.append_nil]
  have htx : (c :: r).takeWhile isXDigit = [] := takeWhile_head_neg hc4
  have hpfx : hasHexPrefix (c :: r) = false := by
    simp [hasHexPrefix, List.take_succ_cons, h48]
  simp only [wcstoul16, htw, List.drop_left, scanHex]
  simp [hc2, hc3, hexListVal, hpfx, htx]

/-- `strtoul` on a literal `0` digit followed by a blank: value 0, one
character consumed. -/
theorem wcstoul16_zero_blank {w : Nat} (tail : WStr) (hw : isBlank w = true) :
    wcstoul16 (48 :: w :: tail) = ⟨0, 1, false⟩ := by
  have hw' : w = 32 ∨ w = 9 := by
    simp only [isBlank, Bool.or_eq_true, beq_iff_eq] at hw
    exact hw
  have hxw : isXDigit w = false := by rcases hw' with h | h <;> simp [isXDigit, h]
  have hpw : w ≠ 120 ∧ w ≠ 88 := by rcases hw' with h | h <;> simp [h]
  have htw : (48 :: w :: tail).takeWhile isSpaceC = [] := takeWhile_head_neg (by decide)
  have hpfx : hasHexPrefix (48 :: w :: tail) = false := by
    simp [hasHexPrefix, List.take_succ_cons, hpw.1, hpw.2]
  have htx : (48 :: w :: tail).takeWhile isXDigit = [48] := by
    rw [List.takeWhile_cons_of_pos (by decide), takeWhile_head_neg hxw]
  simp only [wcstoul16, htw, List.length_nil, List.drop_zero, scanHex]
  simp [hexListVal, hexVal, hpfx, htx]

/-- Claim C4 (amended): the continuation-escape sentinel is a token at
which `strtoul` consumes no digits (so the scan pointer stays put and the
value is 0), followed by optional blanks and a backslash: there parsing
succeeds with the continuation flag set and nothing appended.  A literal
digit `0` followed by whitespace and a backslash is instead a parse error:
the zero byte is appended to the pending buffer and parsing fails. -/
theorem c4_amended (ws r : WStr) (data : Bytes) (hws : ws.all isBlank = true) :
    convert_hex_csv_to_hex data (ws ++ 92 :: r) = CsvOut.ok data true r
    ∧ (ws ≠ [] →
        convert_hex_csv_to_hex data (48 :: (ws ++ 92 :: r)) = CsvOut.fail (data ++ [0])) := by
  have hdw : (ws ++ 92 :: r).dropWhile isBlank = 92 :: r := by
    rw [dropWhile_append_all hws, dropWhile_head_neg (by decide)]
  constructor
  · have hw := wcstoul16_stuck hws (c := 92) r (by decide) (by decide) (by decide) (by decide)
    obtain ⟨c, cs, hcc⟩ : ∃ c cs, ws ++ 92 :: r = c :: cs := by
      cases ws <;> exact ⟨_, _, rfl⟩
    unfold convert_hex_csv_to_hex
    rw [show (ws ++ 92 :: r).length + 2 = ((ws ++ 92 :: r).length + 1) + 1 from rfl]
    rw [hcc] at hw hdw ⊢
    simp [convertHexCsvAux, hw, hdw]
  · intro hne
    obtain ⟨w, ws2, rfl⟩ : ∃ w ws2, ws = w :: ws2 := by
      cases ws with
      | nil => exact absurd rfl hne
      | cons a b => exact ⟨a, b, rfl⟩
    have hwb : isBlank w = true := by
      simp only [List.all_cons, Bool.and_eq_true] at hws; exact hws.1
    have hw := wcstoul16_zero_blank (ws2 ++ 92 :: r) hwb
    have hw44 : w ≠ 44 := by
      rcases (by simpa [isBlank] using hwb : w = 32 ∨ w = 9) with h | h <;> simp [h]
    unfold convert_hex_csv_to_hex
    rw [show (48 :: (w :: ws2 ++ 92 :: r)).length + 2
          = ((48 :: (w :: ws2 ++ 92 :: r)).length + 1) + 1 from rfl]
    simp only [convertHexCsvAux, List.cons_append] at hw hdw ⊢
    simp [hw, hdw, hw44]

/-- Claim C4 witness. -/
theorem c4_amended_witness :
    convert_hex_csv_to_hex [] ([32] ++ 92 :: []) = CsvOut.ok [] true []
    ∧ (([32] : WStr) ≠ [] →
        convert_hex_csv_to_hex [] (48 :: ([32] ++ 92 :: [])) = CsvOut.fail ([] ++ [0])) :=
  c4_amended [32] [] [] (by decide)

/-- Claim C5 (amended): for a completed REG_EXPAND_SZ or REG_MULTI_SZ hex
byte list, a single zero byte is appended when the final byte is nonzero,
and when the input file is narrow the buffer is then reinterpreted from
narrow to wide encoding (each byte becomes one wide character through the
code page, doubling the stored size) before the value is set. -/
theorem c5_amended (p : PCtx) (hty : p.data_type = REG_EXPAND_SZ ∨ p.data_type = REG_MULTI_SZ)
    (huni : p.is_unicode = false) :
    (prepare_hex_string_data p).data
      = wideBytes (acpToWide
          (if (p.data.getLast?).getD 0 ≠ 0 then p.data ++ [0] else p.data))
    ∧ (prepare_hex_string_data p).data.length
      = 2 * (if (p.data.getLast?).getD 0 ≠ 0 then p.data.length + 1 else p.data.length) := by
  have hc : (decide (p.data_type = REG_EXPAND_SZ) || decide (p.data_type = REG_MULTI_SZ)) = true := by
    rcases hty with h | h <;> simp [h]
  by_cases h : (p.data.getLast?).getD 0 = 0 <;>
    simp_all [prepare_hex_string_data, hc, wideBytes_length, acpToWide, Nat.mul_add]

/-- Claim C5 witness. -/
theorem c5_amended_witness :
    (prepare_hex_string_data
        ⟨false, [], none, none, none, REG_BINARY, REG_EXPAND_SZ, [65], false,
         .HEX_DATA, emptyStore, []⟩).data
      = wideBytes (acpToWide
          (if ((([65] : Bytes).getLast?).getD 0 ≠ 0) then [65] ++ [0] else [65]))
    ∧ (prepare_hex_string_data
        ⟨false, [], none, none, none, REG_BINARY, REG_EXPAND_SZ, [65], false,
         .HEX_DATA, emptyStore, []⟩).data.length
      = 2 * (if ((([65] : Bytes).getLast?).getD 0 ≠ 0) then ([65] : Bytes).length + 1
             else ([65] : Bytes).length) :=
  c5_amended _ (Or.inl rfl) rfl

/-- Claim C9 (amended): a data portion of `dword:` followed by zero
hexadecimal digits and then a `;` comment, optionally preceded by blanks,
is accepted: `convert_hex_to_dword` succeeds with value 0, and feeding the
value line `"v"=dword:;x` to the machine in line-start state with an open
key sets the value `v` on that key as a `REG_DWORD` equal to 0; when only
whitespace (or nothing) follows `dword:`, the conversion is rejected and
the line is skipped with the store untouched. -/
theorem c9_amended (ws r : WStr) (hws : ws.all isBlank = true)
    (p : PCtx) (cls : Nat) (segs : List WStr)
    (hst : p.state = PState.LINE_START)
    (hk : p.hkey = some (cls, segs))
    (hdat : p.data = [])
    (hv : p.reg_version ≠ some RegVersion.v31) :
    convert_hex_to_dword (ws ++ 59 :: r) = some 0
    ∧ convert_hex_to_dword ws = none
    ∧ feed p ([34, 118, 34, 61] ++ strW "dword:;x")
      = some ({ p with
          value_name := some [118],
          parse_type := REG_DWORD,
          data_type := REG_DWORD,
          data := [],
          state := PState.LINE_START,
          store := storePut p.store cls
            (treeSet (storeGet p.store cls) segs ⟨[118], REG_DWORD, dwordBytes 0⟩),
          ops := p.ops ++ [RegOp.setValue cls segs
            ⟨[118], REG_DWORD, dwordBytes 0⟩] }, true)
    ∧ feed p ([34, 118, 34, 61] ++ strW "dword: ")
      = some ({ p with
          value_name := some [118],
          parse_type := REG_DWORD,
          data_type := REG_DWORD,
          data := [],
          state := PState.LINE_START }, true) := by
  have h1 : (ws ++ 59 :: r).dropWhile isBlank = 59 :: r := by
    rw [dropWhile_append_all hws, dropWhile_head_neg (by decide)]
  have hc1 : convert_hex_to_dword (ws ++ 59 :: r) = some 0 := by
    have h2 : (59 :: r).takeWhile isXDigit = [] := takeWhile_head_neg (by decide)
    simp [convert_hex_to_dword, h1, h2, hexListVal,
      dropWhile_head_neg (p := isBlank) (c := 59) (by decide)]
  have hc2 : convert_hex_to_dword ws = none := by
    simp [convert_hex_to_dword, dropWhile_all_nil hws]
  obtain ⟨u, tw, rv, hk0, vn, pt, dt, dat, bsl, st, sto, opsl⟩ := p
  dsimp only at hst hk hdat
  subst hst
  subst hk
  subst hdat
  refine ⟨hc1, hc2, ?_, ?_⟩
  · rcases rv with _ | v
    · rfl
    · cases v
      case v31 => exact absurd rfl hv
      all_goals rfl
  · rfl

/-- Claim C9 witness at a concrete context: an open key `k` under root
class 2, version v4.0, empty pending data. -/
theorem c9_amended_witness :
    convert_hex_to_dword ([32] ++ 59 :: strW "x") = some 0
    ∧ convert_hex_to_dword [32] = none
    ∧ feed (⟨false, [], some RegVersion.v40, some (2, [[107]]), none, 0, 0, [],
          false, PState.LINE_START, emptyStore, []⟩ : PCtx)
        ([34, 118, 34, 61] ++ strW "dword:;x")
      = some ({ (⟨false, [], some RegVersion.v40, some (2, [[107]]), none, 0, 0, [],
            false, PState.LINE_START, emptyStore, []⟩ : PCtx) with
          value_name := some [118],
          parse_type := REG_DWORD,
          data_type := REG_DWORD,
          data := [],
          state := PState.LINE_START,
          store := storePut emptyStore 2
            (treeSet (storeGet emptyStore 2) [[107]] ⟨[118], REG_DWORD, dwordBytes 0⟩),
          ops := [] ++ [RegOp.setValue 2 [[107]]
            ⟨[118], REG_DWORD, dwordBytes 0⟩] }, true)
    ∧ feed (⟨false, [], some RegVersion.v40, some (2, [[107]]), none, 0, 0, [],
          false, PState.LINE_START, emptyStore, []⟩ : PCtx)
        ([34, 118, 34, 61] ++ strW "dword: ")
      = some ({ (⟨false, [], some RegVersion.v40, some (2, [[107]]), none, 0, 0, [],
            false, PState.LINE_START, emptyStore, []⟩ : PCtx) with
          value_name := some [118],
          parse_type := REG_DWORD,
          data_type := REG_DWORD,
          data := [],
          state := PState.LINE_START }, true) :=
  c9_amended [32] (strW "x") (by decide)
    (⟨false, [], some RegVersion.v40, some (2, [[107]]), none, 0, 0, [],
      false, PState.LINE_START, emptyStore, []⟩ : PCtx)
    2 [[107]] rfl rfl rfl (by decide)

end Regproc

/-! ## Claim C7 -/

/-- Claim C7: `parse_data_type` on `hex(7):01,02` succeeds with parse kind
binary (`REG_BINARY`), resolved data type 7, and the remainder positioned
at `01,02`; on `hex(zz):` it fails. -/
theorem c7_parse_data_type :
    parse_data_type (strW "hex(7):01,02") = some ⟨REG_BINARY, 7, strW "01,02"⟩
      ∧ parse_data_type (strW "hex(zz):") = none :=
  ⟨by decide, by decide⟩

/-! ## Counterexamples for the corrected claims -/

/-- Claim C1 counterexample: a store holding a single `REG_EXPAND_SZ` value
whose data is the lone byte `0x41` does not round-trip through wide-mode
export and import: the import appends a terminating zero byte, so the
resulting store differs from the original. -/
theorem c1_counterexample :
    (export_key_bytes
        (storePut emptyStore 4 (RegTree.mk [⟨[101], REG_EXPAND_SZ, [65]⟩] .nil))
        (pathText 4 []) true).bind
      (fun f => import_registry_file f emptyStore)
      = some (true,
          storePut emptyStore 4 (RegTree.mk [⟨[101], REG_EXPAND_SZ, [65, 0]⟩] .nil),
          [RegOp.createKey 4 [], RegOp.setValue 4 [] ⟨[101], REG_EXPAND_SZ, [65, 0]⟩])
    ∧ storePut emptyStore 4 (RegTree.mk [⟨[101], REG_EXPAND_SZ, [65, 0]⟩] .nil)
        ≠ storePut emptyStore 4 (RegTree.mk [⟨[101], REG_EXPAND_SZ, [65]⟩] .nil) :=
  ⟨rfl, by decide⟩

/-- Claim C3 counterexample: with a valid v4 header, a key-deletion line
whose path starts with `H` but resolves to no root class
(`[-HX\y]`), or names a root class with an empty subkey path
(`[-HKEY_CURRENT_USER\]`), terminates the whole process through
`error_exit` (modelled as `none`) instead of being skipped. -/
theorem c3_counterexample :
    import_registry_file (acpFromWide (strW "REGEDIT4\r\n[-HX\\y]\r\n")) emptyStore = none
    ∧ import_registry_file
        (acpFromWide (strW "REGEDIT4\r\n[-HKEY_CURRENT_USER\\]\r\n")) emptyStore = none :=
  ⟨rfl, rfl⟩

/-- Claim C4 counterexample: on the token `0` followed by a blank and a
final backslash, `convert_hex_csv_to_hex` parses the digit (so the
`s == end` sentinel test fails), appends the zero byte, and rejects the
line; it does not succeed with the continuation flag. -/
theorem c4_counterexample :
    convert_hex_csv_to_hex [] [48, 32, 92] = CsvOut.fail [0]
    ∧ convert_hex_csv_to_hex [] [48, 32, 92] ≠ CsvOut.ok [] true [] :=
  ⟨by decide, by decide⟩

/-- Claim C5's narrow re-encoding step as the claim words it: the buffer
(after the defensive zero) reinterpreted from wide to narrow encoding. -/
def prepareClaimC5 (data : Bytes) : Bytes :=
  let d1 := if (data.getLast?).getD 0 ≠ 0 then data ++ [0] else data
  acpFromWide (bytePairs d1)

/-- Claim C5 counterexample: for a narrow-mode `REG_EXPAND_SZ` payload of
the single byte `0x41`, `prepare_hex_string_data` produces the wide
reinterpretation `41 00 00 00` (narrow to wide, size doubled), not the
claimed wide-to-narrow conversion, which would give `41`. -/
theorem c5_counterexample :
    (prepare_hex_string_data
        ⟨false, [], none, none, none, REG_BINARY, REG_EXPAND_SZ, [65], false,
         .HEX_DATA, emptyStore, []⟩).data = [65, 0, 0, 0]
    ∧ prepareClaimC5 [65] = [65]
    ∧ ([65, 0, 0, 0] : Bytes) ≠ [65] :=
  ⟨rfl, rfl, by decide⟩

/-- Claim C6 counterexample: a stored `REG_SZ` value whose single data byte
is `0x41` (not a NUL-terminated wide string) is exported through the hex
byte-list renderer as `hex(1):41`, not as a double-quoted string. -/
theorem c6_counterexample :
    export_hkey_text true REG_SZ [65] = strW "hex(1):41" ++ [13, 10]
    ∧ (export_hkey_text true REG_SZ [65]).take 1 ≠ [34] :=
  ⟨by decide, by decide⟩

set_option maxRecDepth 8192 in
/-- Claim C8 counterexample: with an 80-character value name, the first
physical line rendered for a two-byte `REG_BINARY` value is 91 columns
long — more than 77 even after dropping two leading columns. -/
theorem c8_counterexample :
    77 < (((splitLines
        (exportValueText false ⟨List.replicate 80 97, REG_BINARY, [1, 2]⟩)).headI).drop 2).length
    ∧ ((splitLines
        (exportValueText false ⟨List.replicate 80 97, REG_BINARY, [1, 2]⟩)).headI).length = 91 :=
  ⟨by decide, by decide⟩

/-- Claim C9 counterexample: the value line `"v"=dword:` followed by only
whitespace is rejected (the trailing blank is trimmed, leaving nothing
after `dword:`, which `convert_hex_to_dword` refuses), so no value is set
even though the data portion is `dword:` plus zero digits and whitespace. -/
theorem c9_counterexample :
    import_registry_file
        (acpFromWide (strW "REGEDIT4\r\n[HKEY_CURRENT_USER\\k]\r\n\"v\"=dword: \r\n"))
        emptyStore
      = some (true,
          storePut emptyStore 4 (RegTree.mk [] (.cons [107] (.mk [] .nil) .nil)),
          [RegOp.createKey 4 [[107]]]) :=
  rfl

/-! ## Claim C2 -/

namespace Regproc

/-- The claim's fuzzy-header shape: after optional leading whitespace the
line begins with `REGEDIT` but is none of the three exact headers. -/
def fuzzyHeaderSpec (l : WStr) : Bool :=
  let s := l.dropWhile isBlank
  decide (s.take 7 = header31) && decide (s ≠ header31) && decide (s ≠ header40)
    && decide (s ≠ header50)

/-- The claim's invalid-header shape: after optional leading whitespace the
line neither begins with `REGEDIT` nor is the v5 header. -/
def invalidHeaderSpec (l : WStr) : Bool :=
  let s := l.dropWhile isBlank
  decide (s.take 7 ≠ header31) && decide (s ≠ header50)

theorem parse_file_header_of_fuzzy {l : WStr} (h : fuzzyHeaderSpec l = true) :
    parse_file_header l = RegVersion.fuzzy := by
  simp only [fuzzyHeaderSpec, Bool.and_eq_true, decide_eq_true_eq] at h
  obtain ⟨⟨⟨h7, h31⟩, h40⟩, h50⟩ := h
  simp [parse_file_header, h7, h31, h40, h50]

theorem parse_file_header_of_invalid {l : WStr} (h : invalidHeaderSpec l = true) :
    parse_file_header l = RegVersion.invalid := by
  simp only [invalidHeaderSpec, Bool.and_eq_true, decide_eq_true_eq] at h
  obtain ⟨h7, h50⟩ := h
  have h31 : l.dropWhile isBlank ≠ header31 := by
    intro he; exact h7 (by rw [he]; rfl)
  have h40 : l.dropWhile isBlank ≠ header40 := by
    intro he; exact h7 (by rw [he]; rfl)
  simp [parse_file_header, h7, h31, h40, h50]

/-- `header_state` classifying the first line as fuzzy or invalid stops the
whole run with the store untouched and no operation performed. -/
theorem import_stops_on_bad_header (file : Bytes) (st : Store) :
    (parse_file_header (headerLineOf file) = RegVersion.fuzzy →
      import_registry_file file st = some (true, st, []))
    ∧ (parse_file_header (headerLineOf file) = RegVersion.invalid →
      import_registry_file file st = some (false, st, [])) := by
  match file with
  | [] =>
    exact ⟨fun h => absurd h (by decide), fun _ => rfl⟩
  | [b] =>
    rw [show headerLineOf [b] = [] from rfl]
    exact ⟨fun h => absurd h (by decide), fun _ => rfl⟩
  | b0 :: b1 :: rest =>
    have hsplitW := splitLines_ne_nil (bytePairs rest)
    have hsplitA := splitLines_ne_nil (acpToWide rest)
    obtain ⟨lw, lsw, hw⟩ := List.exists_cons_of_ne_nil hsplitW
    obtain ⟨la, lsa, ha⟩ := List.exists_cons_of_ne_nil hsplitA
    by_cases huni : (b0 == 255 && b1 == 254) = true
    · have hhdr : headerLineOf (b0 :: b1 :: rest) = lw := by
        simp [headerLineOf, huni, hw]
      rw [hhdr]
      constructor <;> intro h <;>
        simp [import_registry_file, huni, hw, runLines, feed, header_state, h]
    · have hhdr : headerLineOf (b0 :: b1 :: rest) = b0 :: b1 :: la := by
        simp only [headerLineOf, huni]
        rw [ha]
        simp
      rw [hhdr]
      constructor <;> intro h <;>
        simp [import_registry_file, huni, ha, runLines, feed, header_state, h]

end Regproc

/-- Claim C2: for every input (free of NUL bytes, so C-string line handling
is faithful) whose first line, after optional leading whitespace, begins
with `REGEDIT` but is not exactly `REGEDIT`, `REGEDIT4`, or the v5 header,
`import_registry_file` reports overall success with the store untouched and
no store operation performed; for a first line matching none of these forms
it reports overall failure, likewise with no store operation. -/
theorem c2_header_behaviour (file : Bytes) (st : Store) (h0 : (0 : Nat) ∉ file) :
    (fuzzyHeaderSpec (headerLineOf file) = true →
      import_registry_file file st = some (true, st, []))
    ∧ (invalidHeaderSpec (headerLineOf file) = true →
      import_registry_file file st = some (false, st, [])) :=
  ⟨fun h => (import_stops_on_bad_header file st).1 (parse_file_header_of_fuzzy h),
   fun h => (import_stops_on_bad_header file st).2 (parse_file_header_of_invalid h)⟩

/-- Claim C2 witness: the behaviour at the concrete headers `REGEDIT9`
(success, nothing imported) and `NOTAREGFILE` (failure). -/
theorem c2_header_behaviour_witness :
    ((fuzzyHeaderSpec (headerLineOf (acpFromWide (strW "REGEDIT9\r\n[HKEY_USERS\\x]\r\n"))) = true →
        import_registry_file (acpFromWide (strW "REGEDIT9\r\n[HKEY_USERS\\x]\r\n")) emptyStore
          = some (true, emptyStore, []))
      ∧ (invalidHeaderSpec (headerLineOf (acpFromWide (strW "REGEDIT9\r\n[HKEY_USERS\\x]\r\n"))) = true →
        import_registry_file (acpFromWide (strW "REGEDIT9\r\n[HKEY_USERS\\x]\r\n")) emptyStore
          = some (false, emptyStore, [])))
    ∧ fuzzyHeaderSpec (headerLineOf (acpFromWide (strW "REGEDIT9\r\n[HKEY_USERS\\x]\r\n"))) = true
    ∧ ((fuzzyHeaderSpec (headerLineOf (acpFromWide (strW "NOTAREGFILE\r\n"))) = true →
        import_registry_file (acpFromWide (strW "NOTAREGFILE\r\n")) emptyStore
          = some (true, emptyStore, []))
      ∧ (invalidHeaderSpec (headerLineOf (acpFromWide (strW "NOTAREGFILE\r\n"))) = true →
        import_registry_file (acpFromWide (strW "NOTAREGFILE\r\n")) emptyStore
          = some (false, emptyStore, [])))
    ∧ invalidHeaderSpec (headerLineOf (acpFromWide (strW "NOTAREGFILE\r\n"))) = true :=
  ⟨c2_header_behaviour _ emptyStore (by decide), by decide,
   c2_header_behaviour _ emptyStore (by decide), by decide⟩

/-! ## Claim C3 -/

namespace Regproc

theorem open_key_fields (p : PCtx) (path : WStr) :
    (open_key p path).1.reg_version = p.reg_version
      ∧ (open_key p path).1.state = p.state := by
  unfold open_key
  split <;> simp

theorem delete_registry_key_fields {p : PCtx} {name : WStr} {q : PCtx}
    (h : delete_registry_key p name = some q) :
    q.reg_version = p.reg_version ∧ q.state = p.state := by
  unfold delete_registry_key at h
  split at h
  · cases h; exact ⟨rfl, rfl⟩
  · split at h
    · cases h
    · split at h
      · cases h
      · cases h
      · cases h; exact ⟨rfl, rfl⟩

/-- No in-line state handler changes the detected registry version, and
none of them re-enters the header state. -/
theorem chainStep_stable {p : PCtx} {pos : WStr} {q : PCtx} {pos2 : WStr}
    (h : chainStep p pos = some (q, pos2)) (hs : p.state ≠ PState.HEADER) :
    q.reg_version = p.reg_version ∧ q.state ≠ PState.HEADER := by
  cases hp : p.state <;> simp only [chainStep, hp] at h
  case HEADER => exact absurd hp hs
  case PARSE_WIN31_LINE | LINE_START | HEX_MULTILINE =>
    cases h
    exact ⟨rfl, by rw [hp]; intro hq; cases hq⟩
  case KEY_NAME =>
    have hok := open_key_fields p
    unfold key_name_state at h
    try dsimp only [] at h
    split at h
    · cases h; exact ⟨rfl, by simp⟩
    · split at h
      · cases h; exact ⟨rfl, by simp⟩
      · split at h
        · cases h; exact ⟨rfl, by simp⟩
        · cases h; exact ⟨(hok _).1, by simp⟩
  case DELETE_KEY =>
    unfold delete_key_state at h
    rw [Option.map_eq_some'] at h
    obtain ⟨q2, hq2, hq⟩ := h
    have hv : q2.reg_version = p.reg_version := by
      split at hq2
      · split at hq2
        · exact (delete_registry_key_fields hq2).1
        · cases hq2; rfl
      · cases hq2; rfl
    cases hq
    exact ⟨hv, by simp⟩
  case DEFAULT_VALUE_NAME =>
    cases h; exact ⟨rfl, by simp [default_value_name_state]⟩
  case QUOTED_VALUE_NAME =>
    unfold quoted_value_name_state at h
    try dsimp only [] at h
    split at h <;> (cases h; exact ⟨rfl, by simp⟩)
  case DATA_START =>
    unfold data_start_state at h
    try dsimp only [] at h
    split at h
    · split at h <;> (cases h; exact ⟨rfl, by simp⟩)
    · cases h; exact ⟨rfl, by simp⟩
  case DELETE_VALUE =>
    unfold delete_value_state at h
    try dsimp only [] at h
    split at h
    · split at h <;> (cases h; exact ⟨rfl, by simp⟩)
    · cases h; exact ⟨rfl, by simp⟩
  case DATA_TYPE =>
    unfold data_type_state at h
    try dsimp only [] at h
    split at h
    · cases h; exact ⟨rfl, by simp⟩
    · cases h
      refine ⟨rfl, ?_⟩
      simp only []
      split
      · simp
      · split
        · simp
        · split <;> simp
  case STRING_DATA =>
    unfold string_data_state at h
    try dsimp only [] at h
    split at h
    · cases h; exact ⟨rfl, by simp⟩
    · split at h <;> (cases h; exact ⟨rfl, by simp⟩)
  case DWORD_DATA =>
    unfold dword_data_state at h
    try dsimp only [] at h
    split at h <;> (cases h; exact ⟨rfl, by simp⟩)
  case HEX_DATA =>
    unfold hex_data_state at h
    try dsimp only [] at h
    split at h
    · cases h; exact ⟨rfl, by simp⟩
    · split at h
      · cases h; exact ⟨rfl, by simp⟩
      · cases h
        refine ⟨?_, by simp⟩
        simp [prepare_hex_string_data]
        split
        · split <;> simp
        · simp
  case EOL_BACKSLASH =>
    unfold eol_backslash_state at h
    try dsimp only [] at h
    split at h <;> (cases h; exact ⟨rfl, by simp⟩)
  case UNKNOWN_DATA =>
    cases h; exact ⟨rfl, by simp⟩
  case SET_VALUE =>
    unfold set_value_state at h
    try dsimp only [] at h
    split at h <;> (cases h; refine ⟨?_, by simp⟩) <;>
    · simp only []
      split <;> simp

end Regproc

namespace Regproc

theorem chain_stable : ∀ (fuel : Nat) {p : PCtx} {pos : WStr} {q : PCtx},
    chain fuel p pos = some q → p.state ≠ PState.HEADER →
    q.reg_version = p.reg_version ∧ q.state ≠ PState.HEADER := by
  intro fuel
  induction fuel with
  | zero => intro p pos q h hs; cases h; exact ⟨rfl, hs⟩
  | succ n ih =>
    intro p pos q h hs
    simp only [chain] at h
    split at h
    · cases h; exact ⟨rfl, hs⟩
    · cases hstep : chainStep p pos with
      | none => simp only [hstep] at h; cases h
      | some x =>
        obtain ⟨p2, pos2⟩ := x
        simp only [hstep] at h
        obtain ⟨hv, hs2⟩ := chainStep_stable hstep hs
        obtain ⟨hv2, hs3⟩ := ih h hs2
        exact ⟨hv2.trans hv, hs3⟩

theorem parse_win31_fields (p : PCtx) (l : WStr) (hs : p.state ≠ PState.HEADER) :
    (parse_win31_line_state p l).1.reg_version = p.reg_version
      ∧ (parse_win31_line_state p l).1.state ≠ PState.HEADER := by
  unfold parse_win31_line_state
  have hok := open_key_fields p
  split
  · exact ⟨rfl, hs⟩
  · try dsimp only []
    split
    · exact ⟨(hok _).1, by simp⟩
    · refine ⟨(hok _).1, ?_⟩
      rw [(hok _).2]
      exact hs

theorem line_start_fields (p : PCtx) (l : WStr) (hs : p.state ≠ PState.HEADER) :
    (line_start_state p l).1.reg_version = p.reg_version
      ∧ (line_start_state p l).1.state ≠ PState.HEADER := by
  unfold line_start_state
  try dsimp only []
  split
  · exact ⟨rfl, by simp⟩
  · exact ⟨rfl, by simp⟩
  · exact ⟨rfl, by simp⟩
  · exact ⟨rfl, hs⟩

theorem hex_multiline_fields (p : PCtx) (l : WStr) (hs : p.state ≠ PState.HEADER) :
    (hex_multiline_state p l).1.reg_version = p.reg_version
      ∧ (hex_multiline_state p l).1.state ≠ PState.HEADER := by
  unfold hex_multiline_state
  try dsimp only []
  split
  · exact ⟨rfl, hs⟩
  · split
    · exact ⟨rfl, hs⟩
    · split <;> exact ⟨rfl, by simp⟩

theorem feed_stable {p : PCtx} {l : WStr} {q : PCtx} {c : Bool}
    (h : feed p l = some (q, c)) (hs : p.state ≠ PState.HEADER) :
    q.reg_version = p.reg_version ∧ q.state ≠ PState.HEADER := by
  cases hp : p.state <;> simp only [feed, hp] at h
  case HEADER => exact absurd hp hs
  case PARSE_WIN31_LINE =>
    rw [Option.map_eq_some'] at h
    obtain ⟨q2, hch, hq⟩ := h
    obtain ⟨hv1, hs1⟩ := parse_win31_fields p l (by rw [hp]; intro hx; cases hx)
    obtain ⟨hv2, hs2⟩ := chain_stable 16 hch hs1
    cases hq
    exact ⟨hv2.trans hv1, hs2⟩
  case LINE_START =>
    rw [Option.map_eq_some'] at h
    obtain ⟨q2, hch, hq⟩ := h
    obtain ⟨hv1, hs1⟩ := line_start_fields p l (by rw [hp]; intro hx; cases hx)
    obtain ⟨hv2, hs2⟩ := chain_stable 16 hch hs1
    cases hq
    exact ⟨hv2.trans hv1, hs2⟩
  case HEX_MULTILINE =>
    rw [Option.map_eq_some'] at h
    obtain ⟨q2, hch, hq⟩ := h
    obtain ⟨hv1, hs1⟩ := hex_multiline_fields p l (by rw [hp]; intro hx; cases hx)
    obtain ⟨hv2, hs2⟩ := chain_stable 16 hch hs1
    cases hq
    exact ⟨hv2.trans hv1, hs2⟩
  all_goals (cases h; exact ⟨rfl, by rw [hp]; intro hx; cases hx⟩)

theorem prepare_fields (p : PCtx) :
    (prepare_hex_string_data p).reg_version = p.reg_version
      ∧ (prepare_hex_string_data p).state = p.state := by
  unfold prepare_hex_string_data
  split
  · split <;> split <;> simp
  · simp

theorem runEpilogue_stable {p : PCtx} {q : PCtx}
    (h : runEpilogue p = some q) (hs : p.state ≠ PState.HEADER) :
    q.reg_version = p.reg_version ∧ q.state ≠ PState.HEADER := by
  unfold runEpilogue at h
  split at h
  · try dsimp only [] at h
    split at h
    · cases h
    · rename_i p2 hch
      have hpre := prepare_fields p
      have h1 : ({ prepare_hex_string_data p with state := PState.SET_VALUE } : PCtx).state
          ≠ PState.HEADER := by simp
      obtain ⟨hv2, hs2⟩ := chain_stable 16 hch h1
      cases hfe : feed p2 [] with
      | none => simp only [hfe] at h; cases h
      | some x =>
        obtain ⟨q3, c3⟩ := x
        simp only [hfe] at h
        obtain ⟨hv3, hs3⟩ := feed_stable hfe hs2
        cases h
        refine ⟨?_, hs3⟩
        rw [hv3, hv2]
        exact hpre.1
  · cases h; exact ⟨rfl, hs⟩

theorem runLines_stable : ∀ (ls : List WStr) {p : PCtx} {q : PCtx},
    runLines p ls = some q → p.state ≠ PState.HEADER →
    q.reg_version = p.reg_version ∧ q.state ≠ PState.HEADER := by
  intro ls
  induction ls with
  | nil => intro p q h hs; exact runEpilogue_stable h hs
  | cons l rest ih =>
    intro p q h hs
    simp only [runLines] at h
    split at h
    · cases h
    · rename_i p2 hfe
      obtain ⟨hv, hs2⟩ := feed_stable hfe hs
      obtain ⟨hv2, hs3⟩ := ih h hs2
      exact ⟨hv2.trans hv, hs3⟩
    · rename_i p2 hfe
      cases h
      exact feed_stable hfe hs

end Regproc

namespace Regproc

theorem chain16_needsLine {p : PCtx} {pos : WStr} (h : needsLine p.state = true) :
    chain 16 p pos = some p := by
  rw [show (16 : Nat) = 15 + 1 from rfl]
  simp [chain, h]

theorem import_tail_result (p2 : PCtx) (ls : List WStr) (v : RegVersion)
    (hs : p2.state = PState.LINE_START) (hv : p2.reg_version = some v)
    (hnf : v ≠ RegVersion.fuzzy) (hni : v ≠ RegVersion.invalid) :
    (match runLines p2 ls with
     | none => none
     | some q =>
       if q.reg_version = some RegVersion.fuzzy then some (true, q.store, q.ops)
       else if q.reg_version = some RegVersion.invalid then some (false, q.store, q.ops)
       else some (true, q.store, q.ops)) = (none : Option (Bool × Store × List RegOp))
    ∨ ∃ st2 ops,
      (match runLines p2 ls with
       | none => none
       | some q =>
         if q.reg_version = some RegVersion.fuzzy then some (true, q.store, q.ops)
         else if q.reg_version = some RegVersion.invalid then some (false, q.store, q.ops)
         else some (true, q.store, q.ops)) = some (true, st2, ops) := by
  cases hrn : runLines p2 ls with
  | none => left; rfl
  | some q =>
    right
    obtain ⟨hqv, hqs⟩ := runLines_stable ls hrn (by rw [hs]; intro hx; cases hx)
    refine ⟨q.store, q.ops, ?_⟩
    have h1 : ¬ (q.reg_version = some RegVersion.fuzzy) := by
      rw [hqv, hv]; simpa using hnf
    have h2 : ¬ (q.reg_version = some RegVersion.invalid) := by
      rw [hqv, hv]; simpa using hni
    simp [h1, h2]

end Regproc

set_option maxRecDepth 8192 in
/-- Claim C3 (amended): for every NUL-free input with a valid v4/v5 header,
parse errors handled inside the state machine are local to their line: the
machine skips the line and continues, and whenever `import_registry_file`
terminates normally it reports overall success.  However, a key-deletion
line `[-<path>]` whose path starts with `H`/`h` but does not resolve to a
valid root class, or names a root class with an empty (or absent) subkey
path, calls `error_exit` and terminates the whole process (the `none`
outcome) rather than being skipped. -/
theorem c3_amended (file : Bytes) (st : Store) (h0 : (0 : Nat) ∉ file)
    (hver : parse_file_header (headerLineOf file) = RegVersion.v40
          ∨ parse_file_header (headerLineOf file) = RegVersion.v50) :
    import_registry_file file st = none
    ∨ ∃ st2 ops, import_registry_file file st = some (true, st2, ops) := by
  match file with
  | [] => rcases hver with h | h <;> exact absurd h (by decide)
  | [b] =>
    rw [show headerLineOf [b] = [] from rfl] at hver
    rcases hver with h | h <;> exact absurd h (by decide)
  | b0 :: b1 :: rest =>
    by_cases huni : (b0 == 255 && b1 == 254) = true
    · obtain ⟨l0, ls, hl⟩ := List.exists_cons_of_ne_nil (splitLines_ne_nil (bytePairs rest))
      have hhdr : headerLineOf (b0 :: b1 :: rest) = l0 := by
        simp [headerLineOf, huni, hl]
      rw [hhdr] at hver
      rcases hver with hv | hv <;>
        (simp only [import_registry_file, huni, if_true, hl, runLines, feed, header_state,
           Bool.true_eq, hv]
         first
         | (refine import_tail_result _ ls RegVersion.v40 ?_ ?_ (by decide) (by decide) <;> rfl)
         | (refine import_tail_result _ ls RegVersion.v50 ?_ ?_ (by decide) (by decide) <;> rfl))
    · obtain ⟨l0, ls, hl⟩ := List.exists_cons_of_ne_nil (splitLines_ne_nil (acpToWide rest))
      have hhdr : headerLineOf (b0 :: b1 :: rest) = b0 :: b1 :: l0 := by
        simp only [headerLineOf, huni]
        rw [hl]
        simp
      rw [hhdr] at hver
      rw [Bool.not_eq_true] at huni
      rcases hver with hv | hv <;>
        (simp only [import_registry_file, huni, if_false, hl, runLines, feed, header_state,
           Bool.false_eq_true, List.cons_append, List.nil_append, hv]
         first
         | (refine import_tail_result _ ls RegVersion.v40 ?_ ?_ (by decide) (by decide) <;> rfl)
         | (refine import_tail_result _ ls RegVersion.v50 ?_ ?_ (by decide) (by decide) <;> rfl))

/-- Claim C3 witness: a v4 file containing a malformed value line imports
with overall success, the bad line skipped. -/
theorem c3_amended_witness :
    (import_registry_file
        (acpFromWide (strW "REGEDIT4\r\n[HKEY_CURRENT_USER\\k]\r\nGARBAGE LINE\r\n\"v\"=dword:zz\r\n"))
        emptyStore = none
      ∨ ∃ st2 ops,
        import_registry_file
          (acpFromWide (strW "REGEDIT4\r\n[HKEY_CURRENT_USER\\k]\r\nGARBAGE LINE\r\n\"v\"=dword:zz\r\n"))
          emptyStore = some (true, st2, ops))
    ∧ import_registry_file
        (acpFromWide (strW "REGEDIT4\r\n[HKEY_CURRENT_USER\\k]\r\nGARBAGE LINE\r\n\"v\"=dword:zz\r\n"))
        emptyStore
      = some (true, storePut emptyStore 4 (RegTree.mk [] (.cons [107] (.mk [] .nil) .nil)),
          [RegOp.createKey 4 [[107]]]) :=
  ⟨c3_amended _ emptyStore (by decide) (Or.inl (by decide)), rfl⟩

/-! ## Claim C6 -/

/-- Claim C6 (amended): a stored `REG_SZ` value whose data is a well-formed
NUL-terminated wide string is exported as a double-quoted, escape-encoded
string; a `REG_SZ` value whose data fails that shape check is exported
through the generic hex byte-list renderer (`hex(1):`); every value of any
other type is rendered through the dword or hex textual forms. -/
theorem c6_amended (uni : Bool) (data : Bytes) (v : RegValue) :
    ((2 ≤ data.length ∧ data.length % 2 = 0 ∧ (bytePairs data).getLast? = some 0) →
      export_hkey_text uni REG_SZ data
        = [34] ++ REGPROC_export_string (cstr (bytePairs data)) ++ [34, 13, 10])
    ∧ (¬(2 ≤ data.length ∧ data.length % 2 = 0 ∧ (bytePairs data).getLast? = some 0) →
      (export_hkey_text uni REG_SZ data).take 4 = strW "hex(")
    ∧ (v.ty ≠ REG_SZ →
      exportValueText uni v
        = export_value_name_text v.name
            ++ export_data_text uni v.ty (export_value_name_text v.name).length v.data
      ∧ (v.ty = REG_DWORD →
          (export_data_text uni v.ty (export_value_name_text v.name).length v.data).take 6
            = strW "dword:")
      ∧ (v.ty ≠ REG_DWORD →
          (export_data_text uni v.ty (export_value_name_text v.name).length v.data).take 3
            = strW "hex")) := by
  refine ⟨fun h => ?_, fun h => ?_, fun h => ⟨?_, fun h4 => ?_, fun h4 => ?_⟩⟩
  · simp [export_hkey_text, h]
  · simp only [export_hkey_text, if_neg h, REGPROC_export_binary, hexPrefixText]
    rw [if_neg (by decide : ¬ (REG_SZ = REG_BINARY))]
    rfl
  · simp [exportValueText, h]
  · simp [export_data_text, h4, export_dword_text]
    rfl
  · simp only [export_data_text, if_neg h4, export_hex_data_text, hexPrefixText]
    by_cases h3 : v.ty = REG_BINARY
    · rw [if_pos h3]; rfl
    · rw [if_neg h3]; rfl

/-- Claim C6 witness. -/
theorem c6_amended_witness :
    ((2 ≤ ([104, 0, 105, 0, 0, 0] : Bytes).length
        ∧ ([104, 0, 105, 0, 0, 0] : Bytes).length % 2 = 0
        ∧ (bytePairs [104, 0, 105, 0, 0, 0]).getLast? = some 0) →
      export_hkey_text false REG_SZ [104, 0, 105, 0, 0, 0]
        = [34] ++ REGPROC_export_string (cstr (bytePairs [104, 0, 105, 0, 0, 0])) ++ [34, 13, 10])
    ∧ (¬(2 ≤ ([104, 0, 105, 0, 0, 0] : Bytes).length
        ∧ ([104, 0, 105, 0, 0, 0] : Bytes).length % 2 = 0
        ∧ (bytePairs [104, 0, 105, 0, 0, 0]).getLast? = some 0) →
      (export_hkey_text false REG_SZ [104, 0, 105, 0, 0, 0]).take 4 = strW "hex(")
    ∧ ((⟨[110], REG_DWORD, [1, 0, 0, 0]⟩ : RegValue).ty ≠ REG_SZ →
      exportValueText false ⟨[110], REG_DWORD, [1, 0, 0, 0]⟩
        = export_value_name_text [110]
            ++ export_data_text false REG_DWORD (export_value_name_text [110]).length [1, 0, 0, 0]
      ∧ ((⟨[110], REG_DWORD, [1, 0, 0, 0]⟩ : RegValue).ty = REG_DWORD →
          (export_data_text false REG_DWORD (export_value_name_text [110]).length [1, 0, 0, 0]).take 6
            = strW "dword:")
      ∧ ((⟨[110], REG_DWORD, [1, 0, 0, 0]⟩ : RegValue).ty ≠ REG_DWORD →
          (export_data_text false REG_DWORD (export_value_name_text [110]).length [1, 0, 0, 0]).take 3
            = strW "hex")) :=
  c6_amended false [104, 0, 105, 0, 0, 0] ⟨[110], REG_DWORD, [1, 0, 0, 0]⟩

/-! ## Physical line structure of the wrapped hex rendering -/

namespace Regproc

/-- Free of line terminators. -/
def termFree (l : WStr) : Bool := l.all (fun c => c ≠ 13 && c ≠ 10)

/-- The text `hexWrapLoop` places on the current physical line (with the
trailing backslash when the list wraps). -/
def hexFirst : Nat → Bytes → WStr
  | _, [] => []
  | _, [b] => toHex2 b
  | col, b :: rest =>
    if 77 ≤ col + 3 then toHex2 b ++ [44, 92]
    else toHex2 b ++ [44] ++ hexFirst (col + 3) rest

/-- The continuation lines `hexWrapLoop` produces after the current one
(each with its two-space indent; all but the last end in a backslash). -/
def hexConts : Nat → Bytes → List WStr
  | _, [] => []
  | _, [b] => []
  | col, b :: rest =>
    if 77 ≤ col + 3 then (32 :: 32 :: hexFirst 2 rest) :: hexConts 2 rest
    else hexConts (col + 3) rest

theorem termFree_append {u v : WStr} (hu : termFree u = true) (hv : termFree v = true) :
    termFree (u ++ v) = true := by
  simp only [termFree, List.all_append, Bool.and_eq_true] at *
  exact ⟨hu, hv⟩

theorem toHexAux_termFree : ∀ (f n : Nat), termFree (toHexAux f n) = true := by
  intro f
  induction f with
  | zero => intro n; rfl
  | succ f ih =>
    intro n
    unfold toHexAux
    split
    · rfl
    · refine termFree_append (ih _) ?_
      simp [termFree, hexDigitChar]
      split <;> omega

theorem toHex_termFree (n : Nat) : termFree (toHex n) = true := by
  unfold toHex
  split
  · rfl
  · exact toHexAux_termFree n n

theorem replicate48_termFree (k : Nat) : termFree (List.replicate k 48) = true := by
  simp [termFree, List.all_eq_true]

theorem toHex2_termFree (b : Nat) : termFree (toHex2 b) = true :=
  termFree_append (replicate48_termFree _) (toHex_termFree b)

theorem toHex8_termFree (b : Nat) : termFree (toHex8 b) = true :=
  termFree_append (replicate48_termFree _) (toHex_termFree b)

theorem splitLines_cons (c : Nat) (rest : WStr) (h13 : c ≠ 13) (h10 : c ≠ 10) :
    splitLines (c :: rest) = (c :: (splitLines rest).headI) :: (splitLines rest).tail := by
  obtain ⟨l, ls, hl⟩ := List.exists_cons_of_ne_nil (splitLines_ne_nil rest)
  rw [splitLines.eq_def]
  split
  · rename_i heq; cases heq
  · rename_i heq; rw [List.cons.injEq] at heq; exact absurd heq.1 h13
  · rename_i heq; rw [List.cons.injEq] at heq; exact absurd heq.1 h13
  · rename_i heq; rw [List.cons.injEq] at heq; exact absurd heq.1 h10
  · rename_i c2 r2 _ _ _ heq
    rw [List.cons.injEq] at heq
    obtain ⟨hc, hr⟩ := heq
    subst hc
    subst hr
    rw [hl]
    simp

/-- A terminator-free prefix joins the first line of the remaining text. -/
theorem splitLines_front {u : WStr} (h : termFree u = true) (x : WStr) :
    splitLines (u ++ x) = (u ++ (splitLines x).headI) :: (splitLines x).tail := by
  induction u with
  | nil =>
    obtain ⟨l, ls, hl⟩ := List.exists_cons_of_ne_nil (splitLines_ne_nil x)
    simp [hl]
  | cons c u ih =>
    simp only [termFree, List.all_cons, Bool.and_eq_true, beq_iff_eq] at h
    obtain ⟨⟨h13, h10⟩, hu⟩ := h
    rw [List.cons_append, splitLines_cons c (u ++ x) (by simpa using h13) (by simpa using h10),
      ih (by simpa [termFree] using hu)]
    simp

/-- A terminator-free line followed by CRLF splits off exactly. -/
theorem splitLines_line {u : WStr} (h : termFree u = true) (w : WStr) :
    splitLines (u ++ 13 :: 10 :: w) = u :: splitLines w := by
  rw [splitLines_front h]
  simp [splitLines]

/-- Line decomposition of the wrapped hex text followed by a terminator. -/
theorem hexWrapLoop_lines : ∀ (bs : Bytes) (col : Nat) (w : WStr),
    splitLines (hexWrapLoop col bs ++ 13 :: 10 :: w)
      = hexFirst col bs :: (hexConts col bs ++ splitLines w) := by
  intro bs
  induction bs with
  | nil => intro col w; simp [hexWrapLoop, hexFirst, hexConts, splitLines]
  | cons b rest ih =>
    intro col w
    match rest with
    | [] =>
      simp only [hexWrapLoop, hexFirst, hexConts]
      rw [splitLines_line (toHex2_termFree b)]
      simp
    | b2 :: rest2 =>
      simp only [hexWrapLoop, hexFirst, hexConts]
      split
      · rw [show toHex2 b ++ [44] ++ ([92, 13, 10, 32, 32] ++ hexWrapLoop 2 (b2 :: rest2))
              ++ 13 :: 10 :: w
            = (toHex2 b ++ [44, 92]) ++ 13 :: 10 ::
              ([32, 32] ++ (hexWrapLoop 2 (b2 :: rest2) ++ 13 :: 10 :: w)) by simp]
        rw [splitLines_line (termFree_append (toHex2_termFree b) (by rfl)),
          splitLines_front (by rfl), ih 2 w]
        simp
      · rw [show toHex2 b ++ [44] ++ hexWrapLoop (col + 3) (b2 :: rest2) ++ 13 :: 10 :: w
            = (toHex2 b ++ [44]) ++ (hexWrapLoop (col + 3) (b2 :: rest2) ++ 13 :: 10 :: w) by simp]
        rw [splitLines_front (termFree_append (toHex2_termFree b) (by rfl)), ih (col + 3) w]
        simp

end Regproc

namespace Regproc

theorem toHexAux_length : ∀ (f n k : Nat), n < 16 ^ k → (toHexAux f n).length ≤ k := by
  intro f
  induction f with
  | zero => intro n k _; simp [toHexAux]
  | succ f ih =>
    intro n k hk
    unfold toHexAux
    split
    · simp
    · rename_i hn
      have hk0 : k ≠ 0 := by
        rintro rfl
        rw [pow_zero] at hk
        omega
      obtain ⟨k', rfl⟩ := Nat.exists_eq_succ_of_ne_zero hk0
      have hdiv : n / 16 < 16 ^ k' := by
        have h2 : n < 16 ^ k' * 16 := by rw [← pow_succ]; exact hk
        omega
      have := ih (n / 16) k' hdiv
      simp only [List.length_append, List.length_cons, List.length_nil]
      omega

theorem toHex_length {n k : Nat} (h : n < 16 ^ k) (hk : 1 ≤ k) : (toHex n).length ≤ k := by
  unfold toHex
  split
  · simpa using hk
  · exact toHexAux_length n n k h

theorem toHex2_length {b : Nat} (h : b < 256) : (toHex2 b).length = 2 := by
  have h2 : (toHex b).length ≤ 2 := toHex_length (by norm_num; exact h) (by norm_num)
  rw [toHex2]
  simp only [List.length_append, List.length_replicate]
  omega

theorem hexFirst_len : ∀ (bs : Bytes) (col : Nat), bs.all (fun b => b < 256) = true →
    col % 3 = 2 → col < 77 → (hexFirst col bs).length + col ≤ 78 := by
  intro bs
  induction bs with
  | nil => intro col _ _ h77; simp only [hexFirst, List.length_nil]; omega
  | cons b rest ih =>
    intro col hall hm h77
    simp only [List.all_cons, Bool.and_eq_true, decide_eq_true_eq] at hall
    obtain ⟨hb, hrest⟩ := hall
    cases rest with
    | nil =>
      simp only [hexFirst]
      rw [toHex2_length hb]
      omega
    | cons b2 rest2 =>
      simp only [hexFirst]
      split
      · rename_i hw
        simp only [List.length_append, toHex2_length hb, List.length_cons, List.length_nil]
        omega
      · rename_i hw
        have := ih (col + 3) (by simpa using hrest) (by omega) (by omega)
        simp only [List.length_append, toHex2_length hb, List.length_cons, List.length_nil]
        omega

theorem hexConts_bound : ∀ (bs : Bytes) (col : Nat), bs.all (fun b => b < 256) = true →
    ∀ l ∈ hexConts col bs, l.length ≤ 78 := by
  intro bs
  induction bs with
  | nil => intro col _ l hl; simp [hexConts] at hl
  | cons b rest ih =>
    intro col hall l hl
    simp only [List.all_cons, Bool.and_eq_true] at hall
    obtain ⟨hb, hrest⟩ := hall
    cases rest with
    | nil => simp [hexConts] at hl
    | cons b2 rest2 =>
      simp only [hexConts] at hl
      split at hl
      · rcases List.mem_cons.mp hl with rfl | h
        · have := hexFirst_len (b2 :: rest2) 2 hrest (by norm_num) (by norm_num)
          simp only [List.length_cons]
          omega
        · exact ih 2 hrest l h
      · exact ih (col + 3) hrest l hl

theorem acpFromWide_all_lt (ws : WStr) : (acpFromWide ws).all (fun b => b < 256) = true := by
  simp only [acpFromWide, List.all_map, List.all_eq_true, Function.comp,
    decide_eq_true_eq]
  intro c _
  omega

theorem escapeChar_termFree (c : Nat) : termFree (escapeChar c) = true := by
  unfold escapeChar
  split_ifs with h1 h2 h3 h4 h5 <;> simp [termFree, *]

theorem escape_string_termFree : ∀ s : WStr, termFree (REGPROC_escape_string s) = true
  | [] => rfl
  | c :: rest => termFree_append (escapeChar_termFree c) (escape_string_termFree rest)

theorem exportStrChar_termFree (c : Nat) : termFree (exportStrChar c) = true := by
  unfold exportStrChar
  split_ifs with h1 h2 h3 <;> simp_all [termFree]

theorem export_string_termFree : ∀ s : WStr, termFree (REGPROC_export_string s) = true
  | [] => rfl
  | c :: rest => termFree_append (exportStrChar_termFree c) (export_string_termFree rest)

theorem export_value_name_termFree (name : WStr) :
    termFree (export_value_name_text name) = true := by
  unfold export_value_name_text
  split
  · exact termFree_append (termFree_append (by decide) (escape_string_termFree name)) (by decide)
  · decide

theorem hexPrefixText_termFree (ty : Nat) : termFree (hexPrefixText ty) = true := by
  unfold hexPrefixText
  split
  · decide
  · exact termFree_append (termFree_append (by decide) (toHex_termFree ty)) (by decide)

/-- Every physical line after the first of a terminator-free prefix followed
by wrapped hex text and CRLF is at most 78 columns (with its indent). -/
theorem hexText_tail_bound {u : WStr} (hu : termFree u = true) (col : Nat) {d : Bytes}
    (hall : d.all (fun b => b < 256) = true) :
    ∀ l ∈ (splitLines (u ++ (hexWrapLoop col d ++ [13, 10]))).tail, l.length ≤ 78 := by
  have h1 : splitLines (hexWrapLoop col d ++ [13, 10])
      = hexFirst col d :: (hexConts col d ++ [[]]) := by
    have h2 := hexWrapLoop_lines d col []
    simpa [splitLines] using h2
  rw [splitLines_front hu, h1]
  intro l hl
  simp only [List.tail_cons, List.mem_append] at hl
  rcases hl with h | h
  · exact hexConts_bound d col hall l h
  · simp only [List.mem_singleton] at h
    subst h
    simp

theorem pre_wrap_tail_bound {u pre : WStr} (hu : termFree u = true)
    (hpre : termFree pre = true) (col : Nat) {d : Bytes}
    (hall : d.all (fun b => b < 256) = true) :
    ∀ l ∈ (splitLines (u ++ (pre ++ hexWrapLoop col d ++ [13, 10]))).tail, l.length ≤ 78 := by
  intro l hl
  rw [show u ++ (pre ++ hexWrapLoop col d ++ [13, 10])
      = (u ++ pre) ++ (hexWrapLoop col d ++ [13, 10]) by simp] at hl
  exact hexText_tail_bound (termFree_append hu hpre) col hall l hl

theorem REGPROC_export_binary_eq (ty : Nat) (data : Bytes) (lineLen : Nat) (uni : Bool) :
    REGPROC_export_binary ty data lineLen uni
      = hexPrefixText ty ++ hexWrapLoop (lineLen + (hexPrefixText ty).length)
          (if (ty = REG_SZ || ty = REG_EXPAND_SZ || ty = REG_MULTI_SZ) && !uni then
             acpFromWide (bytePairs data) else data) ++ [13, 10] := rfl

theorem export_binary_tail_bound {u : WStr} (hu : termFree u = true) (ty : Nat)
    {data : Bytes} (hdat : data.all (fun b => b < 256) = true) (lineLen : Nat) (uni : Bool) :
    ∀ l ∈ (splitLines (u ++ REGPROC_export_binary ty data lineLen uni)).tail, l.length ≤ 78 := by
  rw [REGPROC_export_binary_eq]
  refine pre_wrap_tail_bound hu (hexPrefixText_termFree ty) _ ?_
  split
  · exact acpFromWide_all_lt _
  · exact hdat

theorem exportValueText_eq (uni : Bool) (v : RegValue) :
    exportValueText uni v = export_value_name_text v.name ++
      (if v.ty ≠ REG_SZ then
         export_data_text uni v.ty (export_value_name_text v.name).length v.data
       else export_hkey_text uni v.ty v.data) := rfl

end Regproc

/-- Claim C8 (amended): in the output of the value renderer, every physical
line after the first — the first carries the value name and hex prefix and
is unbounded — is at most 77 columns once the two-column continuation
indent is dropped (the wrapped hex lines are in fact at most 76 columns
after the indent, and the final line left by the trailing CRLF is empty). -/
theorem c8_amended (uni : Bool) (v : Regproc.RegValue)
    (hd : v.data.all (fun b => b < 256) = true) :
    ∀ l ∈ (splitLines (exportValueText uni v)).tail, (l.drop 2).length ≤ 77 := by
  have hnm := Regproc.export_value_name_termFree v.name
  have hdrop : ∀ l : WStr, l.length ≤ 78 → (l.drop 2).length ≤ 77 := by
    intro l h
    simp only [List.length_drop]
    omega
  rw [Regproc.exportValueText_eq]
  by_cases hsz : v.ty = REG_SZ
  · rw [if_neg (not_not_intro hsz), hsz]
    unfold export_hkey_text
    split
    · intro l hl
      rw [show export_value_name_text v.name ++
            ([34] ++ REGPROC_export_string (cstr (bytePairs v.data)) ++ [34, 13, 10])
          = (export_value_name_text v.name ++ ([34] ++
              REGPROC_export_string (cstr (bytePairs v.data)) ++ [34])) ++ 13 :: 10 :: [] by
            simp] at hl
      rw [Regproc.splitLines_line (Regproc.termFree_append hnm
        (Regproc.termFree_append (Regproc.termFree_append (by decide)
          (Regproc.export_string_termFree _)) (by decide)))] at hl
      rw [show splitLines ([] : WStr) = [[]] from rfl] at hl
      simp only [List.tail_cons, List.mem_singleton] at hl
      subst hl
      simp
    · intro l hl
      exact hdrop l (Regproc.export_binary_tail_bound hnm REG_SZ hd 0 uni l hl)
  · rw [if_pos hsz]
    unfold export_data_text
    by_cases hdw : v.ty = REG_DWORD
    · rw [if_pos hdw]
      intro l hl
      rw [show export_value_name_text v.name ++ (export_dword_text v.data ++ [13, 10])
          = (export_value_name_text v.name ++ export_dword_text v.data) ++ 13 :: 10 :: [] by
            simp] at hl
      have hdwtf : termFree (export_dword_text v.data) = true :=
        Regproc.termFree_append (by decide) (Regproc.toHex8_termFree (dwordOfBytes v.data))
      rw [Regproc.splitLines_line (Regproc.termFree_append hnm hdwtf)] at hl
      rw [show splitLines ([] : WStr) = [[]] from rfl] at hl
      simp only [List.tail_cons, List.mem_singleton] at hl
      subst hl
      simp
    · rw [if_neg hdw]
      intro l hl
      refine hdrop l ?_
      rw [show export_hex_data_text uni v.ty (export_value_name_text v.name).length v.data
          = hexPrefixText v.ty ++ hexWrapLoop ((export_value_name_text v.name).length
              + (hexPrefixText v.ty).length)
              (if !uni && (v.ty = REG_EXPAND_SZ || v.ty = REG_MULTI_SZ) then
                 acpFromWide (bytePairs v.data) else v.data) from rfl] at hl
      refine Regproc.pre_wrap_tail_bound hnm (Regproc.hexPrefixText_termFree v.ty) _ ?_ l hl
      split
      · exact Regproc.acpFromWide_all_lt _
      · exact hd

/-- Witness for the amended claim C8 at a concrete value: the two-byte
binary value with the 80-character name of the counterexample satisfies the
data hypothesis, and all its non-first physical lines fit in 77 columns. -/
theorem c8_amended_witness :
    ([1, 2] : Bytes).all (fun b => b < 256) = true
    ∧ ∀ l ∈ (splitLines
        (exportValueText false ⟨List.replicate 80 97, REG_BINARY, [1, 2]⟩)).tail,
        (l.drop 2).length ≤ 77 :=
  ⟨by decide, c8_amended false ⟨List.replicate 80 97, REG_BINARY, [1, 2]⟩ (by decide)⟩

/-- Claim C10: an empty hex byte list is accepted.  `convert_hex_csv_to_hex`
on an empty buffer and an empty remainder succeeds with no bytes and no
continuation flag, and feeding the value line `"n"=hex:` to the machine in
line-start state with an open key sets a zero-length `REG_BINARY` value
named `n` on that key and returns to line-start. -/
theorem c10_empty_hex (p : PCtx) (cls : Nat) (segs : List WStr)
    (hst : p.state = PState.LINE_START)
    (hk : p.hkey = some (cls, segs))
    (hdat : p.data = [])
    (hv : p.reg_version ≠ some RegVersion.v31) :
    convert_hex_csv_to_hex [] [] = CsvOut.ok [] false []
    ∧ feed p [34, 110, 34, 61, 104, 101, 120, 58]
      = some ({ p with
          value_name := some [110],
          parse_type := REG_BINARY,
          data_type := REG_BINARY,
          data := [],
          backslash := false,
          state := PState.LINE_START,
          store := storePut p.store cls
            (treeSet (storeGet p.store cls) segs ⟨[110], REG_BINARY, []⟩),
          ops := p.ops ++ [RegOp.setValue cls segs ⟨[110], REG_BINARY, []⟩] }, true) := by
  refine ⟨rfl, ?_⟩
  obtain ⟨u, tw, rv, hk0, vn, pt, dt, dat, bsl, st, sto, opsl⟩ := p
  dsimp only at hst hk hdat
  subst hst
  subst hk
  subst hdat
  rcases rv with _ | v
  · rfl
  · cases v
    case v31 => exact absurd rfl hv
    all_goals rfl

/-- Witness for claim C10 at a concrete context: an open key `k` under
root class 2, version v4.0, empty pending data. -/
theorem c10_empty_hex_witness :
    convert_hex_csv_to_hex [] [] = CsvOut.ok [] false []
    ∧ feed (⟨false, [], some RegVersion.v40, some (2, [[107]]), none, 0, 0, [],
          false, PState.LINE_START, emptyStore, []⟩ : PCtx)
        [34, 110, 34, 61, 104, 101, 120, 58]
      = some ({ (⟨false, [], some RegVersion.v40, some (2, [[107]]), none, 0, 0, [],
            false, PState.LINE_START, emptyStore, []⟩ : PCtx) with
          value_name := some [110],
          parse_type := REG_BINARY,
          data_type := REG_BINARY,
          data := [],
          backslash := false,
          state := PState.LINE_START,
          store := storePut emptyStore 2
            (treeSet (storeGet emptyStore 2) [[107]] ⟨[110], REG_BINARY, []⟩),
          ops := [] ++ [RegOp.setValue 2 [[107]] ⟨[110], REG_BINARY, []⟩] }, true) :=
  c10_empty_hex
    (⟨false, [], some RegVersion.v40, some (2, [[107]]), none, 0, 0, [],
      false, PState.LINE_START, emptyStore, []⟩ : PCtx)
    2 [[107]] rfl rfl rfl (by decide)

/-! ## Round-trip machinery: encodings -/

namespace Regproc

theorem bytePairs_wideBytes : ∀ w : WStr, w.all (fun c => c < 65536) = true →
    bytePairs (wideBytes w) = w := by
  intro w
  induction w with
  | nil => intro _; rfl
  | cons c rest ih =>
    intro h
    simp only [List.all_cons, Bool.and_eq_true, decide_eq_true_eq] at h
    obtain ⟨hc, hrest⟩ := h
    simp only [wideBytes, bytePairs]
    rw [ih (by simpa using hrest)]
    congr 1
    omega

theorem wideBytes_bytePairs : ∀ d : Bytes, d.length % 2 = 0 →
    d.all (fun b => b < 256) = true → wideBytes (bytePairs d) = d
  | [], _, _ => rfl
  | [b], hlen, _ => by simp at hlen
  | b0 :: b1 :: rest, hlen, hall => by
    simp only [List.length_cons] at hlen
    simp only [List.all_cons, Bool.and_eq_true, decide_eq_true_eq] at hall
    obtain ⟨h0, h1, hrest⟩ := hall
    simp only [bytePairs, wideBytes]
    rw [wideBytes_bytePairs rest (by omega) (by simpa using hrest)]
    congr 1
    · omega
    · congr 1
      omega

theorem acpFromWide_id : ∀ {w : WStr}, w.all (fun c => c < 256) = true →
    acpFromWide w = w := by
  intro w
  induction w with
  | nil => intro _; rfl
  | cons c rest ih =>
    intro h
    simp only [List.all_cons, Bool.and_eq_true, decide_eq_true_eq] at h
    simp only [acpFromWide, List.map_cons]
    have h2 := ih (by simpa using h.2)
    simp only [acpFromWide] at h2
    rw [Nat.mod_eq_of_lt h.1, h2]

theorem cstr_of_no_nul : ∀ {w : WStr}, w.all (fun c => c ≠ 0) = true → cstr w = w := by
  intro w
  induction w with
  | nil => intro _; rfl
  | cons c rest ih =>
    intro h
    simp only [List.all_cons, Bool.and_eq_true] at h
    simp only [cstr, List.takeWhile_cons]
    rw [if_pos h.1]
    have := ih (by simpa [cstr] using h.2)
    simp only [cstr] at this
    rw [this]

theorem cstr_append_zero {w : WStr} (h : w.all (fun c => c ≠ 0) = true) (r : WStr) :
    cstr (w ++ 0 :: r) = w := by
  unfold cstr
  rw [takeWhile_append_all h, takeWhile_head_neg (by decide)]
  simp

end Regproc

namespace Regproc

/-! ## Hexadecimal digit strings -/

theorem xdigit_props {c : Nat} (h : isXDigit c = true) :
    isSpaceC c = false ∧ isBlank c = false ∧ c ≠ 43 ∧ c ≠ 45 ∧ c ≠ 59 ∧ c ≠ 44
      ∧ c ≠ 92 ∧ c ≠ 34 ∧ c ≠ 13 ∧ c ≠ 10 ∧ c ≠ 61 ∧ c ≠ 91 ∧ c ≠ 93 ∧ c ≠ 64 ∧ c ≠ 0 := by
  simp only [isXDigit, Bool.or_eq_true, Bool.and_eq_true, decide_eq_true_eq] at h
  simp only [isSpaceC, isBlank, Bool.or_eq_false_iff, beq_eq_false_iff_ne, ne_eq]
  omega

theorem hexVal_hexDigitChar {d : Nat} (h : d < 16) : hexVal (hexDigitChar d) = d := by
  simp only [hexDigitChar, hexVal]
  split <;> (repeat' split) <;> omega

theorem isXDigit_hexDigitChar {d : Nat} (h : d < 16) : isXDigit (hexDigitChar d) = true := by
  simp only [hexDigitChar, isXDigit, Bool.or_eq_true, Bool.and_eq_true, decide_eq_true_eq]
  split <;> omega

theorem toHexAux_xdigit : ∀ (f n : Nat), (toHexAux f n).all isXDigit = true := by
  intro f
  induction f with
  | zero => intro n; rfl
  | succ f ih =>
    intro n
    unfold toHexAux
    split
    · rfl
    · rw [List.all_append]
      simp only [Bool.and_eq_true]
      exact ⟨ih _, by simp [isXDigit_hexDigitChar (Nat.mod_lt n (by norm_num))]⟩

theorem toHex_xdigit (n : Nat) : (toHex n).all isXDigit = true := by
  unfold toHex
  split
  · rfl
  · exact toHexAux_xdigit n n

theorem toHex2_xdigit (b : Nat) : (toHex2 b).all isXDigit = true := by
  rw [toHex2, List.all_append]
  simp only [Bool.and_eq_true]
  exact ⟨by simp [List.all_eq_true, isXDigit], toHex_xdigit b⟩

theorem toHex8_xdigit (b : Nat) : (toHex8 b).all isXDigit = true := by
  rw [toHex8, List.all_append]
  simp only [Bool.and_eq_true]
  exact ⟨by simp [List.all_eq_true, isXDigit], toHex_xdigit b⟩

theorem toHex_ne_nil (n : Nat) : toHex n ≠ [] := by
  unfold toHex
  split
  · simp
  · rename_i hn
    match n, hn with
    | m + 1, _ =>
      unfold toHexAux
      simp

theorem toHex2_ne_nil (b : Nat) : toHex2 b ≠ [] := by
  rw [toHex2]
  simp [toHex_ne_nil b]

theorem toHex8_length {n : Nat} (h : n < 4294967296) : (toHex8 n).length = 8 := by
  have h2 : (toHex n).length ≤ 8 := toHex_length (by norm_num; exact h) (by norm_num)
  rw [toHex8]
  simp only [List.length_append, List.length_replicate]
  omega

theorem hexListVal_append_digit (xs : WStr) (c : Nat) :
    hexListVal (xs ++ [c]) = 16 * hexListVal xs + hexVal c := by
  simp [hexListVal, List.foldl_append]
  ring

theorem hexListVal_toHexAux : ∀ (f n : Nat), n < 16 ^ f → hexListVal (toHexAux f n) = n := by
  intro f
  induction f with
  | zero =>
    intro n h
    rw [pow_zero] at h
    interval_cases n
    rfl
  | succ f ih =>
    intro n h
    unfold toHexAux
    split
    · simp [hexListVal, *]
    · have hdiv : n / 16 < 16 ^ f := by
        have h2 : n < 16 ^ f * 16 := by rw [← pow_succ]; exact h
        omega
      rw [hexListVal_append_digit, ih _ hdiv, hexVal_hexDigitChar (Nat.mod_lt n (by norm_num))]
      omega

theorem hexListVal_toHex {n : Nat} : hexListVal (toHex n) = n := by
  unfold toHex
  split
  · simp [hexListVal, hexVal, *]
  · exact hexListVal_toHexAux n n (Nat.lt_pow_self (by norm_num) n)

theorem hexListVal_zeros (k : Nat) (s : WStr) :
    hexListVal (List.replicate k 48 ++ s) = hexListVal s := by
  induction k with
  | zero => rfl
  | succ k ih =>
    rw [List.replicate_succ]
    simpa [hexListVal, hexVal] using ih

theorem hexListVal_toHex2 (b : Nat) : hexListVal (toHex2 b) = b := by
  rw [toHex2, hexListVal_zeros, hexListVal_toHex]

theorem hexListVal_toHex8 (b : Nat) : hexListVal (toHex8 b) = b := by
  rw [toHex8, hexListVal_zeros, hexListVal_toHex]

theorem hexListVal_lt : ∀ (ds : WStr) (acc : Nat), ds.all isXDigit = true →
    List.foldl (fun acc c => acc * 16 + hexVal c) acc ds < (acc + 1) * 16 ^ ds.length := by
  intro ds
  induction ds with
  | nil => intro acc _; simp
  | cons c rest ih =>
    intro acc h
    simp only [List.all_cons, Bool.and_eq_true] at h
    have hv : hexVal c ≤ 15 := by
      have h1 := h.1
      simp only [isXDigit, Bool.or_eq_true, Bool.and_eq_true, decide_eq_true_eq] at h1
      simp only [hexVal]
      split
      · omega
      · split <;> omega
    simp only [List.foldl_cons, List.length_cons]
    calc List.foldl (fun acc c => acc * 16 + hexVal c) (acc * 16 + hexVal c) rest
        < (acc * 16 + hexVal c + 1) * 16 ^ rest.length := ih _ h.2
      _ ≤ ((acc + 1) * 16) * 16 ^ rest.length := by
          have : acc * 16 + hexVal c + 1 ≤ (acc + 1) * 16 := by omega
          exact Nat.mul_le_mul_right _ this
      _ = (acc + 1) * 16 ^ (rest.length + 1) := by ring

theorem hexListVal_bound {ds : WStr} (h : ds.all isXDigit = true) :
    hexListVal ds < 16 ^ ds.length := by
  have := hexListVal_lt ds 0 h
  simpa [hexListVal] using this

theorem hasHexPrefix_of_two {ds r : WStr} (hall : ds.all isXDigit = true)
    (hlen : 2 ≤ ds.length) : hasHexPrefix (ds ++ r) = false := by
  match ds, hlen with
  | d0 :: d1 :: ds', _ =>
    simp only [List.all_cons, Bool.and_eq_true] at hall
    have h1 := xdigit_props hall.2.1
    unfold hasHexPrefix
    have ht : ((d0 :: d1 :: ds') ++ r).take 2 = [d0, d1] := by simp
    rw [ht]
    have hx : d1 ≠ 120 ∧ d1 ≠ 88 := by
      have := hall.2.1
      simp only [isXDigit, Bool.or_eq_true, Bool.and_eq_true, decide_eq_true_eq] at this
      omega
    simp [hx.1, hx.2, List.cons.injEq]

theorem hasHexPrefix_xdigit_append {ds r : WStr} (hall : ds.all isXDigit = true)
    (hne : ds ≠ []) (hr : r.head? = some 41) : hasHexPrefix (ds ++ r) = false := by
  match ds, hne with
  | [d0], _ =>
    cases r with
    | nil => simp at hr
    | cons c r' =>
      simp only [List.head?_cons, Option.some.injEq] at hr
      subst hr
      unfold hasHexPrefix
      have ht : (([d0] : WStr) ++ 41 :: r').take 2 = [d0, 41] := by simp
      rw [ht]
      simp [List.cons.injEq]
  | d0 :: d1 :: ds', _ => exact hasHexPrefix_of_two hall (by simp)

end Regproc

namespace Regproc

/-- `strtoul` base 16 on a nonempty digit string followed by a non-digit
remainder: the digits are consumed and their value returned. -/
theorem wcstoul16_digits {ds r : WStr} (hall : ds.all isXDigit = true) (hne : ds ≠ [])
    (hpfx : hasHexPrefix (ds ++ r) = false)
    (hr : r.head?.all (fun c => !isXDigit c) = true)
    (hv : hexListVal ds ≤ 4294967295) :
    wcstoul16 (ds ++ r) = ⟨hexListVal ds, ds.length, false⟩ := by
  match ds, hne with
  | d0 :: ds', _ =>
    simp only [List.all_cons, Bool.and_eq_true] at hall
    obtain ⟨hws, _, h43, h45, _⟩ := xdigit_props hall.1
    have h1 : ((d0 :: ds') ++ r).takeWhile isSpaceC = [] := takeWhile_head_neg hws
    have h3 : ((d0 :: ds') ++ r).takeWhile isXDigit = d0 :: ds' := by
      rw [takeWhile_append_all (by simp [hall.1, hall.2])]
      cases r with
      | nil => simp
      | cons c r' =>
        simp only [List.head?_cons, Option.all_some, Bool.not_eq_true'] at hr
        rw [takeWhile_head_neg hr]
        simp
    simp only [List.cons_append] at h1 h3 hpfx hv ⊢
    unfold wcstoul16 scanHex
    rw [h1]
    simp only [List.length_nil, List.drop_zero, List.head?_cons, Option.some.injEq]
    rw [if_neg h43, if_neg h45]
    dsimp only
    simp only [List.drop_zero]
    rw [hpfx]
    simp only [Bool.false_eq_true, if_false, h3]
    rw [if_neg (by simp), if_neg (by omega)]
    simp

end Regproc

namespace Regproc

/-! ## Escape / unescape round trip -/

theorem unescapeAux_pair (x : Nat) (rest : WStr) :
    unescapeAux (92 :: x :: rest)
      = (unescChar x :: (unescapeAux rest).1, (unescapeAux rest).2) := by
  cases hu : unescapeAux rest
  simp [unescapeAux, hu]

theorem unescapeAux_cons_other {c : Nat} (h92 : c ≠ 92) (h34 : c ≠ 34) (rest : WStr) :
    unescapeAux (c :: rest) = (c :: (unescapeAux rest).1, (unescapeAux rest).2) := by
  cases hu : unescapeAux rest
  rw [unescapeAux.eq_def]
  simp [h92, h34, hu]

theorem unescapeAux_escape : ∀ (n r : WStr),
    unescapeAux (REGPROC_escape_string n ++ 34 :: r) = (n, some r) := by
  intro n
  induction n with
  | nil =>
    intro r
    rw [unescapeAux.eq_def]
    simp [REGPROC_escape_string]
  | cons c n' ih =>
    intro r
    simp only [REGPROC_escape_string]
    unfold escapeChar
    split_ifs with h1 h2 h3 h4 h5
    · subst h1
      simp only [List.append_assoc, List.cons_append, List.nil_append]
      rw [unescapeAux_pair, ih]
      simp [unescChar]
    · subst h2
      simp only [List.append_assoc, List.cons_append, List.nil_append]
      rw [unescapeAux_pair, ih]
      simp [unescChar]
    · subst h3
      simp only [List.append_assoc, List.cons_append, List.nil_append]
      rw [unescapeAux_pair, ih]
      simp [unescChar]
    · subst h4
      simp only [List.append_assoc, List.cons_append, List.nil_append]
      rw [unescapeAux_pair, ih]
      simp [unescChar]
    · subst h5
      simp only [List.append_assoc, List.cons_append, List.nil_append]
      rw [unescapeAux_pair, ih]
      simp [unescChar]
    · simp only [List.append_assoc, List.cons_append, List.nil_append]
      rw [unescapeAux_cons_other h3 h4, ih]

theorem unescape_escape (n r : WStr) :
    REGPROC_unescape_string (REGPROC_escape_string n ++ 34 :: r) = some (n, r) := by
  unfold REGPROC_unescape_string
  rw [unescapeAux_escape]

/-! ## Trailing-blank trimming -/

theorem trimTrailing_id {l : WStr} {c : Nat} (h : l.getLast? = some c)
    (hc : isBlank c = false) : trimTrailing l = l := by
  unfold trimTrailing
  have h1 : l.reverse.head? = some c := by rw [List.head?_reverse]; exact h
  cases hrev : l.reverse with
  | nil => rw [hrev] at h1; cases h1
  | cons a t =>
    rw [hrev] at h1
    injection h1 with ha
    subst ha
    rw [dropWhile_head_neg hc, ← hrev, List.reverse_reverse]

end Regproc

namespace Regproc

/-! ## Chunk structure of the wrapped hex rendering -/

/-- Comma-separated rendering of one physical line's byte group. -/
def hexJoin : Bytes → WStr
  | [] => []
  | [b] => toHex2 b
  | b :: rest => toHex2 b ++ [44] ++ hexJoin rest

/-- The bytes `hexWrapLoop` places on the current physical line, and the
bytes deferred to the following lines. -/
def hexSplit : Nat → Bytes → Bytes × Bytes
  | _, [] => ([], [])
  | _, [b] => ([b], [])
  | col, b :: rest =>
    if 77 ≤ col + 3 then ([b], rest)
    else (b :: (hexSplit (col + 3) rest).1, (hexSplit (col + 3) rest).2)

theorem hexSplit_append : ∀ (col : Nat) (bs : Bytes),
    (hexSplit col bs).1 ++ (hexSplit col bs).2 = bs
  | _, [] => rfl
  | _, [b] => rfl
  | col, b :: b2 :: rest => by
    simp only [hexSplit]
    split
    · rfl
    · simpa using hexSplit_append (col + 3) (b2 :: rest)

theorem hexSplit_fst_ne {col : Nat} {bs : Bytes} (h : bs ≠ []) :
    (hexSplit col bs).1 ≠ [] := by
  match bs, h with
  | [b], _ => simp [hexSplit]
  | b :: b2 :: rest, _ =>
    simp only [hexSplit]
    split <;> simp

theorem hexSplit_snd_lt {col : Nat} {bs : Bytes} (h : bs ≠ []) :
    (hexSplit col bs).2.length < bs.length := by
  have ha := hexSplit_append col bs
  have hf := @hexSplit_fst_ne col _ h
  have : (hexSplit col bs).1.length + (hexSplit col bs).2.length = bs.length := by
    rw [← List.length_append, ha]
  have : 1 ≤ (hexSplit col bs).1.length := by
    cases hc : (hexSplit col bs).1
    · exact absurd hc hf
    · simp
  omega

theorem hexSplit_all {p : Nat → Bool} {col : Nat} {bs : Bytes} (h : bs.all p = true) :
    (hexSplit col bs).1.all p = true ∧ (hexSplit col bs).2.all p = true := by
  have ha := hexSplit_append col bs
  rw [← ha, List.all_append, Bool.and_eq_true] at h
  exact h

theorem hexJoin_cons {b : Nat} {rest : Bytes} (h : rest ≠ []) :
    hexJoin (b :: rest) = toHex2 b ++ [44] ++ hexJoin rest := by
  match rest, h with
  | r0 :: rest', _ => rfl

theorem hexFirst_split : ∀ (col : Nat) (bs : Bytes),
    hexFirst col bs = hexJoin (hexSplit col bs).1
      ++ (if (hexSplit col bs).2 = [] then [] else [44, 92])
  | _, [] => by simp [hexFirst, hexSplit, hexJoin]
  | _, [b] => by simp [hexFirst, hexSplit, hexJoin]
  | col, b :: b2 :: rest => by
    simp only [hexFirst, hexSplit]
    split
    · simp [hexJoin]
    · rw [hexFirst_split (col + 3) (b2 :: rest),
        hexJoin_cons (hexSplit_fst_ne (by simp))]
      split <;> simp

theorem hexConts_split : ∀ (col : Nat) (bs : Bytes),
    hexConts col bs = if (hexSplit col bs).2 = [] then []
      else (32 :: 32 :: hexFirst 2 (hexSplit col bs).2) :: hexConts 2 (hexSplit col bs).2
  | _, [] => by simp [hexConts, hexSplit]
  | _, [b] => by simp [hexConts, hexSplit]
  | col, b :: b2 :: rest => by
    simp only [hexConts, hexSplit]
    split
    · simp
    · exact hexConts_split (col + 3) (b2 :: rest)

theorem hexJoin_length_ge : ∀ g : Bytes, g.length ≤ (hexJoin g).length
  | [] => by simp [hexJoin]
  | [b] => by
    simp only [hexJoin, List.length_cons, List.length_nil]
    have := toHex2_ne_nil b
    cases h : toHex2 b
    · exact absurd h this
    · simp
  | b :: b2 :: rest => by
    have ih := hexJoin_length_ge (b2 :: rest)
    rw [hexJoin_cons (by simp)]
    have := toHex2_ne_nil b
    cases h : toHex2 b
    · exact absurd h this
    · simp only [List.length_append, List.length_cons]
      simp only [List.length_cons] at ih
      omega

theorem head_xdigit {l : WStr} (hne : l ≠ []) (hall : l.all isXDigit = true) :
    ∃ c, l.head? = some c ∧ isXDigit c = true := by
  match l, hne with
  | c :: rest, _ =>
    simp only [List.all_cons, Bool.and_eq_true] at hall
    exact ⟨c, rfl, hall.1⟩

theorem toHex2_head (b : Nat) : ∃ c, (toHex2 b).head? = some c ∧ isXDigit c = true :=
  head_xdigit (toHex2_ne_nil b) (toHex2_xdigit b)

theorem head_append_left {x y : WStr} (h : x ≠ []) : (x ++ y).head? = x.head? := by
  match x, h with
  | c :: t, _ => rfl

theorem hexJoin_ne_nil {g : Bytes} (h : g ≠ []) : hexJoin g ≠ [] := by
  match g, h with
  | [b], _ => exact toHex2_ne_nil b
  | b :: b2 :: rest, _ =>
    rw [hexJoin_cons (by simp)]
    simp [toHex2_ne_nil b]

theorem hexJoin_all_xdigit_comma : ∀ g : Bytes,
    (hexJoin g).all (fun c => isXDigit c || c = 44) = true
  | [] => rfl
  | [b] => by
    simp only [hexJoin]
    have h1 := toHex2_xdigit b
    rw [List.all_eq_true] at h1 ⊢
    intro c hc
    simp [h1 c hc]
  | b :: b2 :: rest => by
    rw [hexJoin_cons (by simp)]
    have h1 := toHex2_xdigit b
    have h2 := hexJoin_all_xdigit_comma (b2 :: rest)
    rw [List.all_eq_true] at h1 h2 ⊢
    intro c hc
    simp only [List.mem_append, List.mem_singleton] at hc
    rcases hc with (h | h) | h
    · simp [h1 c h]
    · simp [h]
    · exact h2 c h

theorem hexJoin_head {g : Bytes} (h : g ≠ []) :
    ∃ c, (hexJoin g).head? = some c ∧ isXDigit c = true := by
  match g, h with
  | [b], _ => exact toHex2_head b
  | b :: b2 :: rest, _ =>
    rw [hexJoin_cons (by simp), List.append_assoc, head_append_left (toHex2_ne_nil b)]
    exact toHex2_head b

theorem hexFirst_head {col : Nat} {bs : Bytes} (h : bs ≠ []) :
    ∃ c, (hexFirst col bs).head? = some c ∧ isXDigit c = true := by
  rw [hexFirst_split, head_append_left (hexJoin_ne_nil (hexSplit_fst_ne h))]
  exact hexJoin_head (hexSplit_fst_ne h)

theorem hexWrapLoop_chars {B : Nat} (hB : 256 ≤ B) : ∀ (col : Nat) (bs : Bytes),
    (hexWrapLoop col bs).all (fun c => c < B) = true := by
  have htwo : ∀ b, (toHex2 b).all (fun c => c < B) = true := by
    intro b
    have h2 := toHex2_xdigit b
    rw [List.all_eq_true] at h2 ⊢
    intro c hc
    have hx := h2 c hc
    simp only [isXDigit, Bool.or_eq_true, Bool.and_eq_true, decide_eq_true_eq] at hx
    simp only [decide_eq_true_eq]
    omega
  intro col bs
  induction bs generalizing col with
  | nil => rfl
  | cons b rest ih =>
    cases rest with
    | nil => exact htwo b
    | cons b2 rest2 =>
      simp only [hexWrapLoop]
      split
      · simp only [List.all_append, List.all_cons, List.all_nil, Bool.and_eq_true,
          decide_eq_true_eq, and_true]
        exact ⟨⟨htwo b, by omega⟩, by omega, ih 2⟩
      · simp only [List.all_append, List.all_cons, List.all_nil, Bool.and_eq_true,
          decide_eq_true_eq, and_true]
        exact ⟨⟨htwo b, by omega⟩, ih (col + 3)⟩

end Regproc

namespace Regproc

/-! ## Parsing the rendered chunks back -/

theorem wcstoul16_toHex2 {b : Nat} (hb : b < 256) (r : WStr)
    (hr : r.head?.all (fun c => !isXDigit c) = true) :
    wcstoul16 (toHex2 b ++ r) = ⟨b, 2, false⟩ := by
  have h := wcstoul16_digits (toHex2_xdigit b) (toHex2_ne_nil b)
    (hasHexPrefix_of_two (toHex2_xdigit b) (by rw [toHex2_length hb])) hr
    (by rw [hexListVal_toHex2]; omega)
  rw [h, hexListVal_toHex2, toHex2_length hb]

theorem convertAux_nil : ∀ (f : Nat) (acc : Bytes),
    convertHexCsvAux f acc [] = CsvOut.ok acc false []
  | 0, _ => rfl
  | _ + 1, _ => rfl

theorem convertAux_backslash (f : Nat) (acc : Bytes) :
    convertHexCsvAux (f + 1) acc [92] = CsvOut.ok acc true [] := rfl

/-- The continuation of the csv loop after one parsed byte. -/
def csvAfterByte (f : Nat) (d : Bytes) : WStr → CsvOut
  | [] => convertHexCsvAux f d []
  | c :: rest =>
    if c = 44 then convertHexCsvAux f d rest
    else match (c :: rest).dropWhile isBlank with
         | [] => CsvOut.ok d false []
         | c2 :: _ => if c2 = 59 then CsvOut.ok d false [] else CsvOut.fail d

/-- One byte iteration of the csv loop. -/
theorem convertAux_byte {b : Nat} (hb : b < 256) (f : Nat) (acc : Bytes) (r : WStr)
    (hr : r.head?.all (fun c => !isXDigit c) = true) :
    convertHexCsvAux (f + 1) acc (toHex2 b ++ r) = csvAfterByte f (acc ++ [b]) r := by
  obtain ⟨t0, ts, ht⟩ := List.exists_cons_of_ne_nil (toHex2_ne_nil b)
  have hw := wcstoul16_toHex2 hb r hr
  have hd : (toHex2 b ++ r).drop 2 = r := by
    rw [← toHex2_length hb]
    exact List.drop_left _ _
  rw [ht, List.cons_append]
  simp only [convertHexCsvAux]
  rw [← List.cons_append, ← ht, hw]
  dsimp only
  rw [if_neg (by omega), if_neg (by omega), hd]
  cases r <;> rfl

theorem convertAux_chunk_bs : ∀ (g : Bytes) (acc : Bytes) (fuel : Nat), g ≠ [] →
    g.all (fun b => b < 256) = true → g.length + 1 ≤ fuel →
    convertHexCsvAux fuel acc (hexJoin g ++ [44, 92]) = CsvOut.ok (acc ++ g) true [] := by
  intro g
  induction g with
  | nil => intro acc fuel h; exact absurd rfl h
  | cons b g' ih =>
    intro acc fuel _ hall hfuel
    simp only [List.all_cons, Bool.and_eq_true, decide_eq_true_eq] at hall
    obtain ⟨fuel', rfl⟩ : ∃ f, fuel = f + 1 := ⟨fuel - 1, by omega⟩
    cases g' with
    | nil =>
      simp only [hexJoin]
      rw [convertAux_byte hall.1 fuel' acc [44, 92] (by rfl)]
      simp only [csvAfterByte]
      rw [if_pos trivial]
      obtain ⟨f2, rfl⟩ : ∃ f2, fuel' = f2 + 1 := ⟨fuel' - 1, by simp at hfuel; omega⟩
      rw [convertAux_backslash]
    | cons b2 g2 =>
      rw [hexJoin_cons (by simp), List.append_assoc, List.append_assoc]
      rw [show ([44] : WStr) ++ (hexJoin (b2 :: g2) ++ [44, 92])
          = 44 :: (hexJoin (b2 :: g2) ++ [44, 92]) by simp]
      rw [convertAux_byte hall.1 fuel' acc _ (by rfl)]
      simp only [csvAfterByte]
      rw [if_pos trivial]
      rw [ih (acc ++ [b]) fuel' (by simp) (by simpa using hall.2)
        (by simp only [List.length_cons] at hfuel ⊢; omega)]
      simp

theorem convertAux_chunk_end : ∀ (g : Bytes) (acc : Bytes) (fuel : Nat), g ≠ [] →
    g.all (fun b => b < 256) = true → g.length ≤ fuel →
    convertHexCsvAux fuel acc (hexJoin g) = CsvOut.ok (acc ++ g) false [] := by
  intro g
  induction g with
  | nil => intro acc fuel h; exact absurd rfl h
  | cons b g' ih =>
    intro acc fuel _ hall hfuel
    simp only [List.all_cons, Bool.and_eq_true, decide_eq_true_eq] at hall
    obtain ⟨fuel', rfl⟩ : ∃ f, fuel = f + 1 := ⟨fuel - 1, by simp at hfuel; omega⟩
    cases g' with
    | nil =>
      simp only [hexJoin]
      rw [show (toHex2 b : WStr) = toHex2 b ++ [] by simp]
      rw [convertAux_byte hall.1 fuel' acc [] (by rfl)]
      simp only [csvAfterByte]
      rw [convertAux_nil]
    | cons b2 g2 =>
      rw [hexJoin_cons (by simp), List.append_assoc]
      rw [show ([44] : WStr) ++ hexJoin (b2 :: g2) = 44 :: hexJoin (b2 :: g2) by simp]
      rw [convertAux_byte hall.1 fuel' acc _ (by rfl)]
      simp only [csvAfterByte]
      rw [if_pos trivial]
      rw [ih (acc ++ [b]) fuel' (by simp) (by simpa using hall.2)
        (by simp only [List.length_cons] at hfuel ⊢; omega)]
      simp

theorem convert_chunk_bs {g acc : Bytes} (hne : g ≠ [])
    (hall : g.all (fun b => b < 256) = true) :
    convert_hex_csv_to_hex acc (hexJoin g ++ [44, 92]) = CsvOut.ok (acc ++ g) true [] := by
  unfold convert_hex_csv_to_hex
  rw [convertAux_chunk_bs g acc _ hne hall ?hf]
  case hf =>
    have := hexJoin_length_ge g
    simp only [List.length_append]
    omega

theorem convert_chunk_end {g acc : Bytes} (hne : g ≠ [])
    (hall : g.all (fun b => b < 256) = true) :
    convert_hex_csv_to_hex acc (hexJoin g) = CsvOut.ok (acc ++ g) false (hexJoin g) := by
  unfold convert_hex_csv_to_hex
  rw [convertAux_chunk_end g acc _ hne hall (by have := hexJoin_length_ge g; omega)]

end Regproc

namespace Regproc

/-! ## Logical lines of the exported text -/

/-- The physical lines written for one value (without terminators). -/
def valueLines (uni : Bool) (v : RegValue) : List WStr :=
  let nm := export_value_name_text v.name
  if v.ty = REG_SZ then
    [nm ++ [34] ++ REGPROC_export_string (cstr (bytePairs v.data)) ++ [34]]
  else if v.ty = REG_DWORD then
    [nm ++ (strW "dword:" ++ toHex8 (dwordOfBytes v.data))]
  else
    let pre := hexPrefixText v.ty
    let d := if !uni && (v.ty = REG_EXPAND_SZ || v.ty = REG_MULTI_SZ) then
        acpFromWide (bytePairs v.data) else v.data
    (nm ++ pre ++ hexFirst (nm.length + pre.length) d)
      :: hexConts (nm.length + pre.length) d

theorem splitLines_value {uni : Bool} {v : RegValue} (hwf : wfValue uni v = true) (w : WStr) :
    splitLines (exportValueText uni v ++ w) = valueLines uni v ++ splitLines w := by
  have hnm := export_value_name_termFree v.name
  rw [exportValueText_eq]
  by_cases hsz : v.ty = REG_SZ
  · have hcond : 2 ≤ v.data.length ∧ v.data.length % 2 = 0
        ∧ (bytePairs v.data).getLast? = some 0 := by
      unfold wfValue at hwf
      rw [hsz] at hwf
      rw [if_neg (by decide), if_pos rfl] at hwf
      simp only [isWideData, Bool.and_eq_true, decide_eq_true_eq] at hwf
      obtain ⟨-, ⟨⟨⟨⟨hmod, hall⟩, hlen⟩, hlast⟩, hdrop⟩, hchars⟩ := hwf
      exact ⟨hlen, hmod, hlast⟩
    rw [if_neg (not_not_intro hsz), hsz]
    unfold export_hkey_text
    rw [if_pos hcond]
    rw [show (export_value_name_text v.name ++
          ([34] ++ REGPROC_export_string (cstr (bytePairs v.data)) ++ [34, 13, 10])) ++ w
        = (export_value_name_text v.name ++ [34]
            ++ REGPROC_export_string (cstr (bytePairs v.data)) ++ [34]) ++ 13 :: 10 :: w by
          simp]
    rw [splitLines_line (termFree_append (termFree_append (termFree_append hnm (by decide))
      (export_string_termFree _)) (by decide))]
    rw [valueLines, if_pos hsz]
    rfl
  · rw [if_pos hsz]
    unfold export_data_text
    by_cases hdw : v.ty = REG_DWORD
    · rw [if_pos hdw]
      rw [show (export_value_name_text v.name
            ++ (export_dword_text v.data ++ [13, 10])) ++ w
          = (export_value_name_text v.name
              ++ (strW "dword:" ++ toHex8 (dwordOfBytes v.data))) ++ 13 :: 10 :: w by
            simp [export_dword_text]]
      rw [splitLines_line (termFree_append hnm
        (termFree_append (by decide) (toHex8_termFree _)))]
      rw [valueLines, if_neg hsz, if_pos hdw]
      rfl
    · rw [if_neg hdw]
      rw [show (export_value_name_text v.name
            ++ (export_hex_data_text uni v.ty (export_value_name_text v.name).length v.data
              ++ [13, 10])) ++ w
          = (export_value_name_text v.name ++ hexPrefixText v.ty)
            ++ (hexWrapLoop ((export_value_name_text v.name).length
                + (hexPrefixText v.ty).length)
              (if !uni && (v.ty = REG_EXPAND_SZ || v.ty = REG_MULTI_SZ) then
                 acpFromWide (bytePairs v.data) else v.data) ++ 13 :: 10 :: w) by
            rw [show export_hex_data_text uni v.ty (export_value_name_text v.name).length v.data
              = hexPrefixText v.ty ++ hexWrapLoop ((export_value_name_text v.name).length
                  + (hexPrefixText v.ty).length)
                (if !uni && (v.ty = REG_EXPAND_SZ || v.ty = REG_MULTI_SZ) then
                   acpFromWide (bytePairs v.data) else v.data) from rfl]
            simp]
      rw [splitLines_front (termFree_append hnm (hexPrefixText_termFree v.ty)),
        hexWrapLoop_lines]
      rw [valueLines, if_neg hsz, if_neg hdw]
      simp

end Regproc

namespace Regproc

theorem termFree_of_wfName {uni : Bool} {n : WStr} (h : wfName uni n = true) :
    termFree n = true := by
  unfold wfName at h
  simp only [Bool.and_eq_true] at h
  have h4 := h.2
  rw [List.all_eq_true] at h4
  unfold termFree
  rw [List.all_eq_true]
  intro c hc
  have := h4 c hc
  simp only [Bool.and_eq_true, decide_eq_true_eq] at this ⊢
  exact ⟨this.1.1.2, this.1.2⟩

theorem termFree_key {path : WStr} (hp : termFree path = true) :
    termFree (91 :: (path ++ [93])) = true := by
  unfold termFree at hp ⊢
  simp only [List.all_cons, List.all_append, Bool.and_eq_true]
  exact ⟨by decide, hp, by decide⟩

/-- The physical lines written for a list of values. -/
def valsLines (uni : Bool) : List RegValue → List WStr
  | [] => []
  | v :: rest => valueLines uni v ++ valsLines uni rest

mutual
/-- The physical lines written for one key and its subtree. -/
def treeLines (uni : Bool) (path : WStr) : RegTree → List WStr
  | .mk vals subs =>
    [] :: (91 :: (path ++ [93])) :: (valsLines uni vals ++ subsLines uni path subs)
/-- The physical lines written for a subkey list. -/
def subsLines (uni : Bool) (path : WStr) : SubkeyList → List WStr
  | .nil => []
  | .cons n t rest => treeLines uni (path ++ [92] ++ n) t ++ subsLines uni path rest
end

theorem splitLines_vals : ∀ (vals : List RegValue) (uni : Bool) (w : WStr),
    vals.all (wfValue uni) = true →
    splitLines (exportValues uni vals ++ w) = valsLines uni vals ++ splitLines w
  | [], _, w, _ => by simp [exportValues, valsLines]
  | v :: rest, uni, w, h => by
    simp only [List.all_cons, Bool.and_eq_true] at h
    simp only [exportValues, valsLines, List.append_assoc]
    rw [splitLines_value h.1 _, splitLines_vals rest uni w h.2]

mutual
theorem splitLines_tree : ∀ (t : RegTree) (uni : Bool) (path w : WStr),
    termFree path = true → wfTree uni t = true →
    splitLines (exportTree uni path t ++ w) = treeLines uni path t ++ splitLines w
  | .mk vals subs, uni, path, w, hp, hwf => by
    unfold wfTree at hwf
    simp only [Bool.and_eq_true] at hwf
    rw [show exportTree uni path (RegTree.mk vals subs) ++ w
        = 13 :: 10 :: ((91 :: (path ++ [93])) ++ 13 :: 10 ::
            (exportValues uni vals ++ (exportSubs uni path subs ++ w))) by
          simp [exportTree, export_key_name_text]]
    rw [show splitLines (13 :: 10 :: ((91 :: (path ++ [93])) ++ 13 :: 10 ::
            (exportValues uni vals ++ (exportSubs uni path subs ++ w))))
        = [] :: splitLines ((91 :: (path ++ [93])) ++ 13 :: 10 ::
            (exportValues uni vals ++ (exportSubs uni path subs ++ w))) from rfl]
    rw [splitLines_line (termFree_key hp)]
    rw [splitLines_vals vals uni _ hwf.1.1]
    rw [splitLines_subs subs uni path w hp hwf.2]
    simp [treeLines]
theorem splitLines_subs : ∀ (sks : SubkeyList) (uni : Bool) (path w : WStr),
    termFree path = true → wfSubs uni sks = true →
    splitLines (exportSubs uni path sks ++ w) = subsLines uni path sks ++ splitLines w
  | .nil, uni, path, w, _, _ => by simp [exportSubs, subsLines]
  | .cons n t rest, uni, path, w, hp, hwf => by
    unfold wfSubs at hwf
    simp only [Bool.and_eq_true] at hwf
    have hp2 : termFree (path ++ [92] ++ n) = true := by
      unfold termFree at hp ⊢
      simp only [List.all_append, Bool.and_eq_true]
      exact ⟨⟨hp, by decide⟩, termFree_of_wfName hwf.1.1.1⟩
    simp only [exportSubs, subsLines]
    rw [show (exportTree uni (path ++ [92] ++ n) t ++ exportSubs uni path rest) ++ w
        = exportTree uni (path ++ [92] ++ n) t ++ (exportSubs uni path rest ++ w) from
        List.append_assoc _ _ _]
    rw [splitLines_tree t uni _ _ hp2 hwf.1.1.2]
    rw [splitLines_subs rest uni path w hp hwf.2]
    simp
end

end Regproc

namespace Regproc

/-! ## Character bounds of the exported text -/

/-- Upper bound of representable code points in each output encoding. -/
def bnd (uni : Bool) : Nat := if uni then 65536 else 256

theorem bnd_ge : 256 ≤ bnd uni := by cases uni <;> simp [bnd]

theorem charsOk_eq_bnd (uni : Bool) (l : WStr) :
    charsOk uni l = l.all (fun c => c < bnd uni) := rfl

theorem all_lt_of_xdigit {l : WStr} (h : l.all isXDigit = true) {B : Nat} (hB : 256 ≤ B) :
    l.all (fun c => c < B) = true := by
  rw [List.all_eq_true] at h ⊢
  intro c hc
  have := h c hc
  simp only [isXDigit, Bool.or_eq_true, Bool.and_eq_true, decide_eq_true_eq] at this
  simp only [decide_eq_true_eq]
  omega

theorem all_takeWhile {p q : Nat → Bool} {l : WStr} (h : l.all q = true) :
    (l.takeWhile p).all q = true := by
  induction l with
  | nil => rfl
  | cons c rest ih =>
    simp only [List.all_cons, Bool.and_eq_true] at h
    rw [List.takeWhile_cons]
    split
    · simp only [List.all_cons, Bool.and_eq_true]
      exact ⟨h.1, ih h.2⟩
    · rfl

theorem escape_chars {n : WStr} {B : Nat} (hB : 256 ≤ B)
    (h : n.all (fun c => c < B) = true) :
    (REGPROC_escape_string n).all (fun c => c < B) = true := by
  induction n with
  | nil => rfl
  | cons c rest ih =>
    simp only [List.all_cons, Bool.and_eq_true, decide_eq_true_eq] at h
    simp only [REGPROC_escape_string, List.all_append, Bool.and_eq_true]
    refine ⟨?_, ih h.2⟩
    unfold escapeChar
    split_ifs <;> simp only [List.all_cons, List.all_nil, Bool.and_eq_true,
      decide_eq_true_eq, and_true] <;> omega

theorem export_string_chars {n : WStr} {B : Nat} (hB : 256 ≤ B)
    (h : n.all (fun c => c < B) = true) :
    (REGPROC_export_string n).all (fun c => c < B) = true := by
  induction n with
  | nil => rfl
  | cons c rest ih =>
    simp only [List.all_cons, Bool.and_eq_true, decide_eq_true_eq] at h
    simp only [REGPROC_export_string, List.all_append, Bool.and_eq_true]
    refine ⟨?_, ih h.2⟩
    unfold exportStrChar
    split_ifs <;> simp only [List.all_cons, List.all_nil, Bool.and_eq_true,
      decide_eq_true_eq, and_true] <;> omega

theorem export_value_name_chars {n : WStr} {B : Nat} (hB : 256 ≤ B)
    (h : n.all (fun c => c < B) = true) :
    (export_value_name_text n).all (fun c => c < B) = true := by
  unfold export_value_name_text
  split
  · simp only [List.append_assoc, List.all_append, List.all_cons, List.all_nil,
      Bool.and_eq_true, decide_eq_true_eq, and_true]
    exact ⟨by omega, escape_chars hB h, by omega, by omega⟩
  · simp only [List.all_cons, List.all_nil, Bool.and_eq_true, decide_eq_true_eq, and_true]
    omega

theorem toHex_chars {n B : Nat} (hB : 256 ≤ B) : (toHex n).all (fun c => c < B) = true :=
  all_lt_of_xdigit (toHex_xdigit n) hB

theorem toHex8_chars {n B : Nat} (hB : 256 ≤ B) : (toHex8 n).all (fun c => c < B) = true :=
  all_lt_of_xdigit (toHex8_xdigit n) hB

theorem strW_chars {B : Nat} (hB : 256 ≤ B) {s : String}
    (hs : (strW s).all (fun c => c < 256) = true) :
    (strW s).all (fun c => c < B) = true := by
  rw [List.all_eq_true] at hs ⊢
  intro c hc
  have := hs c hc
  simp only [decide_eq_true_eq] at this ⊢
  omega

theorem hexPrefixText_chars {ty B : Nat} (hB : 256 ≤ B) :
    (hexPrefixText ty).all (fun c => c < B) = true := by
  unfold hexPrefixText
  split
  · exact strW_chars hB (by decide)
  · simp only [List.append_assoc, List.all_append, Bool.and_eq_true]
    exact ⟨strW_chars hB (by decide), toHex_chars hB, strW_chars hB (by decide)⟩

theorem acpFromWide_chars {w : WStr} {B : Nat} (hB : 256 ≤ B) :
    (acpFromWide w).all (fun c => c < B) = true := by
  have := acpFromWide_all_lt w
  rw [List.all_eq_true] at this ⊢
  intro c hc
  have h2 := this c hc
  simp only [decide_eq_true_eq] at h2 ⊢
  omega

theorem exportValueText_chars {uni : Bool} {v : RegValue} (hwf : wfValue uni v = true) :
    (exportValueText uni v).all (fun c => c < bnd uni) = true := by
  have hB : 256 ≤ bnd uni := bnd_ge
  have hname : (export_value_name_text v.name).all (fun c => c < bnd uni) = true := by
    refine export_value_name_chars hB ?_
    unfold wfValue at hwf
    simp only [Bool.and_eq_true] at hwf
    exact hwf.1.2
  rw [exportValueText_eq]
  rw [List.all_append, Bool.and_eq_true]
  refine ⟨hname, ?_⟩
  by_cases hsz : v.ty = REG_SZ
  · rw [if_neg (not_not_intro hsz)]
    unfold export_hkey_text
    have hchars : charsOk uni (bytePairs v.data) = true := by
      unfold wfValue at hwf
      rw [hsz] at hwf
      rw [if_neg (by decide), if_pos rfl] at hwf
      simp only [Bool.and_eq_true] at hwf
      exact hwf.2.2
    rw [charsOk_eq_bnd] at hchars
    split
    · simp only [List.append_assoc, List.all_append, List.all_cons, List.all_nil,
        Bool.and_eq_true, decide_eq_true_eq, and_true]
      exact ⟨by omega, export_string_chars hB (all_takeWhile hchars), by omega,
        by omega, by omega⟩
    · rw [REGPROC_export_binary_eq]
      simp only [List.append_assoc, List.all_append, List.all_cons, List.all_nil,
        Bool.and_eq_true, decide_eq_true_eq, and_true]
      refine ⟨hexPrefixText_chars hB, hexWrapLoop_chars hB _ _, by omega, by omega⟩
  · rw [if_pos hsz]
    unfold export_data_text
    split
    · simp only [export_dword_text, List.append_assoc, List.all_append, List.all_cons,
        List.all_nil, Bool.and_eq_true, decide_eq_true_eq, and_true]
      exact ⟨strW_chars hB (by decide), toHex8_chars hB, by omega, by omega⟩
    · rw [show export_hex_data_text uni v.ty (export_value_name_text v.name).length v.data
          = hexPrefixText v.ty ++ hexWrapLoop ((export_value_name_text v.name).length
              + (hexPrefixText v.ty).length)
            (if !uni && (v.ty = REG_EXPAND_SZ || v.ty = REG_MULTI_SZ) then
               acpFromWide (bytePairs v.data) else v.data) from rfl]
      simp only [List.append_assoc, List.all_append, List.all_cons, List.all_nil,
        Bool.and_eq_true, decide_eq_true_eq, and_true]
      refine ⟨hexPrefixText_chars hB, hexWrapLoop_chars hB _ _, by omega, by omega⟩

theorem exportValues_chars : ∀ {vals : List RegValue} {uni : Bool},
    vals.all (wfValue uni) = true →
    (exportValues uni vals).all (fun c => c < bnd uni) = true
  | [], _, _ => rfl
  | v :: rest, uni, h => by
    simp only [List.all_cons, Bool.and_eq_true] at h
    simp only [exportValues, List.all_append, Bool.and_eq_true]
    exact ⟨exportValueText_chars h.1, exportValues_chars h.2⟩

mutual
theorem exportTree_chars : ∀ (t : RegTree) (uni : Bool) (path : WStr),
    path.all (fun c => c < bnd uni) = true → wfTree uni t = true →
    (exportTree uni path t).all (fun c => c < bnd uni) = true
  | .mk vals subs, uni, path, hp, hwf => by
    unfold wfTree at hwf
    simp only [Bool.and_eq_true] at hwf
    simp only [exportTree, export_key_name_text, List.append_assoc, List.all_append,
      List.all_cons, List.all_nil, Bool.and_eq_true, decide_eq_true_eq, and_true]
    have hB : 256 ≤ bnd uni := bnd_ge
    repeat' apply And.intro
    all_goals first
      | omega
      | exact hp
      | exact exportValues_chars hwf.1.1
      | exact exportSubs_chars subs uni path hp hwf.2
theorem exportSubs_chars : ∀ (sks : SubkeyList) (uni : Bool) (path : WStr),
    path.all (fun c => c < bnd uni) = true → wfSubs uni sks = true →
    (exportSubs uni path sks).all (fun c => c < bnd uni) = true
  | .nil, _, _, _, _ => rfl
  | .cons n t rest, uni, path, hp, hwf => by
    unfold wfSubs at hwf
    simp only [Bool.and_eq_true] at hwf
    have hB : 256 ≤ bnd uni := bnd_ge
    have hp2 : (path ++ [92] ++ n).all (fun c => c < bnd uni) = true := by
      simp only [List.all_append, List.all_cons, List.all_nil, Bool.and_eq_true,
        decide_eq_true_eq, and_true]
      refine ⟨⟨hp, by omega⟩, ?_⟩
      have := hwf.1.1.1
      unfold wfName at this
      simp only [Bool.and_eq_true] at this
      rw [← charsOk_eq_bnd]
      exact this.1.2
    simp only [exportSubs, List.all_append, Bool.and_eq_true]
    exact ⟨exportTree_chars t uni _ hp2 hwf.1.1.2, exportSubs_chars rest uni path hp hwf.2⟩
end

end Regproc

namespace Regproc

/-! ## Key paths: rendering and re-parsing -/

theorem splitSegs_ne_nil : ∀ l : WStr, splitSegs l ≠ [] := by
  intro l
  induction l using splitSegs.induct <;>
    first
      | (simp only [splitSegs]; split <;> simp_all)
      | simp [splitSegs]
      | simp_all

theorem splitSegs_cons {c : Nat} (h : c ≠ 92) (rest : WStr) :
    splitSegs (c :: rest) = (c :: (splitSegs rest).headI) :: (splitSegs rest).tail := by
  obtain ⟨l, ls, hl⟩ := List.exists_cons_of_ne_nil (splitSegs_ne_nil rest)
  rw [splitSegs.eq_def]
  split
  · rename_i heq; cases heq
  · rename_i heq; rw [List.cons.injEq] at heq; exact absurd heq.1 h
  · rename_i c2 r2 _ heq
    rw [List.cons.injEq] at heq
    obtain ⟨hc, hr⟩ := heq
    subst hc
    subst hr
    rw [hl]
    simp

theorem splitSegs_front : ∀ {s : WStr}, s.all (fun c => c ≠ 92) = true → ∀ (w : WStr),
    splitSegs (s ++ 92 :: w) = s :: splitSegs w := by
  intro s
  induction s with
  | nil => intro _ w; simp [splitSegs]
  | cons c s' ih =>
    intro h w
    simp only [List.all_cons, Bool.and_eq_true, decide_eq_true_eq] at h
    rw [List.cons_append, splitSegs_cons h.1, ih (by simpa using h.2)]
    simp

theorem splitSegs_single : ∀ {s : WStr}, s ≠ [] → s.all (fun c => c ≠ 92) = true →
    splitSegs s = [s] := by
  intro s
  induction s with
  | nil => intro h; exact absurd rfl h
  | cons c s' ih =>
    intro _ h
    simp only [List.all_cons, Bool.and_eq_true, decide_eq_true_eq] at h
    cases s' with
    | nil => rw [splitSegs_cons h.1]; simp [splitSegs]
    | cons c2 s2 =>
      rw [splitSegs_cons h.1, ih (by simp) (by simpa using h.2)]
      simp

theorem joinSegs_ne_nil {s0 : WStr} (h : s0 ≠ []) (rest : List WStr) :
    joinSegs (s0 :: rest) ≠ [] := by
  cases rest with
  | nil => simpa [joinSegs]
  | cons s1 r2 =>
    simp only [joinSegs]
    match s0, h with
    | c :: s', _ => simp

theorem splitSegs_joinSegs : ∀ {segs : List WStr}, segs ≠ [] →
    (∀ x ∈ segs, x ≠ [] ∧ x.all (fun c => c ≠ 92) = true) →
    splitSegs (joinSegs segs) = segs := by
  intro segs
  induction segs with
  | nil => intro h; exact absurd rfl h
  | cons s0 rest ih =>
    intro _ hall
    have h0 := hall s0 (by simp)
    cases rest with
    | nil => simpa [joinSegs] using splitSegs_single h0.1 h0.2
    | cons s1 r2 =>
      have := ih (by simp) (fun x hx => hall x (by simp [hx]))
      simp only [joinSegs]
      rw [List.append_assoc, show ([92] : WStr) ++ joinSegs (s1 :: r2)
          = 92 :: joinSegs (s1 :: r2) by simp, splitSegs_front h0.2, this]

theorem prefixNoCase_self_append : ∀ (n r : WStr), prefixNoCase (n ++ r) n = true
  | [], r => by cases r <;> rfl
  | c :: n', r => by
    simp only [List.cons_append, prefixNoCase, Bool.and_eq_true]
    exact ⟨by simp [eqNoCase], prefixNoCase_self_append n' r⟩

theorem prefixNoCase_mismatch : ∀ (i : Nat) (s t : WStr), i < t.length →
    eqNoCase (s.getD i 0) (t.getD i 0) = false → prefixNoCase s t = false
  | _, _, [], hi, _ => absurd hi (by simp)
  | 0, [], b :: t', _, _ => rfl
  | 0, a :: s', b :: t', _, h => by
    simp only [List.getD_cons_zero] at h
    simp [prefixNoCase, h]
  | i + 1, [], b :: t', _, _ => rfl
  | i + 1, a :: s', b :: t', hi, h => by
    simp only [List.getD_cons_succ] at h
    have := prefixNoCase_mismatch i s' t' (by simpa using hi) h
    simp [prefixNoCase, this]

theorem matchesRoot_of (name tail : WStr) (h : tail = [] ∨ tail.head? = some 92) :
    matchesRoot (name ++ tail) name = true := by
  unfold matchesRoot
  rw [prefixNoCase_self_append]
  simp only [Bool.true_and, Bool.or_eq_true, decide_eq_true_eq]
  rcases h with rfl | h
  · left; simp
  · right
    rw [List.drop_left]
    exact h

theorem matchesRoot_false_of_mismatch (a tail t : WStr) (i : Nat) (hi : i < t.length)
    (ha : i < a.length) (h : eqNoCase (a.getD i 0) (t.getD i 0) = false) :
    matchesRoot (a ++ tail) t = false := by
  unfold matchesRoot
  rw [prefixNoCase_mismatch i _ _ hi (by rw [List.getD_append _ _ _ _ ha]; exact h)]
  simp

end Regproc

namespace Regproc

/-- The subpath reported by `parse_key_name` for a rendered path. -/
def segsSub : List WStr → Option WStr
  | [] => none
  | segs => some (joinSegs segs)

theorem wfName_props {uni : Bool} {n : WStr} (h : wfName uni n = true) :
    n ≠ [] ∧ n.all (fun c => c ≠ 92) = true := by
  unfold wfName at h
  simp only [Bool.and_eq_true, decide_eq_true_eq] at h
  refine ⟨h.1.1.1, ?_⟩
  have h4 := h.2
  rw [List.all_eq_true] at h4 ⊢
  intro c hc
  have := h4 c hc
  simp only [Bool.and_eq_true, decide_eq_true_eq] at this ⊢
  exact this.2

theorem keyPathOf_pathText {cls : Nat} (hcls : cls < 6) {segs : List WStr}
    (hprops : ∀ x ∈ segs, x ≠ [] ∧ x.all (fun c => c ≠ 92) = true) :
    keyPathOf (pathText cls segs) = segsSub segs := by
  cases segs with
  | nil =>
    unfold keyPathOf
    rw [if_neg ?h]
    · rfl
    case h => interval_cases cls <;> decide
  | cons s0 r =>
    have hpe : pathText cls (s0 :: r)
        = regClassNames.getD cls [] ++ (92 :: joinSegs (s0 :: r)) := by
      simp [pathText]
    have hroot92 : (regClassNames.getD cls []).all (fun c => c ≠ 92) = true := by
      interval_cases cls <;> decide
    unfold keyPathOf
    rw [hpe, if_pos (by simp)]
    rw [dropWhile_append_all hroot92, dropWhile_head_neg (by decide)]
    simp [segsSub]

theorem segsOf_segsSub {uni : Bool} {segs : List WStr}
    (hsegs : segs.all (wfName uni) = true) : segsOf (segsSub segs) = segs := by
  cases segs with
  | nil => rfl
  | cons s0 r =>
    have hprops : ∀ x ∈ s0 :: r, x ≠ [] ∧ x.all (fun c => c ≠ 92) = true := by
      intro x hx
      rw [List.all_eq_true] at hsegs
      exact wfName_props (hsegs x hx)
    have hne := joinSegs_ne_nil (hprops s0 (by simp)).1 r
    obtain ⟨j0, jr, hj⟩ := List.exists_cons_of_ne_nil hne
    show segsOf (some (joinSegs (s0 :: r))) = s0 :: r
    rw [hj]
    show splitSegs (j0 :: jr) = s0 :: r
    rw [← hj]
    exact splitSegs_joinSegs (by simp) hprops

set_option maxHeartbeats 1000000 in
theorem parse_key_name_pathText {uni : Bool} {cls : Nat} (hcls : cls < 6) {segs : List WStr}
    (hsegs : segs.all (wfName uni) = true) :
    parse_key_name (pathText cls segs) = some (cls, segsSub segs) := by
  have hprops : ∀ x ∈ segs, x ≠ [] ∧ x.all (fun c => c ≠ 92) = true := by
    intro x hx
    rw [List.all_eq_true] at hsegs
    exact wfName_props (hsegs x hx)
  have hpath : ∃ tail, pathText cls segs = regClassNames.getD cls [] ++ tail
      ∧ (tail = [] ∨ tail.head? = some 92) := by
    cases segs with
    | nil => exact ⟨[], by simp [pathText], Or.inl rfl⟩
    | cons s0 r => exact ⟨92 :: joinSegs (s0 :: r), by simp [pathText], Or.inr rfl⟩
  obtain ⟨tail, hpe, htl⟩ := hpath
  have hkp := keyPathOf_pathText hcls hprops
  interval_cases cls
  · -- class 0: HKEY_LOCAL_MACHINE
    simp only [regClassNames, List.getD_cons_zero, List.getD_cons_succ] at hpe
    unfold parse_key_name
    simp only [regClassNames]
    rw [List.findIdx?_cons, if_pos (by rw [hpe]; exact matchesRoot_of _ _ htl)]
    simp [hkp]
  · -- class 1: HKEY_USERS
    simp only [regClassNames, List.getD_cons_zero, List.getD_cons_succ] at hpe
    unfold parse_key_name
    simp only [regClassNames]
    rw [List.findIdx?_cons, if_neg (by
      rw [hpe]
      simp [matchesRoot_false_of_mismatch (strW "HKEY_USERS") tail
        (strW "HKEY_LOCAL_MACHINE") 5 (by decide) (by decide) (by decide)])]
    rw [List.findIdx?_cons, if_pos (by rw [hpe]; exact matchesRoot_of _ _ htl)]
    simp [hkp]
  · -- class 2: HKEY_CLASSES_ROOT
    simp only [regClassNames, List.getD_cons_zero, List.getD_cons_succ] at hpe
    unfold parse_key_name
    simp only [regClassNames]
    rw [List.findIdx?_cons, if_neg (by
      rw [hpe]
      simp [matchesRoot_false_of_mismatch (strW "HKEY_CLASSES_ROOT") tail
        (strW "HKEY_LOCAL_MACHINE") 5 (by decide) (by decide) (by decide)])]
    rw [List.findIdx?_cons, if_neg (by
      rw [hpe]
      simp [matchesRoot_false_of_mismatch (strW "HKEY_CLASSES_ROOT") tail
        (strW "HKEY_USERS") 5 (by decide) (by decide) (by decide)])]
    rw [List.findIdx?_cons, if_pos (by rw [hpe]; exact matchesRoot_of _ _ htl)]
    simp [hkp]
  · -- class 3: HKEY_CURRENT_CONFIG
    simp only [regClassNames, List.getD_cons_zero, List.getD_cons_succ] at hpe
    unfold parse_key_name
    simp only [regClassNames]
    rw [List.findIdx?_cons, if_neg (by
      rw [hpe]
      simp [matchesRoot_false_of_mismatch (strW "HKEY_CURRENT_CONFIG") tail
        (strW "HKEY_LOCAL_MACHINE") 5 (by decide) (by decide) (by decide)])]
    rw [List.findIdx?_cons, if_neg (by
      rw [hpe]
      simp [matchesRoot_false_of_mismatch (strW "HKEY_CURRENT_CONFIG") tail
        (strW "HKEY_USERS") 5 (by decide) (by decide) (by decide)])]
    rw [List.findIdx?_cons, if_neg (by
      rw [hpe]
      simp [matchesRoot_false_of_mismatch (strW "HKEY_CURRENT_CONFIG") tail
        (strW "HKEY_CLASSES_ROOT") 6 (by decide) (by decide) (by decide)])]
    rw [List.findIdx?_cons, if_pos (by rw [hpe]; exact matchesRoot_of _ _ htl)]
    simp [hkp]
  · -- class 4: HKEY_CURRENT_USER
    simp only [regClassNames, List.getD_cons_zero, List.getD_cons_succ] at hpe
    unfold parse_key_name
    simp only [regClassNames]
    rw [List.findIdx?_cons, if_neg (by
      rw [hpe]
      simp [matchesRoot_false_of_mismatch (strW "HKEY_CURRENT_USER") tail
        (strW "HKEY_LOCAL_MACHINE") 5 (by decide) (by decide) (by decide)])]
    rw [List.findIdx?_cons, if_neg (by
      rw [hpe]
      simp [matchesRoot_false_of_mismatch (strW "HKEY_CURRENT_USER") tail
        (strW "HKEY_USERS") 5 (by decide) (by decide) (by decide)])]
    rw [List.findIdx?_cons, if_neg (by
      rw [hpe]
      simp [matchesRoot_false_of_mismatch (strW "HKEY_CURRENT_USER") tail
        (strW "HKEY_CLASSES_ROOT") 6 (by decide) (by decide) (by decide)])]
    rw [List.findIdx?_cons, if_neg (by
      rw [hpe]
      simp [matchesRoot_false_of_mismatch (strW "HKEY_CURRENT_USER") tail
        (strW "HKEY_CURRENT_CONFIG") 13 (by decide) (by decide) (by decide)])]
    rw [List.findIdx?_cons, if_pos (by rw [hpe]; exact matchesRoot_of _ _ htl)]
    simp [hkp]
  · -- class 5: HKEY_DYN_DATA
    simp only [regClassNames, List.getD_cons_zero, List.getD_cons_succ] at hpe
    unfold parse_key_name
    simp only [regClassNames]
    rw [List.findIdx?_cons, if_neg (by
      rw [hpe]
      simp [matchesRoot_false_of_mismatch (strW "HKEY_DYN_DATA") tail
        (strW "HKEY_LOCAL_MACHINE") 5 (by decide) (by decide) (by decide)])]
    rw [List.findIdx?_cons, if_neg (by
      rw [hpe]
      simp [matchesRoot_false_of_mismatch (strW "HKEY_DYN_DATA") tail
        (strW "HKEY_USERS") 5 (by decide) (by decide) (by decide)])]
    rw [List.findIdx?_cons, if_neg (by
      rw [hpe]
      simp [matchesRoot_false_of_mismatch (strW "HKEY_DYN_DATA") tail
        (strW "HKEY_CLASSES_ROOT") 5 (by decide) (by decide) (by decide)])]
    rw [List.findIdx?_cons, if_neg (by
      rw [hpe]
      simp [matchesRoot_false_of_mismatch (strW "HKEY_DYN_DATA") tail
        (strW "HKEY_CURRENT_CONFIG") 5 (by decide) (by decide) (by decide)])]
    rw [List.findIdx?_cons, if_neg (by
      rw [hpe]
      simp [matchesRoot_false_of_mismatch (strW "HKEY_DYN_DATA") tail
        (strW "HKEY_CURRENT_USER") 5 (by decide) (by decide) (by decide)])]
    rw [List.findIdx?_cons, if_pos (by rw [hpe]; exact matchesRoot_of _ _ htl)]
    simp [hkp]

end Regproc

namespace Regproc

/-! ## Machine steps on exported lines -/

/-- A context sitting in LINE_START with no pending data. -/
def lineCtx (u : Bool) (tw : WStr) (rv : RegVersion) (hk : Option (Nat × List WStr))
    (vn : Option WStr) (pt dt : Nat) (bs : Bool) (s : Store) (o : List RegOp) : PCtx :=
  ⟨u, tw, some rv, hk, vn, pt, dt, [], bs, .LINE_START, s, o⟩

theorem chain_stop {p : PCtx} (h : needsLine p.state = true) (fuel : Nat) (pos : WStr) :
    chain (fuel + 1) p pos = some p := by
  unfold chain
  rw [if_pos h]

theorem chain_step {p : PCtx} (h : needsLine p.state = false) {q : PCtx} {pos pos2 : WStr}
    (hs : chainStep p pos = some (q, pos2)) (fuel : Nat) :
    chain (fuel + 1) p pos = chain fuel q pos2 := by
  conv_lhs => rw [chain.eq_def]
  dsimp only
  rw [if_neg (by simp [h]), hs]

theorem beforeLast_append (c : Nat) : ∀ w : WStr, beforeLast c (w ++ [c]) = some w
  | [] => by simp [beforeLast]
  | a :: w' => by
    have := beforeLast_append c w'
    simp [beforeLast, this]

theorem pathText_head {cls : Nat} (hcls : cls < 6) (segs : List WStr) :
    ∃ rest, pathText cls segs = 72 :: rest := by
  have hr : ∃ rt, regClassNames.getD cls [] = 72 :: rt := by
    interval_cases cls
    · exact ⟨strW "KEY_LOCAL_MACHINE", by decide⟩
    · exact ⟨strW "KEY_USERS", by decide⟩
    · exact ⟨strW "KEY_CLASSES_ROOT", by decide⟩
    · exact ⟨strW "KEY_CURRENT_CONFIG", by decide⟩
    · exact ⟨strW "KEY_CURRENT_USER", by decide⟩
    · exact ⟨strW "KEY_DYN_DATA", by decide⟩
  obtain ⟨rt, hrt⟩ := hr
  cases segs with
  | nil => exact ⟨rt, hrt⟩
  | cons s0 r =>
    refine ⟨rt ++ 92 :: joinSegs (s0 :: r), ?_⟩
    show regClassNames.getD cls [] ++ [92] ++ joinSegs (s0 :: r)
      = 72 :: (rt ++ 92 :: joinSegs (s0 :: r))
    rw [hrt]
    simp

theorem key_name_state_open (p : PCtx) {pos content : WStr}
    (hhb : headIsBlank pos = false)
    (hbl : beforeLast 93 pos = some content)
    (hc : content.head? ≠ some 45) (hcne : content ≠ []) :
    key_name_state p pos
      = ({ (open_key p content).1 with state := PState.LINE_START }, content) := by
  obtain ⟨c, crest, hcc⟩ := List.exists_cons_of_ne_nil hcne
  subst hcc
  simp only [List.head?_cons, ne_eq, Option.some.injEq] at hc
  unfold key_name_state
  simp only [hhb, Bool.false_eq_true, if_false]
  rw [hbl]
  dsimp only
  split
  · rename_i heq
    rw [List.cons.injEq] at heq
    exact absurd heq.1 hc
  · cases ho : open_key p (c :: crest)
    simp

theorem open_key_pathText {uni : Bool} {cls : Nat} (hcls : cls < 6) {segs : List WStr}
    (hsegs : segs.all (wfName uni) = true) (p : PCtx) :
    open_key p (pathText cls segs)
      = ({ p with
           hkey := some (cls, segs),
           store := storePut p.store cls (treeCreate (storeGet p.store cls) segs),
           ops := p.ops ++ [RegOp.createKey cls segs] }, true) := by
  unfold open_key
  rw [parse_key_name_pathText hcls hsegs]
  dsimp only
  rw [segsOf_segsSub hsegs]

theorem feed_line_start {p : PCtx} (hst : p.state = PState.LINE_START) (l : WStr) :
    feed p l = (chain 16 (line_start_state p l).1 (line_start_state p l).2).map
      (fun q => (q, true)) := by
  unfold feed
  rw [hst]

theorem feed_empty (u : Bool) (tw : WStr) (rv : RegVersion) (hk : Option (Nat × List WStr))
    (vn : Option WStr) (pt dt : Nat) (bs : Bool) (s : Store) (o : List RegOp) :
    feed (lineCtx u tw rv hk vn pt dt bs s o) []
      = some (lineCtx u tw rv hk vn pt dt bs s o, true) := rfl

theorem feed_key {uni u : Bool} (tw : WStr) (rv : RegVersion) (hk : Option (Nat × List WStr))
    (vn : Option WStr) (pt dt : Nat) (bs : Bool) (s : Store) (o : List RegOp)
    {cls : Nat} (hcls : cls < 6) {segs : List WStr}
    (hsegs : segs.all (wfName uni) = true) :
    feed (lineCtx u tw rv hk vn pt dt bs s o) (91 :: (pathText cls segs ++ [93]))
      = some (lineCtx u tw rv (some (cls, segs)) vn pt dt bs
          (storePut s cls (treeCreate (storeGet s cls) segs))
          (o ++ [RegOp.createKey cls segs]), true) := by
  obtain ⟨rest, hp⟩ := pathText_head hcls segs
  have hstep : chainStep
        { lineCtx u tw rv hk vn pt dt bs s o with state := PState.KEY_NAME }
        (pathText cls segs ++ [93])
      = some (lineCtx u tw rv (some (cls, segs)) vn pt dt bs
          (storePut s cls (treeCreate (storeGet s cls) segs))
          (o ++ [RegOp.createKey cls segs]), pathText cls segs) := by
    show some (key_name_state _ _) = _
    rw [key_name_state_open _ (by rw [hp, List.cons_append]; rfl)
      (beforeLast_append 93 _) (by rw [hp]; simp) (by rw [hp]; simp)]
    rw [open_key_pathText hcls hsegs]
    rfl
  rw [feed_line_start rfl _]
  rw [show line_start_state (lineCtx u tw rv hk vn pt dt bs s o)
        (91 :: (pathText cls segs ++ [93]))
      = ({ lineCtx u tw rv hk vn pt dt bs s o with state := PState.KEY_NAME },
         pathText cls segs ++ [93]) by
    unfold line_start_state
    rw [dropWhile_head_neg (by decide)]]
  rw [show (16 : Nat) = 15 + 1 from rfl, chain_step (by rfl) hstep 15]
  rw [show (15 : Nat) = 14 + 1 from rfl, chain_stop (by rfl) 14]
  rfl

end Regproc

namespace Regproc

/-! ## Per-state steps on rendered value lines -/

/-- The value-name field after the name part of a value line is parsed. -/
def vnOf (n : WStr) : Option WStr := if n = [] then none else some n

theorem takeWhile_all {p : Nat → Bool} {l : WStr} (h : l.all p = true) :
    l.takeWhile p = l := by
  have := takeWhile_append_all (r := []) h
  simpa using this

theorem data_start_step (p : PCtx) {X : WStr} {c : Nat} {crest : WStr}
    (hX : X = c :: crest) (hcb : isBlank c = false) (hc45 : c ≠ 45)
    {e : Nat} (he : X.getLast? = some e) (heb : isBlank e = false) :
    data_start_state p (61 :: X) = ({ p with state := PState.DATA_TYPE }, X) := by
  unfold data_start_state
  rw [show (61 :: X).dropWhile isBlank = 61 :: X from dropWhile_head_neg (by decide)]
  dsimp only
  subst hX
  rw [dropWhile_head_neg hcb, trimTrailing_id he heb]
  split
  · rename_i heq
    rw [List.cons.injEq] at heq
    exact absurd heq.1 hc45
  · rfl

theorem parse_data_type_sz (Y : WStr) :
    parse_data_type (34 :: Y) = some ⟨REG_SZ, REG_SZ, Y⟩ := rfl

theorem parse_data_type_dword (Y : WStr) :
    parse_data_type (strW "dword:" ++ Y) = some ⟨REG_DWORD, REG_DWORD, Y⟩ := rfl

theorem parse_data_type_hexbin (Y : WStr) :
    parse_data_type (strW "hex:" ++ Y) = some ⟨REG_BINARY, REG_BINARY, Y⟩ := rfl

theorem toLowerC_ne_x {e : Nat} (h : isXDigit e = true) : (toLowerC e == 120) = false := by
  simp only [isXDigit, Bool.or_eq_true, Bool.and_eq_true, decide_eq_true_eq] at h
  simp only [toLowerC, beq_eq_false_iff_ne, ne_eq]
  split <;> omega

theorem parse_data_type_hexN {ty : Nat} (hty : ty < 4294967296) (Y : WStr) :
    parse_data_type (strW "hex(" ++ (toHex ty ++ (41 :: 58 :: Y)))
      = some ⟨REG_BINARY, ty, Y⟩ := by
  obtain ⟨d0, ds, hds⟩ := List.exists_cons_of_ne_nil (toHex_ne_nil ty)
  have hall := toHex_xdigit ty
  have hw : wcstoul16 (toHex ty ++ (41 :: 58 :: Y))
      = ⟨hexListVal (toHex ty), (toHex ty).length, false⟩ :=
    wcstoul16_digits hall (toHex_ne_nil ty)
      (hasHexPrefix_xdigit_append hall (toHex_ne_nil ty) rfl) (by rfl)
      (by rw [hexListVal_toHex]; omega)
  unfold parse_data_type
  rw [show strW "hex(" ++ (toHex ty ++ (41 :: 58 :: Y))
      = 104 :: 101 :: 120 :: 40 :: (toHex ty ++ (41 :: 58 :: Y)) by simp [strW]]
  rw [if_neg (by simp [List.take]), if_neg ?h4, if_neg ?h6, if_pos ?hp]
  case h4 =>
    simp only [List.take]
    intro hcontra
    rw [show strW "hex:" = [104, 101, 120, 58] from rfl] at hcontra
    simp at hcontra
  case h6 =>
    simp only [List.take]
    intro hcontra
    rw [show strW "dword:" = [100, 119, 111, 114, 100, 58] from rfl] at hcontra
    simp at hcontra
  case hp => simp [List.take, strW]
  simp only [List.drop]
  rw [hds, List.cons_append]
  dsimp only
  rw [if_neg ?hx]
  case hx =>
    cases ds with
    | nil => simp [toLowerC]
    | cons e es =>
      simp only [List.cons_append]
      simp only [List.all_cons, Bool.and_eq_true] at hall
      rw [hds] at hall
      simp only [List.all_cons, Bool.and_eq_true] at hall
      simp [toLowerC_ne_x hall.2.1]
  rw [← List.cons_append, ← hds, hw]
  dsimp only
  rw [List.drop_left]
  dsimp only
  rw [if_neg (by simp), hexListVal_toHex]

end Regproc

namespace Regproc

theorem string_data_step (p : PCtx) (str : WStr) :
    string_data_state p (REGPROC_escape_string str ++ 34 :: [])
      = ({ p with data := wideBytes (cstr str ++ [0]), state := PState.SET_VALUE }, []) := by
  unfold string_data_state
  rw [unescape_escape]
  rfl

theorem convert_hex_to_dword_toHex8 {d : Nat} (hd : d < 4294967296) :
    convert_hex_to_dword (toHex8 d) = some d := by
  have hall := toHex8_xdigit d
  have h8 : (toHex8 d).length = 8 := toHex8_length hd
  obtain ⟨c0, cs, hc⟩ := List.exists_cons_of_ne_nil
    (l := toHex8 d) (by intro h; rw [h] at h8; simp at h8)
  have hb : isBlank c0 = false := by
    rw [hc] at hall
    simp only [List.all_cons, Bool.and_eq_true] at hall
    exact (xdigit_props hall.1).2.1
  unfold convert_hex_to_dword
  rw [show (toHex8 d).dropWhile isBlank = toHex8 d by rw [hc]; exact dropWhile_head_neg hb]
  rw [hc]
  dsimp only
  rw [← hc, takeWhile_all hall, h8]
  rw [if_neg (by omega)]
  rw [show (toHex8 d).drop 8 = [] by rw [← h8]; simp]
  try dsimp only
  rw [hexListVal_toHex8]
  rfl

theorem dword_data_step (p : PCtx) {d : Nat} (hd : d < 4294967296) :
    dword_data_state p (toHex8 d)
      = ({ p with data := dwordBytes d, state := PState.SET_VALUE }, toHex8 d) := by
  unfold dword_data_state
  rw [convert_hex_to_dword_toHex8 hd]

theorem set_value_step {p : PCtx} {cls : Nat} {segs : List WStr}
    (hk : p.hkey = some (cls, segs)) (hrv : p.reg_version ≠ some RegVersion.v31)
    (pos : WStr) :
    set_value_state p pos
      = ({ p with
           store := storePut p.store cls (treeSet (storeGet p.store cls) segs
             ⟨p.value_name.getD [], p.data_type, p.data⟩),
           ops := p.ops ++ [RegOp.setValue cls segs
             ⟨p.value_name.getD [], p.data_type, p.data⟩],
           data := [],
           state := PState.LINE_START }, pos) := by
  unfold set_value_state
  rw [hk]
  rw [if_neg hrv]

/-- The data transformation of `prepare_hex_string_data`. -/
def prepData (u : Bool) (dt : Nat) (d : Bytes) : Bytes :=
  if dt = REG_EXPAND_SZ || dt = REG_MULTI_SZ then
    let d1 := if (d.getLast?).getD 0 ≠ 0 then d ++ [0] else d
    if u then d1 else wideBytes (acpToWide d1)
  else d

theorem prepare_eq (p : PCtx) : prepare_hex_string_data p
    = { p with data := prepData p.is_unicode p.data_type p.data } := by
  unfold prepare_hex_string_data prepData
  try dsimp only
  by_cases h1 : (p.data_type = REG_EXPAND_SZ || p.data_type = REG_MULTI_SZ) = true
  · rw [if_pos h1, if_pos h1]
    by_cases h2 : p.is_unicode = true
    · rw [if_pos h2, if_pos h2]
    · rw [if_neg h2, if_neg h2]
  · rw [if_neg h1, if_neg h1]

theorem hex_data_step_end {p : PCtx} {g : Bytes} (hne : g ≠ [])
    (hall : g.all (fun b => b < 256) = true) :
    hex_data_state p (hexJoin g)
      = ({ prepare_hex_string_data { p with data := p.data ++ g, backslash := false }
           with state := PState.SET_VALUE }, hexJoin g) := by
  unfold hex_data_state
  rw [convert_chunk_end hne hall]
  rfl

theorem hex_data_step_bs {p : PCtx} {g : Bytes} (hne : g ≠ [])
    (hall : g.all (fun b => b < 256) = true) :
    hex_data_state p (hexJoin g ++ [44, 92])
      = ({ p with
           data := p.data ++ g,
           backslash := true,
           state := PState.EOL_BACKSLASH }, []) := by
  unfold hex_data_state
  rw [convert_chunk_bs hne hall]
  rfl

theorem eol_backslash_step (p : PCtx) :
    eol_backslash_state p [] = ({ p with state := PState.HEX_MULTILINE }, []) := rfl

theorem hex_multiline_step (p : PCtx) {col : Nat} {bs : Bytes} (hne : bs ≠ []) :
    hex_multiline_state p (32 :: 32 :: hexFirst col bs)
      = ({ p with state := PState.HEX_DATA }, hexFirst col bs) := by
  obtain ⟨c, hc, hx⟩ := @hexFirst_head col _ hne
  obtain ⟨c0, cs, hcc⟩ := List.exists_cons_of_ne_nil
    (l := hexFirst col bs) (by intro h; rw [h] at hc; cases hc)
  rw [hcc] at hc
  simp only [List.head?_cons, Option.some.injEq] at hc
  subst hc
  have hprops := xdigit_props hx
  unfold hex_multiline_state
  rw [show (32 :: 32 :: hexFirst col bs).dropWhile isBlank = (hexFirst col bs).dropWhile isBlank
      by simp [List.dropWhile, isBlank]]
  rw [hcc, dropWhile_head_neg hprops.2.1]
  dsimp only
  rw [if_neg (by omega), if_pos hx]

end Regproc

namespace Regproc

/-! ## Running chains across lines -/

/-- Finish the in-line chain, then continue the main loop on `ls`. -/
def chainRun (fuel : Nat) (p : PCtx) (pos : WStr) (ls : List WStr) : Option PCtx :=
  match chain fuel p pos with
  | none => none
  | some q => runLines q ls

theorem runLines_cons_chain {p : PCtx} {l : WStr} {fuel : Nat} {p2 : PCtx} {pos : WStr}
    (h : feed p l = (chain fuel p2 pos).map (fun q => (q, true))) (ls : List WStr) :
    runLines p (l :: ls) = chainRun fuel p2 pos ls := by
  unfold runLines chainRun
  rw [h]
  cases hc : chain fuel p2 pos <;> rfl

theorem chainRun_step {p : PCtx} (h : needsLine p.state = false) {q : PCtx} {pos pos2 : WStr}
    (hs : chainStep p pos = some (q, pos2)) (fuel : Nat) (ls : List WStr) :
    chainRun (fuel + 1) p pos ls = chainRun fuel q pos2 ls := by
  unfold chainRun
  rw [chain_step h hs]

theorem chainRun_stop {p : PCtx} (h : needsLine p.state = true) (fuel : Nat) (pos : WStr)
    (ls : List WStr) : chainRun (fuel + 1) p pos ls = runLines p ls := by
  unfold chainRun
  rw [chain_stop h]

theorem feed_hex_multiline {p : PCtx} (hst : p.state = PState.HEX_MULTILINE) (l : WStr) :
    feed p l = (chain 16 (hex_multiline_state p l).1 (hex_multiline_state p l).2).map
      (fun q => (q, true)) := by
  unfold feed
  rw [hst]

theorem vnOf_getD (n : WStr) : (vnOf n).getD [] = n := by
  unfold vnOf
  split
  · rename_i h; rw [h]; rfl
  · rfl

theorem last_xdigit {l : WStr} (hne : l ≠ []) (hall : l.all isXDigit = true) :
    ∃ e, l.getLast? = some e ∧ isXDigit e = true := by
  rw [← List.head?_reverse]
  exact head_xdigit (by simpa) (by rwa [List.all_reverse])

theorem eq_dropLast_concat {l : List Nat} {a : Nat} (h : l.getLast? = some a) :
    l = l.dropLast ++ [a] := by
  have hne : l ≠ [] := by intro h2; rw [h2] at h; cases h
  have h2 := List.dropLast_append_getLast hne
  have h3 : l.getLast hne = a := by
    have h4 := List.getLast?_eq_getLast l hne
    rw [h4] at h
    exact Option.some.inj h
  rw [← h3]
  exact h2.symm

/-- The name part of a value line: from line start to DATA_START, with the
unescaped name recorded and the position at the `=`. -/
theorem feed_value_name {n : WStr} (hn : n.all (fun c => c ≠ 0) = true)
    (u : Bool) (tw : WStr) (rv : RegVersion) (hk : Option (Nat × List WStr))
    (vn0 : Option WStr) (pt dt : Nat) (bs : Bool) (s : Store) (o : List RegOp) (X : WStr) :
    feed (lineCtx u tw rv hk vn0 pt dt bs s o) (export_value_name_text n ++ X)
      = (chain 15 { lineCtx u tw rv hk (vnOf n) pt dt bs s o with state := PState.DATA_START }
          (61 :: X)).map (fun q => (q, true)) := by
  rw [feed_line_start rfl]
  by_cases hnil : n = []
  · subst hnil
    rw [show line_start_state (lineCtx u tw rv hk vn0 pt dt bs s o)
          (export_value_name_text [] ++ X)
        = ({ lineCtx u tw rv hk vn0 pt dt bs s o with state := PState.DEFAULT_VALUE_NAME },
           64 :: 61 :: X) by
      unfold line_start_state
      rw [show (export_value_name_text [] ++ X : WStr) = 64 :: 61 :: X by
        simp [export_value_name_text]]
      rw [dropWhile_head_neg (by decide)]]
    rw [show (16 : Nat) = 15 + 1 from rfl,
      chain_step (by rfl)
        (show chainStep { lineCtx u tw rv hk vn0 pt dt bs s o
            with state := PState.DEFAULT_VALUE_NAME } (64 :: 61 :: X)
          = some ({ lineCtx u tw rv hk (vnOf []) pt dt bs s o
              with state := PState.DATA_START }, 61 :: X) from rfl) 15]
  · have hstep : chainStep { lineCtx u tw rv hk vn0 pt dt bs s o
          with state := PState.QUOTED_VALUE_NAME }
          (REGPROC_escape_string n ++ 34 :: 61 :: X)
        = some ({ lineCtx u tw rv hk (vnOf n) pt dt bs s o
            with state := PState.DATA_START }, 61 :: X) := by
      show some (quoted_value_name_state _ _) = _
      unfold quoted_value_name_state
      rw [unescape_escape]
      dsimp only
      rw [cstr_of_no_nul hn, show vnOf n = some n by unfold vnOf; rw [if_neg hnil]]
      rfl
    rw [show line_start_state (lineCtx u tw rv hk vn0 pt dt bs s o)
          (export_value_name_text n ++ X)
        = ({ lineCtx u tw rv hk vn0 pt dt bs s o with state := PState.QUOTED_VALUE_NAME },
           REGPROC_escape_string n ++ 34 :: 61 :: X) by
      unfold line_start_state export_value_name_text
      rw [if_pos hnil]
      rw [show ([34] ++ REGPROC_escape_string n ++ [34, 61]) ++ X
          = 34 :: (REGPROC_escape_string n ++ 34 :: 61 :: X) by simp]
      rw [dropWhile_head_neg (by decide)]]
    rw [show (16 : Nat) = 15 + 1 from rfl, chain_step (by rfl) hstep 15]

end Regproc

namespace Regproc

theorem chain_hex_run_aux : ∀ (N : Nat) (d : Bytes), d.length ≤ N → d ≠ [] →
    d.all (fun b => b < 256) = true →
    ∀ (col : Nat) (acc : Bytes) (uni : Bool) (tw : WStr) (rv : RegVersion),
      rv ≠ RegVersion.v31 →
    ∀ (cls : Nat) (segs : List WStr) (vn0 : Option WStr) (dt : Nat) (bs' : Bool)
      (s : Store) (o : List RegOp) (f : Nat) (ls : List WStr),
    chainRun (f + 3)
        (⟨uni, tw, some rv, some (cls, segs), vn0, REG_BINARY, dt, acc, bs',
          PState.HEX_DATA, s, o⟩ : PCtx)
        (hexFirst col d) (hexConts col d ++ ls)
      = runLines (lineCtx uni tw rv (some (cls, segs)) vn0 REG_BINARY dt false
          (storePut s cls (treeSet (storeGet s cls) segs
            ⟨vn0.getD [], dt, prepData uni dt (acc ++ d)⟩))
          (o ++ [RegOp.setValue cls segs
            ⟨vn0.getD [], dt, prepData uni dt (acc ++ d)⟩])) ls := by
  intro N
  induction N with
  | zero =>
    intro d hlen hne
    cases d with
    | nil => exact absurd rfl hne
    | cons b r => simp at hlen
  | succ N ih =>
    intro d hlen hne hall col acc uni tw rv hrv cls segs vn0 dt bs' s o f ls
    rw [hexFirst_split col d, hexConts_split col d]
    have hfst := @hexSplit_fst_ne col _ hne
    obtain ⟨hall1, hall2⟩ := @hexSplit_all _ col _ hall
    have happ := hexSplit_append col d
    by_cases hsnd : (hexSplit col d).2 = []
    · rw [if_pos hsnd, if_pos hsnd, List.append_nil]
      have hfd : (hexSplit col d).1 = d := by
        conv_rhs => rw [← happ]
        rw [hsnd, List.append_nil]
      rw [hfd, List.nil_append]
      have hs1 : chainStep
          (⟨uni, tw, some rv, some (cls, segs), vn0, REG_BINARY, dt, acc, bs',
            PState.HEX_DATA, s, o⟩ : PCtx) (hexJoin d)
          = some ((⟨uni, tw, some rv, some (cls, segs), vn0, REG_BINARY, dt,
              prepData uni dt (acc ++ d), false, PState.SET_VALUE, s, o⟩ : PCtx),
            hexJoin d) := by
        show some (hex_data_state _ _) = _
        rw [hex_data_step_end hne hall, prepare_eq]
        try rfl
      rw [show (f + 3) = (f + 2) + 1 from rfl, chainRun_step (by rfl) hs1 (f + 2) ls]
      have hs2 : chainStep
          (⟨uni, tw, some rv, some (cls, segs), vn0, REG_BINARY, dt,
            prepData uni dt (acc ++ d), false, PState.SET_VALUE, s, o⟩ : PCtx) (hexJoin d)
          = some (lineCtx uni tw rv (some (cls, segs)) vn0 REG_BINARY dt false
              (storePut s cls (treeSet (storeGet s cls) segs
                ⟨vn0.getD [], dt, prepData uni dt (acc ++ d)⟩))
              (o ++ [RegOp.setValue cls segs
                ⟨vn0.getD [], dt, prepData uni dt (acc ++ d)⟩]), hexJoin d) := by
        show some (set_value_state _ _) = _
        rw [set_value_step rfl (fun h => hrv (Option.some.inj h)) _]
        try rfl
      rw [show (f + 2) = (f + 1) + 1 from rfl, chainRun_step (by rfl) hs2 (f + 1) ls]
      rw [chainRun_stop (by rfl) f _ ls]
    · rw [if_neg hsnd, if_neg hsnd]
      have hs1 : chainStep
          (⟨uni, tw, some rv, some (cls, segs), vn0, REG_BINARY, dt, acc, bs',
            PState.HEX_DATA, s, o⟩ : PCtx)
          (hexJoin (hexSplit col d).1 ++ [44, 92])
          = some ((⟨uni, tw, some rv, some (cls, segs), vn0, REG_BINARY, dt,
              acc ++ (hexSplit col d).1, true, PState.EOL_BACKSLASH, s, o⟩ : PCtx), []) := by
        show some (hex_data_state _ _) = _
        rw [hex_data_step_bs hfst hall1]
      rw [show (f + 3) = (f + 2) + 1 from rfl, chainRun_step (by rfl) hs1 (f + 2)]
      have hs2 : chainStep
          (⟨uni, tw, some rv, some (cls, segs), vn0, REG_BINARY, dt,
            acc ++ (hexSplit col d).1, true, PState.EOL_BACKSLASH, s, o⟩ : PCtx) []
          = some ((⟨uni, tw, some rv, some (cls, segs), vn0, REG_BINARY, dt,
              acc ++ (hexSplit col d).1, true, PState.HEX_MULTILINE, s, o⟩ : PCtx), []) := by
        show some (eol_backslash_state _ _) = _
        rw [eol_backslash_step]
      rw [show (f + 2) = (f + 1) + 1 from rfl, chainRun_step (by rfl) hs2 (f + 1)]
      rw [chainRun_stop (by rfl) f]
      rw [List.cons_append]
      rw [runLines_cons_chain ?hf (hexConts 2 (hexSplit col d).2 ++ ls)]
      case hf =>
        rw [feed_hex_multiline rfl, hex_multiline_step _ hsnd]
      rw [show (16 : Nat) = 13 + 3 from rfl]
      rw [ih (hexSplit col d).2
        (by have := @hexSplit_snd_lt col _ hne; omega) hsnd hall2
        2 (acc ++ (hexSplit col d).1) uni tw rv hrv cls segs vn0 dt true s o 13 ls]
      rw [List.append_assoc, happ]

end Regproc

namespace Regproc

/-! ## The full value line run -/

/-- The parse_type field left by a value line of the given type. -/
def postPT (ty : Nat) : Nat :=
  if ty = REG_SZ then REG_SZ else if ty = REG_DWORD then REG_DWORD else REG_BINARY

/-- The backslash flag left by a value line of the given type. -/
def postBS (ty : Nat) (bs : Bool) : Bool :=
  if ty = REG_SZ ∨ ty = REG_DWORD then bs else false

theorem data_last_zero : ∀ (d : Bytes), d.length % 2 = 0 →
    d.all (fun b => b < 256) = true → (bytePairs d).getLast? = some 0 →
    d.getLast? = some 0
  | [], _, _, hlast => by cases hlast
  | [b], hmod, _, _ => by simp at hmod
  | b0 :: b1 :: rest, hmod, hall, hlast => by
    simp only [List.length_cons] at hmod
    simp only [List.all_cons, Bool.and_eq_true, decide_eq_true_eq] at hall
    cases hrest : rest with
    | nil =>
      subst hrest
      simp only [bytePairs, List.getLast?_singleton, Option.some.injEq] at hlast
      have hb1 : b1 = 0 := by omega
      simp [hb1]
    | cons c cs =>
      subst hrest
      have hmod2 : (c :: cs).length % 2 = 0 := by simp only [List.length_cons] at *; omega
      have hcs : cs ≠ [] := by
        intro h
        subst h
        simp at hmod2
      obtain ⟨c2, cs2, hcc⟩ := List.exists_cons_of_ne_nil hcs
      subst hcc
      have hlast2 : (bytePairs (c :: c2 :: cs2)).getLast? = some 0 := by
        simp only [bytePairs] at hlast ⊢
        rwa [List.getLast?_cons_cons] at hlast
      have := data_last_zero (c :: c2 :: cs2) hmod2
        (by simp_all) hlast2
      rw [List.getLast?_cons_cons, List.getLast?_cons_cons]
      rwa [List.getLast?_cons_cons] at this

theorem dword_roundtrip {a b c e : Nat} (ha : a < 256) (hb : b < 256) (hc : c < 256)
    (he : e < 256) :
    dwordBytes (dwordOfBytes [a, b, c, e]) = [a, b, c, e]
      ∧ dwordOfBytes [a, b, c, e] < 4294967296 := by
  unfold dwordBytes dwordOfBytes
  simp only [List.getD_cons_zero, List.getD_cons_succ]
  constructor
  · simp only [List.cons.injEq, and_true]
    refine ⟨?_, ?_, ?_, ?_⟩ <;> omega
  · omega

theorem hexJoin_last {g : Bytes} (h : g ≠ []) :
    ∃ e, (hexJoin g).getLast? = some e ∧ isXDigit e = true := by
  match g, h with
  | [b], _ =>
    show ∃ e, (toHex2 b).getLast? = some e ∧ isXDigit e = true
    exact last_xdigit (toHex2_ne_nil b) (toHex2_xdigit b)
  | b :: b2 :: rest, _ =>
    rw [hexJoin_cons (by simp)]
    obtain ⟨e, he, hx⟩ := hexJoin_last (g := b2 :: rest) (by simp)
    refine ⟨e, ?_, hx⟩
    rw [List.getLast?_append, he]
    rfl

theorem hexFirst_last {col : Nat} {bs : Bytes} (h : bs ≠ []) :
    ∃ e, (hexFirst col bs).getLast? = some e ∧ isBlank e = false := by
  rw [hexFirst_split]
  split
  · rw [List.append_nil]
    obtain ⟨e, he, hx⟩ := hexJoin_last (hexSplit_fst_ne h)
    exact ⟨e, he, (xdigit_props hx).2.1⟩
  · refine ⟨92, ?_, by decide⟩
    rw [show (hexJoin (hexSplit col bs).1 ++ [44, 92] : WStr)
        = (hexJoin (hexSplit col bs).1 ++ [44]) ++ [92] by simp]
    exact List.getLast?_concat _

theorem hexPrefixText_cons (ty : Nat) : ∃ r, hexPrefixText ty = 104 :: r := by
  unfold hexPrefixText
  split
  · exact ⟨strW "ex:", by decide⟩
  · refine ⟨strW "ex(" ++ toHex ty ++ strW "):", ?_⟩
    simp [strW]

end Regproc

namespace Regproc

theorem bytePairs_ne {d : Bytes} (h : 2 ≤ d.length) : bytePairs d ≠ [] := by
  match d, h with
  | b0 :: b1 :: rest, _ => simp [bytePairs]

theorem wfValue_hex_pieces {uni : Bool} {v : RegValue} (hwf : wfValue uni v = true)
    (hsz : v.ty ≠ REG_SZ) (hdw : v.ty ≠ REG_DWORD) :
    ((if !uni && (v.ty = REG_EXPAND_SZ || v.ty = REG_MULTI_SZ) then
        acpFromWide (bytePairs v.data) else v.data) ≠ []
     ∧ (if !uni && (v.ty = REG_EXPAND_SZ || v.ty = REG_MULTI_SZ) then
        acpFromWide (bytePairs v.data) else v.data).all (fun b => b < 256) = true
     ∧ prepData uni v.ty (if !uni && (v.ty = REG_EXPAND_SZ || v.ty = REG_MULTI_SZ) then
        acpFromWide (bytePairs v.data) else v.data) = v.data)
    ∧ v.ty < 4294967296 := by
  unfold wfValue at hwf
  rw [if_neg hdw, if_neg hsz] at hwf
  by_cases hem : v.ty = REG_EXPAND_SZ ∨ v.ty = REG_MULTI_SZ
  · rw [if_pos (by rcases hem with h | h <;> simp [h])] at hwf
    simp only [Bool.and_eq_true, isWideData, decide_eq_true_eq] at hwf
    obtain ⟨-, ⟨⟨⟨hmod, hall⟩, hlen⟩, hlast⟩, hchars⟩ := hwf
    have hdlast : v.data.getLast? = some 0 := data_last_zero v.data hmod hall hlast
    have hcond2 : (v.ty = REG_EXPAND_SZ || v.ty = REG_MULTI_SZ) = true := by
      rcases hem with h | h <;> simp [h]
    have hty32 : v.ty < 4294967296 := by
      rcases hem with h | h <;> rw [h] <;> decide
    refine ⟨?_, hty32⟩
    cases uni with
    | true =>
      rw [show (!true && (v.ty = REG_EXPAND_SZ || v.ty = REG_MULTI_SZ)) = false by simp]
      simp only [Bool.false_eq_true, if_false]
      refine ⟨by intro h; rw [h] at hlen; simp at hlen, hall, ?_⟩
      unfold prepData
      rw [if_pos hcond2,
        if_neg (show ¬((v.data.getLast?).getD 0 ≠ 0) by rw [hdlast]; simp),
        if_pos (show true = true from rfl)]
    | false =>
      rw [show (!false && (v.ty = REG_EXPAND_SZ || v.ty = REG_MULTI_SZ)) = true by
        simp [hcond2]]
      simp only [if_true]
      have hbne : bytePairs v.data ≠ [] := bytePairs_ne hlen
      refine ⟨by simpa [acpFromWide] using hbne, acpFromWide_all_lt _, ?_⟩
      unfold prepData
      rw [if_pos hcond2]
      have hlz : (acpFromWide (bytePairs v.data)).getLast? = some 0 := by
        unfold acpFromWide
        rw [List.getLast?_map, hlast]
        rfl
      rw [if_neg (show ¬(((acpFromWide (bytePairs v.data)).getLast?).getD 0 ≠ 0) by
            rw [hlz]; simp),
        if_neg (show ¬(false = true) by simp)]
      show wideBytes (acpToWide (acpFromWide (bytePairs v.data))) = v.data
      rw [show acpToWide (acpFromWide (bytePairs v.data)) = acpFromWide (bytePairs v.data)
          from rfl]
      rw [acpFromWide_id ?hc]
      case hc =>
        have := hchars
        unfold charsOk at this
        simpa using this
      exact wideBytes_bytePairs v.data hmod hall
  · have hcond2 : (v.ty = REG_EXPAND_SZ || v.ty = REG_MULTI_SZ) = false := by
      simp only [Bool.or_eq_false_iff, decide_eq_false_iff_not]
      exact ⟨fun h => hem (Or.inl h), fun h => hem (Or.inr h)⟩
    rw [if_neg (by simp [hcond2])] at hwf
    simp only [Bool.and_eq_true, decide_eq_true_eq] at hwf
    obtain ⟨-, ⟨hty32, hne⟩, hall⟩ := hwf
    rw [show (!uni && (v.ty = REG_EXPAND_SZ || v.ty = REG_MULTI_SZ)) = false by
      simp [hcond2]]
    simp only [Bool.false_eq_true, if_false]
    refine ⟨⟨hne, hall, ?_⟩, hty32⟩
    unfold prepData
    rw [if_neg (by simp [hcond2])]

end Regproc

namespace Regproc

/-! ## Full value lines through the machine -/

theorem exportStrChar_eq_escapeChar {c : Nat} (h : c ≠ 0) :
    exportStrChar c = escapeChar c := by
  by_cases h10 : c = 10
  · subst h10; rfl
  by_cases h13 : c = 13
  · subst h13; rfl
  by_cases h92 : c = 92
  · subst h92; rfl
  by_cases h34 : c = 34
  · subst h34; rfl
  unfold exportStrChar escapeChar
  rw [if_neg h10, if_neg h13, if_neg (show ¬((c = 92 || c = 34) = true) by simp [h92, h34]),
    if_neg h13, if_neg h10, if_neg h92, if_neg h34, if_neg h]

theorem export_string_eq_escape : ∀ {s : WStr}, s.all (fun c => c ≠ 0) = true →
    REGPROC_export_string s = REGPROC_escape_string s := by
  intro s
  induction s with
  | nil => intro _; rfl
  | cons c rest ih =>
    intro h
    simp only [List.all_cons, Bool.and_eq_true] at h
    show exportStrChar c ++ REGPROC_export_string rest
      = escapeChar c ++ REGPROC_escape_string rest
    rw [exportStrChar_eq_escapeChar (by simpa using h.1), ih h.2]

theorem dword_roundtrip_of {d : Bytes} (hlen : d.length = 4)
    (hall : d.all (fun b => b < 256) = true) :
    dwordBytes (dwordOfBytes d) = d ∧ dwordOfBytes d < 4294967296 := by
  match d, hlen with
  | [a, b, c, e], _ =>
    simp only [List.all_cons, List.all_nil, Bool.and_eq_true, decide_eq_true_eq] at hall
    exact dword_roundtrip hall.1 hall.2.1 hall.2.2.1 hall.2.2.2.1

/-- A full `"name"="string"` line: the value is set and the machine returns
to LINE_START. -/
theorem feed_string_value {n : WStr} (hn : n.all (fun c => c ≠ 0) = true)
    (str : WStr) (uni : Bool) (tw : WStr) {rv : RegVersion} (hrv : rv ≠ RegVersion.v31)
    (cls : Nat) (segs : List WStr) (vn0 : Option WStr) (pt dt0 : Nat) (bs : Bool)
    (s : Store) (o : List RegOp) (ls : List WStr) :
    runLines (lineCtx uni tw rv (some (cls, segs)) vn0 pt dt0 bs s o)
        ((export_value_name_text n ++ ([34] ++ REGPROC_escape_string str ++ [34])) :: ls)
      = runLines (lineCtx uni tw rv (some (cls, segs)) (vnOf n) REG_SZ REG_SZ bs
          (storePut s cls (treeSet (storeGet s cls) segs
            ⟨(vnOf n).getD [], REG_SZ, wideBytes (cstr str ++ [0])⟩))
          (o ++ [RegOp.setValue cls segs
            ⟨(vnOf n).getD [], REG_SZ, wideBytes (cstr str ++ [0])⟩])) ls := by
  rw [runLines_cons_chain (feed_value_name hn uni tw rv (some (cls, segs)) vn0 pt dt0 bs s o
    ([34] ++ REGPROC_escape_string str ++ [34])) ls]
  have hs1 : chainStep
      { lineCtx uni tw rv (some (cls, segs)) (vnOf n) pt dt0 bs s o
        with state := PState.DATA_START }
      (61 :: ([34] ++ REGPROC_escape_string str ++ [34]))
      = some ({ lineCtx uni tw rv (some (cls, segs)) (vnOf n) pt dt0 bs s o
          with state := PState.DATA_TYPE }, [34] ++ REGPROC_escape_string str ++ [34]) := by
    show some (data_start_state _ _) = _
    rw [data_start_step _
      (show ([34] ++ REGPROC_escape_string str ++ [34] : WStr)
        = 34 :: (REGPROC_escape_string str ++ [34]) from rfl)
      (by decide) (by decide)
      (show ([34] ++ REGPROC_escape_string str ++ [34] : WStr).getLast? = some 34 by
        rw [List.getLast?_append, List.getLast?_append]; rfl)
      (by decide)]
  rw [show (15 : Nat) = 14 + 1 from rfl, chainRun_step (by rfl) hs1 14 ls]
  have hs2 : chainStep
      { lineCtx uni tw rv (some (cls, segs)) (vnOf n) pt dt0 bs s o
        with state := PState.DATA_TYPE }
      ([34] ++ REGPROC_escape_string str ++ [34])
      = some ({ lineCtx uni tw rv (some (cls, segs)) (vnOf n) pt dt0 bs s o
          with parse_type := REG_SZ, data_type := REG_SZ, state := PState.STRING_DATA },
        REGPROC_escape_string str ++ [34]) := by
    show some (data_type_state _ (34 :: (REGPROC_escape_string str ++ [34]))) = _
    unfold data_type_state
    rw [parse_data_type_sz]
    rfl
  rw [show (14 : Nat) = 13 + 1 from rfl, chainRun_step (by rfl) hs2 13 ls]
  have hs3 : chainStep
      { lineCtx uni tw rv (some (cls, segs)) (vnOf n) pt dt0 bs s o
        with parse_type := REG_SZ, data_type := REG_SZ, state := PState.STRING_DATA }
      (REGPROC_escape_string str ++ [34])
      = some ({ lineCtx uni tw rv (some (cls, segs)) (vnOf n) pt dt0 bs s o
          with parse_type := REG_SZ, data_type := REG_SZ,
               data := wideBytes (cstr str ++ [0]), state := PState.SET_VALUE }, []) := by
    show some (string_data_state _ _) = _
    rw [string_data_step]
  rw [show (13 : Nat) = 12 + 1 from rfl, chainRun_step (by rfl) hs3 12 ls]
  have hs4 : chainStep
      { lineCtx uni tw rv (some (cls, segs)) (vnOf n) pt dt0 bs s o
        with parse_type := REG_SZ, data_type := REG_SZ,
             data := wideBytes (cstr str ++ [0]), state := PState.SET_VALUE }
      []
      = some (lineCtx uni tw rv (some (cls, segs)) (vnOf n) REG_SZ REG_SZ bs
          (storePut s cls (treeSet (storeGet s cls) segs
            ⟨(vnOf n).getD [], REG_SZ, wideBytes (cstr str ++ [0])⟩))
          (o ++ [RegOp.setValue cls segs
            ⟨(vnOf n).getD [], REG_SZ, wideBytes (cstr str ++ [0])⟩]), []) := by
    show some (set_value_state _ _) = _
    rw [set_value_step rfl (fun h => hrv (Option.some.inj h)) _]
    try rfl
  rw [show (12 : Nat) = 11 + 1 from rfl, chainRun_step (by rfl) hs4 11 ls]
  rw [show (11 : Nat) = 10 + 1 from rfl, chainRun_stop (by rfl) 10 _ ls]

/-- A full `"name"=dword:%08x` line. -/
theorem feed_dword_value {n : WStr} (hn : n.all (fun c => c ≠ 0) = true)
    {d : Nat} (hd : d < 4294967296) (uni : Bool) (tw : WStr) {rv : RegVersion}
    (hrv : rv ≠ RegVersion.v31) (cls : Nat) (segs : List WStr) (vn0 : Option WStr)
    (pt dt0 : Nat) (bs : Bool) (s : Store) (o : List RegOp) (ls : List WStr) :
    runLines (lineCtx uni tw rv (some (cls, segs)) vn0 pt dt0 bs s o)
        ((export_value_name_text n ++ (strW "dword:" ++ toHex8 d)) :: ls)
      = runLines (lineCtx uni tw rv (some (cls, segs)) (vnOf n) REG_DWORD REG_DWORD bs
          (storePut s cls (treeSet (storeGet s cls) segs
            ⟨(vnOf n).getD [], REG_DWORD, dwordBytes d⟩))
          (o ++ [RegOp.setValue cls segs
            ⟨(vnOf n).getD [], REG_DWORD, dwordBytes d⟩])) ls := by
  have h8 := toHex8_length hd
  have hne8 : toHex8 d ≠ [] := by intro h; rw [h] at h8; simp at h8
  obtain ⟨e, he, hx⟩ := last_xdigit hne8 (toHex8_xdigit d)
  rw [runLines_cons_chain (feed_value_name hn uni tw rv (some (cls, segs)) vn0 pt dt0 bs s o
    (strW "dword:" ++ toHex8 d)) ls]
  have hs1 : chainStep
      { lineCtx uni tw rv (some (cls, segs)) (vnOf n) pt dt0 bs s o
        with state := PState.DATA_START }
      (61 :: (strW "dword:" ++ toHex8 d))
      = some ({ lineCtx uni tw rv (some (cls, segs)) (vnOf n) pt dt0 bs s o
          with state := PState.DATA_TYPE }, strW "dword:" ++ toHex8 d) := by
    show some (data_start_state _ _) = _
    rw [data_start_step _
      (show (strW "dword:" ++ toHex8 d : WStr)
        = 100 :: ([119, 111, 114, 100, 58] ++ toHex8 d) from rfl)
      (by decide) (by decide)
      (show (strW "dword:" ++ toHex8 d : WStr).getLast? = some e by
        rw [List.getLast?_append, he]; rfl)
      ((xdigit_props hx).2.1)]
  rw [show (15 : Nat) = 14 + 1 from rfl, chainRun_step (by rfl) hs1 14 ls]
  have hs2 : chainStep
      { lineCtx uni tw rv (some (cls, segs)) (vnOf n) pt dt0 bs s o
        with state := PState.DATA_TYPE }
      (strW "dword:" ++ toHex8 d)
      = some ({ lineCtx uni tw rv (some (cls, segs)) (vnOf n) pt dt0 bs s o
          with parse_type := REG_DWORD, data_type := REG_DWORD,
               state := PState.DWORD_DATA }, toHex8 d) := by
    show some (data_type_state _ _) = _
    unfold data_type_state
    rw [parse_data_type_dword]
    rfl
  rw [show (14 : Nat) = 13 + 1 from rfl, chainRun_step (by rfl) hs2 13 ls]
  have hs3 : chainStep
      { lineCtx uni tw rv (some (cls, segs)) (vnOf n) pt dt0 bs s o
        with parse_type := REG_DWORD, data_type := REG_DWORD, state := PState.DWORD_DATA }
      (toHex8 d)
      = some ({ lineCtx uni tw rv (some (cls, segs)) (vnOf n) pt dt0 bs s o
          with parse_type := REG_DWORD, data_type := REG_DWORD,
               data := dwordBytes d, state := PState.SET_VALUE }, toHex8 d) := by
    show some (dword_data_state _ _) = _
    rw [dword_data_step _ hd]
  rw [show (13 : Nat) = 12 + 1 from rfl, chainRun_step (by rfl) hs3 12 ls]
  have hs4 : chainStep
      { lineCtx uni tw rv (some (cls, segs)) (vnOf n) pt dt0 bs s o
        with parse_type := REG_DWORD, data_type := REG_DWORD,
             data := dwordBytes d, state := PState.SET_VALUE }
      (toHex8 d)
      = some (lineCtx uni tw rv (some (cls, segs)) (vnOf n) REG_DWORD REG_DWORD bs
          (storePut s cls (treeSet (storeGet s cls) segs
            ⟨(vnOf n).getD [], REG_DWORD, dwordBytes d⟩))
          (o ++ [RegOp.setValue cls segs
            ⟨(vnOf n).getD [], REG_DWORD, dwordBytes d⟩]), toHex8 d) := by
    show some (set_value_state _ _) = _
    rw [set_value_step rfl (fun h => hrv (Option.some.inj h)) _]
    try rfl
  rw [show (12 : Nat) = 11 + 1 from rfl, chainRun_step (by rfl) hs4 11 ls]
  rw [show (11 : Nat) = 10 + 1 from rfl, chainRun_stop (by rfl) 10 _ ls]

/-- A full hex value line with its continuation lines. -/
theorem feed_hex_value {n : WStr} (hn : n.all (fun c => c ≠ 0) = true)
    {d : Bytes} (hne : d ≠ []) (hall : d.all (fun b => b < 256) = true)
    {ty : Nat} (hty : ty < 4294967296) (col : Nat) (uni : Bool) (tw : WStr)
    {rv : RegVersion} (hrv : rv ≠ RegVersion.v31) (cls : Nat) (segs : List WStr)
    (vn0 : Option WStr) (pt dt0 : Nat) (bs : Bool) (s : Store) (o : List RegOp)
    (ls : List WStr) :
    runLines (lineCtx uni tw rv (some (cls, segs)) vn0 pt dt0 bs s o)
        ((export_value_name_text n ++ (hexPrefixText ty ++ hexFirst col d))
          :: (hexConts col d ++ ls))
      = runLines (lineCtx uni tw rv (some (cls, segs)) (vnOf n) REG_BINARY ty false
          (storePut s cls (treeSet (storeGet s cls) segs
            ⟨(vnOf n).getD [], ty, prepData uni ty d⟩))
          (o ++ [RegOp.setValue cls segs
            ⟨(vnOf n).getD [], ty, prepData uni ty d⟩])) ls := by
  obtain ⟨r, hpre⟩ := hexPrefixText_cons ty
  obtain ⟨e, he, heb⟩ := @hexFirst_last col _ hne
  rw [runLines_cons_chain (feed_value_name hn uni tw rv (some (cls, segs)) vn0 pt dt0 bs s o
    (hexPrefixText ty ++ hexFirst col d)) (hexConts col d ++ ls)]
  have hs1 : chainStep
      { lineCtx uni tw rv (some (cls, segs)) (vnOf n) pt dt0 bs s o
        with state := PState.DATA_START }
      (61 :: (hexPrefixText ty ++ hexFirst col d))
      = some ({ lineCtx uni tw rv (some (cls, segs)) (vnOf n) pt dt0 bs s o
          with state := PState.DATA_TYPE }, hexPrefixText ty ++ hexFirst col d) := by
    show some (data_start_state _ _) = _
    rw [data_start_step _
      (show hexPrefixText ty ++ hexFirst col d = 104 :: (r ++ hexFirst col d) by
        rw [hpre]; rfl)
      (by decide) (by decide)
      (show (hexPrefixText ty ++ hexFirst col d).getLast? = some e by
        rw [List.getLast?_append, he]; rfl)
      heb]
  rw [show (15 : Nat) = 14 + 1 from rfl, chainRun_step (by rfl) hs1 14 _]
  by_cases hbin : ty = REG_BINARY
  · subst hbin
    have hs2 : chainStep
        { lineCtx uni tw rv (some (cls, segs)) (vnOf n) pt dt0 bs s o
          with state := PState.DATA_TYPE }
        (hexPrefixText REG_BINARY ++ hexFirst col d)
        = some ((⟨uni, tw, some rv, some (cls, segs), vnOf n, REG_BINARY, REG_BINARY, [],
            bs, PState.HEX_DATA, s, o⟩ : PCtx), hexFirst col d) := by
      show some (data_type_state _ (strW "hex:" ++ hexFirst col d)) = _
      unfold data_type_state
      rw [parse_data_type_hexbin]
      rfl
    rw [show (14 : Nat) = 13 + 1 from rfl, chainRun_step (by rfl) hs2 13 _]
    rw [show (13 : Nat) = 10 + 3 from rfl]
    rw [chain_hex_run_aux d.length d le_rfl hne hall col [] uni tw rv hrv cls segs (vnOf n)
      REG_BINARY bs s o 10 ls]
    simp only [List.nil_append]
  · have hpre2 : hexPrefixText ty = strW "hex(" ++ toHex ty ++ strW "):" := by
      unfold hexPrefixText
      rw [if_neg hbin]
    rw [show hexPrefixText ty ++ hexFirst col d
        = strW "hex(" ++ (toHex ty ++ (41 :: 58 :: hexFirst col d)) by
      rw [hpre2]; simp only [List.append_assoc]; rfl]
    have hs2 : chainStep
        { lineCtx uni tw rv (some (cls, segs)) (vnOf n) pt dt0 bs s o
          with state := PState.DATA_TYPE }
        (strW "hex(" ++ (toHex ty ++ (41 :: 58 :: hexFirst col d)))
        = some ((⟨uni, tw, some rv, some (cls, segs), vnOf n, REG_BINARY, ty, [],
            bs, PState.HEX_DATA, s, o⟩ : PCtx), hexFirst col d) := by
      show some (data_type_state _ _) = _
      unfold data_type_state
      rw [parse_data_type_hexN hty]
      rfl
    rw [show (14 : Nat) = 13 + 1 from rfl, chainRun_step (by rfl) hs2 13 _]
    rw [show (13 : Nat) = 10 + 3 from rfl]
    rw [chain_hex_run_aux d.length d le_rfl hne hall col [] uni tw rv hrv cls segs (vnOf n)
      ty bs s o 10 ls]
    simp only [List.nil_append]

/-- One whole rendered value (all its physical lines) sets exactly that
value on the open key. -/
theorem value_run {uni : Bool} {v : RegValue} (hwf : wfValue uni v = true)
    (tw : WStr) {rv : RegVersion} (hrv : rv ≠ RegVersion.v31)
    (cls : Nat) (segs : List WStr) (vn0 : Option WStr) (pt dt0 : Nat) (bs : Bool)
    (s : Store) (o : List RegOp) (ls : List WStr) :
    runLines (lineCtx uni tw rv (some (cls, segs)) vn0 pt dt0 bs s o)
        (valueLines uni v ++ ls)
      = runLines (lineCtx uni tw rv (some (cls, segs)) (vnOf v.name) (postPT v.ty) v.ty
          (postBS v.ty bs)
          (storePut s cls (treeSet (storeGet s cls) segs v))
          (o ++ [RegOp.setValue cls segs v])) ls := by
  have hn : v.name.all (fun c => c ≠ 0) = true := by
    have h := hwf
    unfold wfValue at h
    simp only [Bool.and_eq_true] at h
    exact h.1.1
  by_cases hsz : v.ty = REG_SZ
  · have hfacts : v.data.length % 2 = 0 ∧ v.data.all (fun b => b < 256) = true
        ∧ 2 ≤ v.data.length ∧ (bytePairs v.data).getLast? = some 0
        ∧ (bytePairs v.data).dropLast.all (fun c => c ≠ 0) = true := by
      have h := hwf
      unfold wfValue at h
      rw [hsz] at h
      rw [if_neg (by decide), if_pos rfl] at h
      simp only [isWideData, Bool.and_eq_true, decide_eq_true_eq] at h
      obtain ⟨-, ⟨⟨⟨⟨hmod, hall⟩, hlen⟩, hlast⟩, hdrop⟩, -⟩ := h
      exact ⟨hmod, hall, hlen, hlast, hdrop⟩
    obtain ⟨hmod, hall, hlen, hlast, hdrop⟩ := hfacts
    have hstr : cstr (bytePairs v.data) = (bytePairs v.data).dropLast := by
      conv_lhs => rw [eq_dropLast_concat hlast]
      exact cstr_append_zero hdrop []
    have hdata : wideBytes (cstr (cstr (bytePairs v.data)) ++ [0]) = v.data := by
      rw [hstr, cstr_of_no_nul hdrop, ← eq_dropLast_concat hlast]
      exact wideBytes_bytePairs v.data hmod hall
    have hesc : REGPROC_export_string (cstr (bytePairs v.data))
        = REGPROC_escape_string (cstr (bytePairs v.data)) :=
      export_string_eq_escape (by rw [hstr]; exact hdrop)
    rw [show valueLines uni v = [export_value_name_text v.name
        ++ ([34] ++ REGPROC_escape_string (cstr (bytePairs v.data)) ++ [34])] by
      rw [valueLines, if_pos hsz, hesc]
      simp only [List.append_assoc]]
    rw [List.singleton_append]
    rw [feed_string_value hn (cstr (bytePairs v.data)) uni tw hrv cls segs vn0 pt dt0
      bs s o ls]
    have hv : (⟨(vnOf v.name).getD [], REG_SZ,
        wideBytes (cstr (cstr (bytePairs v.data)) ++ [0])⟩ : RegValue) = v := by
      rw [vnOf_getD, hdata, ← hsz]
    rw [hv, hsz]
    rfl
  · by_cases hdw : v.ty = REG_DWORD
    · have hfacts : v.data.length = 4 ∧ v.data.all (fun b => b < 256) = true := by
        have h := hwf
        unfold wfValue at h
        rw [hdw] at h
        rw [if_pos rfl] at h
        simp only [Bool.and_eq_true, decide_eq_true_eq] at h
        exact ⟨h.2.1, h.2.2⟩
      have hrt := dword_roundtrip_of hfacts.1 hfacts.2
      rw [show valueLines uni v = [export_value_name_text v.name
          ++ (strW "dword:" ++ toHex8 (dwordOfBytes v.data))] by
        rw [valueLines, if_neg hsz, if_pos hdw]]
      rw [List.singleton_append]
      rw [feed_dword_value hn hrt.2 uni tw hrv cls segs vn0 pt dt0 bs s o ls]
      have hv : (⟨(vnOf v.name).getD [], REG_DWORD,
          dwordBytes (dwordOfBytes v.data)⟩ : RegValue) = v := by
        rw [vnOf_getD, hrt.1, ← hdw]
      rw [hv, hdw]
      rfl
    · have hp := wfValue_hex_pieces hwf hsz hdw
      obtain ⟨⟨hne, hall, hprep⟩, hty32⟩ := hp
      rw [show valueLines uni v = (export_value_name_text v.name
            ++ (hexPrefixText v.ty ++ hexFirst ((export_value_name_text v.name).length
              + (hexPrefixText v.ty).length) (if !uni && (v.ty = REG_EXPAND_SZ
                || v.ty = REG_MULTI_SZ) then acpFromWide (bytePairs v.data) else v.data)))
          :: hexConts ((export_value_name_text v.name).length
              + (hexPrefixText v.ty).length)
            (if !uni && (v.ty = REG_EXPAND_SZ || v.ty = REG_MULTI_SZ) then
              acpFromWide (bytePairs v.data) else v.data) by
        rw [valueLines, if_neg hsz, if_neg hdw]
        simp only [List.append_assoc]]
      rw [List.cons_append]
      rw [feed_hex_value hn hne hall hty32 _ uni tw hrv cls segs vn0 pt dt0 bs s o ls]
      have hv : (⟨(vnOf v.name).getD [], v.ty,
          prepData uni v.ty (if !uni && (v.ty = REG_EXPAND_SZ || v.ty = REG_MULTI_SZ) then
            acpFromWide (bytePairs v.data) else v.data)⟩ : RegValue) = v := by
        rw [vnOf_getD, hprep]
      rw [hv]
      rw [show postPT v.ty = REG_BINARY by unfold postPT; rw [if_neg hsz, if_neg hdw]]
      rw [show postBS v.ty bs = false by unfold postBS; rw [if_neg (not_or.mpr ⟨hsz, hdw⟩)]]

end Regproc

namespace Regproc

/-! ## Whole-tree runs -/

theorem runLines_empty_line (u : Bool) (tw : WStr) (rv : RegVersion)
    (hk : Option (Nat × List WStr)) (vn : Option WStr) (pt dt : Nat) (bs : Bool)
    (s : Store) (o : List RegOp) (L : List WStr) :
    runLines (lineCtx u tw rv hk vn pt dt bs s o) ([] :: L)
      = runLines (lineCtx u tw rv hk vn pt dt bs s o) L := by
  simp only [runLines]
  rw [feed_empty]

theorem runLines_key_line {uni u : Bool} (tw : WStr) (rv : RegVersion)
    (hk : Option (Nat × List WStr)) (vn : Option WStr) (pt dt : Nat) (bs : Bool)
    (s : Store) (o : List RegOp) {cls : Nat} (hcls : cls < 6) {segs : List WStr}
    (hsegs : segs.all (wfName uni) = true) (L : List WStr) :
    runLines (lineCtx u tw rv hk vn pt dt bs s o)
        ((91 :: (pathText cls segs ++ [93])) :: L)
      = runLines (lineCtx u tw rv (some (cls, segs)) vn pt dt bs
          (storePut s cls (treeCreate (storeGet s cls) segs))
          (o ++ [RegOp.createKey cls segs])) L := by
  simp only [runLines]
  rw [feed_key tw rv hk vn pt dt bs s o hcls hsegs]

/-- The store after a run of value lines on one open key. -/
def valsStore (s : Store) (cls : Nat) (segs : List WStr) : List RegValue → Store
  | [] => s
  | v :: rest => valsStore (storePut s cls (treeSet (storeGet s cls) segs v)) cls segs rest

/-- The operations issued for a run of value lines. -/
def valsOps (cls : Nat) (segs : List WStr) : List RegValue → List RegOp
  | [] => []
  | v :: rest => RegOp.setValue cls segs v :: valsOps cls segs rest

mutual
/-- The store after one exported key block (create, values, subkeys). -/
def treeStore (s : Store) (cls : Nat) (segs : List WStr) : RegTree → Store
  | .mk vals subs =>
    subsStore (valsStore (storePut s cls (treeCreate (storeGet s cls) segs)) cls segs vals)
      cls segs subs
/-- The store after the blocks of a subkey list. -/
def subsStore (s : Store) (cls : Nat) (segs : List WStr) : SubkeyList → Store
  | .nil => s
  | .cons n t rest => subsStore (treeStore s cls (segs ++ [n]) t) cls segs rest
end

mutual
/-- The operations issued for one exported key block. -/
def treeOps (cls : Nat) (segs : List WStr) : RegTree → List RegOp
  | .mk vals subs =>
    RegOp.createKey cls segs :: (valsOps cls segs vals ++ subsOps cls segs subs)
/-- The operations issued for the blocks of a subkey list. -/
def subsOps (cls : Nat) (segs : List WStr) : SubkeyList → List RegOp
  | .nil => []
  | .cons n t rest => treeOps cls (segs ++ [n]) t ++ subsOps cls segs rest
end

theorem vals_run : ∀ (vals : List RegValue) (uni : Bool), vals.all (wfValue uni) = true →
    ∀ (tw : WStr) (rv : RegVersion), rv ≠ RegVersion.v31 →
    ∀ (cls : Nat) (segs : List WStr) (vn0 : Option WStr) (pt dt0 : Nat) (bs : Bool)
      (s : Store) (o : List RegOp) (ls : List WStr),
    ∃ (vn1 : Option WStr) (pt1 dt1 : Nat) (bs1 : Bool),
    runLines (lineCtx uni tw rv (some (cls, segs)) vn0 pt dt0 bs s o)
        (valsLines uni vals ++ ls)
      = runLines (lineCtx uni tw rv (some (cls, segs)) vn1 pt1 dt1 bs1
          (valsStore s cls segs vals) (o ++ valsOps cls segs vals)) ls
  | [], uni, _, tw, rv, hrv, cls, segs, vn0, pt, dt0, bs, s, o, ls =>
    ⟨vn0, pt, dt0, bs, by simp [valsLines, valsStore, valsOps]⟩
  | v :: rest, uni, h, tw, rv, hrv, cls, segs, vn0, pt, dt0, bs, s, o, ls => by
    simp only [List.all_cons, Bool.and_eq_true] at h
    rw [show valsLines uni (v :: rest) ++ ls
        = valueLines uni v ++ (valsLines uni rest ++ ls) by
      simp [valsLines]]
    rw [value_run h.1 tw hrv cls segs vn0 pt dt0 bs s o _]
    obtain ⟨vn1, pt1, dt1, bs1, hrun⟩ := vals_run rest uni h.2 tw rv hrv cls segs
      (vnOf v.name) (postPT v.ty) v.ty (postBS v.ty bs)
      (storePut s cls (treeSet (storeGet s cls) segs v))
      (o ++ [RegOp.setValue cls segs v]) ls
    refine ⟨vn1, pt1, dt1, bs1, ?_⟩
    rw [hrun]
    rw [show valsStore (storePut s cls (treeSet (storeGet s cls) segs v)) cls segs rest
        = valsStore s cls segs (v :: rest) from rfl]
    rw [show (o ++ [RegOp.setValue cls segs v]) ++ valsOps cls segs rest
        = o ++ valsOps cls segs (v :: rest) by simp [valsOps]]

theorem joinSegs_snoc : ∀ (s0 : WStr) (r : List WStr) (n : WStr),
    joinSegs ((s0 :: r) ++ [n]) = joinSegs (s0 :: r) ++ [92] ++ n
  | s0, [], n => rfl
  | s0, s1 :: r, n => by
    show s0 ++ [92] ++ joinSegs ((s1 :: r) ++ [n])
      = (s0 ++ [92] ++ joinSegs (s1 :: r)) ++ [92] ++ n
    rw [joinSegs_snoc s1 r n]
    simp [List.append_assoc]

theorem pathText_snoc (cls : Nat) (segs : List WStr) (n : WStr) :
    pathText cls segs ++ [92] ++ n = pathText cls (segs ++ [n]) := by
  cases segs with
  | nil => rfl
  | cons s0 r =>
    show (regClassNames.getD cls [] ++ [92] ++ joinSegs (s0 :: r)) ++ [92] ++ n
      = regClassNames.getD cls [] ++ [92] ++ joinSegs ((s0 :: r) ++ [n])
    rw [joinSegs_snoc s0 r n]
    simp [List.append_assoc]

mutual
theorem tree_run : ∀ (t : RegTree) (uni : Bool), wfTree uni t = true →
    ∀ (cls : Nat), cls < 6 → ∀ (segs : List WStr), segs.all (wfName uni) = true →
    ∀ (tw : WStr) (rv : RegVersion), rv ≠ RegVersion.v31 →
    ∀ (hk0 : Option (Nat × List WStr)) (vn0 : Option WStr) (pt dt0 : Nat) (bs : Bool)
      (s : Store) (o : List RegOp) (ls : List WStr),
    ∃ (hk1 : Option (Nat × List WStr)) (vn1 : Option WStr) (pt1 dt1 : Nat) (bs1 : Bool),
    runLines (lineCtx uni tw rv hk0 vn0 pt dt0 bs s o)
        (treeLines uni (pathText cls segs) t ++ ls)
      = runLines (lineCtx uni tw rv hk1 vn1 pt1 dt1 bs1
          (treeStore s cls segs t) (o ++ treeOps cls segs t)) ls
  | .mk vals subs, uni, hwf, cls, hcls, segs, hsegs, tw, rv, hrv, hk0, vn0, pt, dt0, bs,
      s, o, ls => by
    unfold wfTree at hwf
    simp only [Bool.and_eq_true] at hwf
    rw [show treeLines uni (pathText cls segs) (.mk vals subs) ++ ls
        = [] :: ((91 :: (pathText cls segs ++ [93]))
            :: (valsLines uni vals ++ (subsLines uni (pathText cls segs) subs ++ ls))) by
      simp [treeLines]]
    rw [runLines_empty_line]
    rw [runLines_key_line tw rv hk0 vn0 pt dt0 bs s o hcls hsegs]
    obtain ⟨vn1, pt1, dt1, bs1, hv⟩ := vals_run vals uni hwf.1.1 tw rv hrv cls segs vn0
      pt dt0 bs (storePut s cls (treeCreate (storeGet s cls) segs))
      (o ++ [RegOp.createKey cls segs]) _
    rw [hv]
    obtain ⟨hk1, vn2, pt2, dt2, bs2, hsub⟩ := subs_run subs uni hwf.2 cls hcls segs hsegs
      tw rv hrv (some (cls, segs)) vn1 pt1 dt1 bs1 _ _ ls
    refine ⟨hk1, vn2, pt2, dt2, bs2, ?_⟩
    rw [hsub]
    simp only [treeStore, treeOps, List.append_assoc, List.singleton_append,
      List.cons_append, List.nil_append]
theorem subs_run : ∀ (sks : SubkeyList) (uni : Bool), wfSubs uni sks = true →
    ∀ (cls : Nat), cls < 6 → ∀ (segs : List WStr), segs.all (wfName uni) = true →
    ∀ (tw : WStr) (rv : RegVersion), rv ≠ RegVersion.v31 →
    ∀ (hk0 : Option (Nat × List WStr)) (vn0 : Option WStr) (pt dt0 : Nat) (bs : Bool)
      (s : Store) (o : List RegOp) (ls : List WStr),
    ∃ (hk1 : Option (Nat × List WStr)) (vn1 : Option WStr) (pt1 dt1 : Nat) (bs1 : Bool),
    runLines (lineCtx uni tw rv hk0 vn0 pt dt0 bs s o)
        (subsLines uni (pathText cls segs) sks ++ ls)
      = runLines (lineCtx uni tw rv hk1 vn1 pt1 dt1 bs1
          (subsStore s cls segs sks) (o ++ subsOps cls segs sks)) ls
  | .nil, uni, _, cls, hcls, segs, hsegs, tw, rv, hrv, hk0, vn0, pt, dt0, bs, s, o, ls =>
    ⟨hk0, vn0, pt, dt0, bs, by simp [subsLines, subsStore, subsOps]⟩
  | .cons n t rest, uni, hwf, cls, hcls, segs, hsegs, tw, rv, hrv, hk0, vn0, pt, dt0, bs,
      s, o, ls => by
    unfold wfSubs at hwf
    simp only [Bool.and_eq_true] at hwf
    have hsegs2 : (segs ++ [n]).all (wfName uni) = true := by
      simp only [List.all_append, Bool.and_eq_true]
      exact ⟨hsegs, by simp [hwf.1.1.1]⟩
    rw [show subsLines uni (pathText cls segs) (.cons n t rest) ++ ls
        = treeLines uni (pathText cls (segs ++ [n])) t
            ++ (subsLines uni (pathText cls segs) rest ++ ls) by
      simp only [subsLines]
      rw [pathText_snoc, List.append_assoc]]
    obtain ⟨hk1, vn1, pt1, dt1, bs1, ht⟩ := tree_run t uni hwf.1.1.2 cls hcls (segs ++ [n])
      hsegs2 tw rv hrv hk0 vn0 pt dt0 bs s o _
    rw [ht]
    obtain ⟨hk2, vn2, pt2, dt2, bs2, hr⟩ := subs_run rest uni hwf.2 cls hcls segs hsegs
      tw rv hrv hk1 vn1 pt1 dt1 bs1 (treeStore s cls (segs ++ [n]) t)
      (o ++ treeOps cls (segs ++ [n]) t) ls
    refine ⟨hk2, vn2, pt2, dt2, bs2, ?_⟩
    rw [hr]
    simp only [subsStore, subsOps, List.append_assoc]
end

end Regproc

namespace Regproc

/-! ## Store and tree algebra for the grafting law -/

theorem storeGet_storePut {s : Store} {i : Nat} (h : i < s.length) (t : RegTree) :
    storeGet (storePut s i t) i = t := by
  unfold storeGet storePut List.getD
  rw [List.get?_eq_getElem?, List.getElem?_set_self (by simpa using h)]
  rfl

theorem storePut_storePut (s : Store) (i : Nat) (t t' : RegTree) :
    storePut (storePut s i t) i t' = storePut s i t' :=
  List.set_set t t' s i

/-- Modify the subtree at a path, creating missing keys on the way (the
common shape of `treeCreate` and on-path `treeSet`). -/
def updAt : RegTree → List WStr → (RegTree → RegTree) → RegTree
  | t, [], f => f t
  | t, n :: rest, f =>
    .mk t.values (subPut t.subkeys n (updAt (subGetD t.subkeys n) rest f))

/-- The path is present in the tree. -/
def pathExists : RegTree → List WStr → Bool
  | _, [] => true
  | t, n :: rest =>
    match subFind t.subkeys n with
    | none => false
    | some u => pathExists u rest

theorem subFind_subPut_same : ∀ (sks : SubkeyList) (n : WStr) (t : RegTree),
    subFind (subPut sks n t) n = some t
  | .nil, n, t => by simp [subPut, subFind]
  | .cons m u rest, n, t => by
    by_cases h : m = n
    · subst h
      simp [subPut, subFind]
    · simp [subPut, subFind, h, subFind_subPut_same rest n t]

theorem subGetD_subPut_same (sks : SubkeyList) (n : WStr) (t : RegTree) :
    subGetD (subPut sks n t) n = t := by
  unfold subGetD
  rw [subFind_subPut_same]
  rfl

theorem subPut_subPut_same : ∀ (sks : SubkeyList) (n : WStr) (t t' : RegTree),
    subPut (subPut sks n t) n t' = subPut sks n t'
  | .nil, n, t, t' => by simp [subPut]
  | .cons m u rest, n, t, t' => by
    by_cases h : m = n
    · subst h
      simp [subPut]
    · simp [subPut, h, subPut_subPut_same rest n t t']

theorem subPut_find_self : ∀ {sks : SubkeyList} {n : WStr} {t : RegTree},
    subFind sks n = some t → subPut sks n t = sks
  | .nil, n, t, h => by cases h
  | .cons m u rest, n, t, h => by
    by_cases hm : m = n
    · subst hm
      unfold subFind at h
      rw [if_pos rfl] at h
      unfold subPut
      rw [if_pos rfl, ← Option.some.inj h]
    · unfold subFind at h
      rw [if_neg hm] at h
      unfold subPut
      rw [if_neg hm, subPut_find_self h]

theorem treeCreate_updAt : ∀ (b : RegTree) (segs : List WStr),
    treeCreate b segs = updAt b segs (fun u => u)
  | b, [] => by cases b; rfl
  | .mk vs sks, n :: rest => by
    show RegTree.mk vs (subPut sks n (treeCreate (subGetD sks n) rest))
      = RegTree.mk vs (subPut sks n (updAt (subGetD sks n) rest (fun u => u)))
    rw [treeCreate_updAt (subGetD sks n) rest]

theorem pathExists_updAt : ∀ (b : RegTree) (segs : List WStr) (f : RegTree → RegTree),
    pathExists (updAt b segs f) segs = true
  | _, [], _ => rfl
  | .mk vs sks, n :: rest, f => by
    show (match subFind (subPut sks n (updAt (subGetD sks n) rest f)) n with
          | none => false
          | some u => pathExists u rest) = true
    rw [subFind_subPut_same]
    exact pathExists_updAt (subGetD sks n) rest f

theorem treeSet_updAt : ∀ (b : RegTree) (segs : List WStr) (v : RegValue),
    pathExists b segs = true →
    treeSet b segs v = updAt b segs (fun u => .mk (valPut u.values v) u.subkeys)
  | .mk vs sks, [], v, _ => rfl
  | .mk vs sks, n :: rest, v, h => by
    have h' : (match subFind sks n with
        | none => false
        | some u => pathExists u rest) = true := h
    cases hf : subFind sks n with
    | none =>
      rw [hf] at h'
      exact Bool.noConfusion h'
    | some t =>
      rw [hf] at h'
      show (match subFind sks n with
            | none => RegTree.mk vs sks
            | some u => RegTree.mk vs (subPut sks n (treeSet u rest v)))
        = RegTree.mk vs (subPut sks n (updAt (subGetD sks n) rest
            (fun u => RegTree.mk (valPut u.values v) u.subkeys)))
      simp only [hf]
      rw [show subGetD sks n = t by unfold subGetD; rw [hf]; rfl]
      rw [treeSet_updAt t rest v h']

theorem updAt_id : ∀ (b : RegTree) (segs : List WStr), pathExists b segs = true →
    updAt b segs (fun u => u) = b
  | _, [], _ => rfl
  | .mk vs sks, n :: rest, h => by
    have h' : (match subFind sks n with
        | none => false
        | some u => pathExists u rest) = true := h
    cases hf : subFind sks n with
    | none =>
      rw [hf] at h'
      exact Bool.noConfusion h'
    | some t =>
      rw [hf] at h'
      show RegTree.mk vs (subPut sks n (updAt (subGetD sks n) rest (fun u => u)))
        = RegTree.mk vs sks
      rw [show subGetD sks n = t by unfold subGetD; rw [hf]; rfl]
      rw [updAt_id t rest h']
      rw [subPut_find_self hf]

theorem updAt_updAt : ∀ (b : RegTree) (segs : List WStr) (f g : RegTree → RegTree),
    updAt (updAt b segs f) segs g = updAt b segs (fun u => g (f u))
  | _, [], _, _ => rfl
  | .mk vs sks, n :: rest, f, g => by
    show RegTree.mk vs (subPut (subPut sks n (updAt (subGetD sks n) rest f)) n
        (updAt (subGetD (subPut sks n (updAt (subGetD sks n) rest f)) n) rest g))
      = RegTree.mk vs (subPut sks n (updAt (subGetD sks n) rest (fun u => g (f u))))
    rw [subGetD_subPut_same, subPut_subPut_same]
    rw [updAt_updAt (subGetD sks n) rest f g]

theorem updAt_append : ∀ (b : RegTree) (segs tail : List WStr) (f : RegTree → RegTree),
    updAt b (segs ++ tail) f = updAt b segs (fun u => updAt u tail f)
  | _, [], _, _ => rfl
  | .mk vs sks, n :: rest, tail, f => by
    show RegTree.mk vs (subPut sks n (updAt (subGetD sks n) (rest ++ tail) f))
      = RegTree.mk vs (subPut sks n (updAt (subGetD sks n) rest (fun u => updAt u tail f)))
    rw [updAt_append (subGetD sks n) rest tail f]

theorem updAt_congr : ∀ (b : RegTree) (segs : List WStr) (f g : RegTree → RegTree),
    (∀ u, f u = g u) → updAt b segs f = updAt b segs g
  | b, [], f, g, h => h b
  | .mk vs sks, n :: rest, f, g, h => by
    show RegTree.mk vs (subPut sks n (updAt (subGetD sks n) rest f))
      = RegTree.mk vs (subPut sks n (updAt (subGetD sks n) rest g))
    rw [updAt_congr (subGetD sks n) rest f g h]

end Regproc

namespace Regproc

/-! ## Pure-tree forms of the imported effects -/

/-- Fold `valPut` over a list of imported values. -/
def valPutAll (l : List RegValue) : List RegValue → List RegValue
  | [] => l
  | v :: rest => valPutAll (valPut l v) rest

/-- The cls-class tree after a run of value lines. -/
def valsT (b : RegTree) (segs : List WStr) : List RegValue → RegTree
  | [] => b
  | v :: rest => valsT (treeSet b segs v) segs rest

mutual
/-- The cls-class tree after one key block. -/
def treeT (b : RegTree) (segs : List WStr) : RegTree → RegTree
  | .mk vals subs => subsT (valsT (treeCreate b segs) segs vals) segs subs
/-- The cls-class tree after a subkey list's blocks. -/
def subsT (b : RegTree) (segs : List WStr) : SubkeyList → RegTree
  | .nil => b
  | .cons n t rest => subsT (treeT b (segs ++ [n]) t) segs rest
end

theorem valsStore_storePut : ∀ (vals : List RegValue) (s : Store) (cls : Nat)
    (b : RegTree) (segs : List WStr), cls < s.length →
    valsStore (storePut s cls b) cls segs vals = storePut s cls (valsT b segs vals)
  | [], _, _, _, _, _ => rfl
  | v :: rest, s, cls, b, segs, h => by
    show valsStore (storePut (storePut s cls b) cls
        (treeSet (storeGet (storePut s cls b) cls) segs v)) cls segs rest = _
    rw [storeGet_storePut h, storePut_storePut]
    exact valsStore_storePut rest s cls (treeSet b segs v) segs h

mutual
theorem treeStore_storePut : ∀ (t : RegTree) (s : Store) (cls : Nat) (b : RegTree)
    (segs : List WStr), cls < s.length →
    treeStore (storePut s cls b) cls segs t = storePut s cls (treeT b segs t)
  | .mk vals subs, s, cls, b, segs, h => by
    simp only [treeStore, treeT]
    rw [storeGet_storePut h, storePut_storePut]
    rw [valsStore_storePut vals s cls (treeCreate b segs) segs h]
    rw [subsStore_storePut subs s cls (valsT (treeCreate b segs) segs vals) segs h]
theorem subsStore_storePut : ∀ (sks : SubkeyList) (s : Store) (cls : Nat) (b : RegTree)
    (segs : List WStr), cls < s.length →
    subsStore (storePut s cls b) cls segs sks = storePut s cls (subsT b segs sks)
  | .nil, _, _, _, _, _ => by simp only [subsStore, subsT]
  | .cons n t rest, s, cls, b, segs, h => by
    simp only [subsStore, subsT]
    rw [treeStore_storePut t s cls b (segs ++ [n]) h]
    rw [subsStore_storePut rest s cls (treeT b (segs ++ [n]) t) segs h]
end

/-- The root-merge performed by a run of value lines. -/
def rootVals (vals : List RegValue) (u : RegTree) : RegTree :=
  .mk (valPutAll u.values vals) u.subkeys

theorem valsT_updAt : ∀ (vals : List RegValue) (b : RegTree) (segs : List WStr),
    pathExists b segs = true →
    valsT b segs vals = updAt b segs (rootVals vals)
  | [], b, segs, h => by
    show b = updAt b segs (rootVals [])
    rw [updAt_congr b segs (rootVals []) (fun u => u) (fun u => by cases u; rfl)]
    rw [updAt_id b segs h]
  | v :: rest, b, segs, h => by
    show valsT (treeSet b segs v) segs rest = _
    rw [treeSet_updAt b segs v h]
    rw [valsT_updAt rest (updAt b segs (fun u => .mk (valPut u.values v) u.subkeys)) segs
      (pathExists_updAt b segs _)]
    rw [updAt_updAt]
    exact updAt_congr b segs _ _ (fun u => rfl)

mutual
/-- Merge one imported key block into the existing subtree. -/
def mergeT (u : RegTree) : RegTree → RegTree
  | .mk vals subs => mergeSubs (.mk (valPutAll u.values vals) u.subkeys) subs
/-- Merge a subkey list's blocks into the existing subtree. -/
def mergeSubs (u : RegTree) : SubkeyList → RegTree
  | .nil => u
  | .cons n t rest =>
    mergeSubs (.mk u.values (subPut u.subkeys n (mergeT (subGetD u.subkeys n) t))) rest
end

mutual
theorem treeT_merge : ∀ (t : RegTree) (b : RegTree) (segs : List WStr),
    treeT b segs t = updAt b segs (fun u => mergeT u t)
  | .mk vals subs, b, segs => by
    simp only [treeT]
    rw [treeCreate_updAt b segs]
    rw [valsT_updAt vals (updAt b segs (fun u => u)) segs (pathExists_updAt b segs _)]
    rw [updAt_updAt]
    rw [subsT_merge subs (updAt b segs (fun u => rootVals vals ((fun u => u) u))) segs
      (pathExists_updAt b segs _)]
    rw [updAt_updAt]
    exact updAt_congr b segs _ _ (fun u => by simp only [mergeT, rootVals])
theorem subsT_merge : ∀ (sks : SubkeyList) (b : RegTree) (segs : List WStr),
    pathExists b segs = true →
    subsT b segs sks = updAt b segs (fun u => mergeSubs u sks)
  | .nil, b, segs, h => by
    simp only [subsT]
    rw [updAt_congr b segs _ (fun u => u) (fun u => by simp only [mergeSubs])]
    rw [updAt_id b segs h]
  | .cons n t rest, b, segs, h => by
    simp only [subsT]
    rw [treeT_merge t b (segs ++ [n])]
    rw [updAt_append b segs [n] _]
    rw [subsT_merge rest (updAt b segs (fun u => updAt u [n] (fun w => mergeT w t))) segs
      (pathExists_updAt b segs _)]
    rw [updAt_updAt]
    exact updAt_congr b segs _ _ (fun u => by
      cases u
      simp only [mergeSubs]
      rfl)
end

end Regproc

namespace Regproc

/-! ## Freshness: importing into an empty tree reproduces the tree -/

theorem subFind_absent : ∀ {sks : SubkeyList} {n : WStr},
    subAbsent sks n = true → subFind sks n = none
  | .nil, _, _ => rfl
  | .cons m u rest, n, h => by
    unfold subAbsent at h
    simp only [Bool.and_eq_true, decide_eq_true_eq] at h
    unfold subFind
    rw [if_neg h.1, subFind_absent h.2]

/-- Concatenation of subkey lists. -/
def skAppend : SubkeyList → SubkeyList → SubkeyList
  | .nil, l => l
  | .cons m u rest, l => .cons m u (skAppend rest l)

theorem skAppend_nil_right : ∀ (sk : SubkeyList), skAppend sk .nil = sk
  | .nil => rfl
  | .cons m u rest => by
    show SubkeyList.cons m u (skAppend rest SubkeyList.nil) = SubkeyList.cons m u rest
    rw [skAppend_nil_right rest]

theorem subPut_absent : ∀ {sks : SubkeyList} {n : WStr} (t : RegTree),
    subAbsent sks n = true → subPut sks n t = skAppend sks (.cons n t .nil)
  | .nil, _, t, _ => rfl
  | .cons m u rest, n, t, h => by
    unfold subAbsent at h
    simp only [Bool.and_eq_true, decide_eq_true_eq] at h
    unfold subPut skAppend
    rw [if_neg h.1, subPut_absent t h.2]

theorem skAppend_assoc : ∀ (a b c : SubkeyList),
    skAppend (skAppend a b) c = skAppend a (skAppend b c)
  | .nil, _, _ => rfl
  | .cons m u rest, b, c => by
    show SubkeyList.cons m u (skAppend (skAppend rest b) c)
      = SubkeyList.cons m u (skAppend rest (skAppend b c))
    rw [skAppend_assoc rest b c]

theorem subAbsent_skAppend : ∀ (a b : SubkeyList) (n : WStr),
    subAbsent (skAppend a b) n = (subAbsent a n && subAbsent b n)
  | .nil, b, n => by simp [skAppend, subAbsent]
  | .cons m u rest, b, n => by
    show (decide (m ≠ n) && subAbsent (skAppend rest b) n)
      = ((decide (m ≠ n) && subAbsent rest n) && subAbsent b n)
    rw [subAbsent_skAppend rest b n, Bool.and_assoc]

/-- Every name of the first list is absent from the second. -/
def namesAbsent : SubkeyList → SubkeyList → Bool
  | .nil, _ => true
  | .cons n _ rest, sk => subAbsent sk n && namesAbsent rest sk

theorem namesAbsent_nil : ∀ (sks : SubkeyList), namesAbsent sks .nil = true
  | .nil => rfl
  | .cons n t rest => by
    show (subAbsent SubkeyList.nil n && namesAbsent rest SubkeyList.nil) = true
    rw [namesAbsent_nil rest]
    rfl

theorem namesAbsent_snoc : ∀ (rest sk : SubkeyList) (n : WStr) (t : RegTree),
    namesAbsent rest sk = true → subAbsent rest n = true →
    namesAbsent rest (skAppend sk (.cons n t .nil)) = true
  | .nil, _, _, _, _, _ => rfl
  | .cons m u r, sk, n, t, h1, h2 => by
    unfold namesAbsent at h1 ⊢
    unfold subAbsent at h2
    simp only [Bool.and_eq_true, decide_eq_true_eq] at h1 h2
    rw [subAbsent_skAppend]
    simp only [Bool.and_eq_true]
    refine ⟨⟨h1.1, ?_⟩, namesAbsent_snoc r sk n t h1.2 h2.2⟩
    have hnm : n ≠ m := fun he => h2.1 he.symm
    simp [subAbsent, hnm]

theorem valPut_fresh : ∀ {l : List RegValue} {v : RegValue},
    l.all (fun w => w.name ≠ v.name) = true → valPut l v = l ++ [v]
  | [], _, _ => rfl
  | w :: rest, v, h => by
    simp only [List.all_cons, Bool.and_eq_true, decide_eq_true_eq] at h
    unfold valPut
    rw [if_neg h.1, valPut_fresh h.2]
    rfl

theorem valPutAll_fresh : ∀ (vals l : List RegValue), distinctNames vals = true →
    vals.all (fun w => l.all (fun u => u.name ≠ w.name)) = true →
    valPutAll l vals = l ++ vals
  | [], l, _, _ => by simp [valPutAll]
  | v :: rest, l, hd, habs => by
    unfold distinctNames at hd
    simp only [Bool.and_eq_true] at hd
    simp only [List.all_cons, Bool.and_eq_true] at habs
    show valPutAll (valPut l v) rest = _
    rw [valPut_fresh habs.1]
    rw [valPutAll_fresh rest (l ++ [v]) hd.2 ?hab]
    · simp
    case hab =>
      have h1 := habs.2
      have h2 := hd.1
      rw [List.all_eq_true] at h1 h2 ⊢
      intro w hw
      rw [List.all_append, Bool.and_eq_true]
      refine ⟨h1 w hw, ?_⟩
      have hne := h2 w hw
      simp only [decide_eq_true_eq] at hne
      simp only [List.all_cons, List.all_nil, Bool.and_true, decide_eq_true_eq]
      exact fun he => hne he.symm

mutual
theorem mergeT_empty : ∀ (t : RegTree) (uni : Bool), wfTree uni t = true →
    mergeT emptyTree t = t
  | .mk vals subs, uni, hwf => by
    unfold wfTree at hwf
    simp only [Bool.and_eq_true] at hwf
    simp only [mergeT]
    rw [show (RegTree.mk (valPutAll emptyTree.values vals) emptyTree.subkeys)
        = RegTree.mk vals SubkeyList.nil by
      rw [show valPutAll emptyTree.values vals = valPutAll [] vals from rfl]
      rw [valPutAll_fresh vals [] hwf.1.2 (by simp)]
      rfl]
    rw [mergeSubs_fresh subs uni hwf.2 vals SubkeyList.nil (namesAbsent_nil subs)]
    rfl
theorem mergeSubs_fresh : ∀ (sks : SubkeyList) (uni : Bool), wfSubs uni sks = true →
    ∀ (vals : List RegValue) (sk : SubkeyList), namesAbsent sks sk = true →
    mergeSubs (.mk vals sk) sks = .mk vals (skAppend sk sks)
  | .nil, _, _, vals, sk, _ => by
    simp only [mergeSubs]
    rw [skAppend_nil_right sk]
  | .cons n t rest, uni, hwf, vals, sk, habs => by
    unfold wfSubs at hwf
    simp only [Bool.and_eq_true] at hwf
    unfold namesAbsent at habs
    simp only [Bool.and_eq_true] at habs
    simp only [mergeSubs, RegTree.values, RegTree.subkeys]
    rw [show subGetD sk n = emptyTree by
      unfold subGetD
      rw [subFind_absent habs.1]
      rfl]
    rw [mergeT_empty t uni hwf.1.1.2]
    rw [subPut_absent t habs.1]
    rw [mergeSubs_fresh rest uni hwf.2 vals (skAppend sk (.cons n t .nil))
      (namesAbsent_snoc rest sk n t habs.2 hwf.1.2)]
    rw [skAppend_assoc]
    rfl
end

theorem updAt_empty : ∀ (segs : List WStr) (f : RegTree → RegTree),
    updAt emptyTree segs f = graft segs (f emptyTree)
  | [], _ => rfl
  | n :: rest, f => by
    show RegTree.mk emptyTree.values (subPut emptyTree.subkeys n
        (updAt (subGetD emptyTree.subkeys n) rest f))
      = RegTree.mk [] (.cons n (graft rest (f emptyTree)) .nil)
    rw [show subGetD emptyTree.subkeys n = emptyTree from rfl]
    rw [updAt_empty rest f]
    rfl

/-- Importing one exported key block into the empty store grafts the tree
at its path. -/
theorem treeStore_empty {uni : Bool} {t : RegTree} (hwf : wfTree uni t = true)
    {cls : Nat} (hcls : cls < 6) (segs : List WStr) :
    treeStore emptyStore cls segs t = storePut emptyStore cls (graft segs t) := by
  have h1 : emptyStore = storePut emptyStore cls emptyTree := by
    interval_cases cls <;> rfl
  conv_lhs => rw [h1]
  rw [treeStore_storePut t emptyStore cls emptyTree segs
    (show cls < emptyStore.length from hcls)]
  rw [treeT_merge t emptyTree segs, updAt_empty segs _, mergeT_empty t uni hwf]

end Regproc

namespace Regproc

/-! ## The full export/import round trip -/

theorem all_lt_mono {l : WStr} {A B : Nat} (h : l.all (fun c => c < A) = true)
    (hAB : A ≤ B) : l.all (fun c => c < B) = true := by
  rw [List.all_eq_true] at h ⊢
  intro c hc
  have := h c hc
  simp only [decide_eq_true_eq] at this ⊢
  omega

theorem joinSegs_chars {uni : Bool} : ∀ {segs : List WStr},
    segs.all (wfName uni) = true → (joinSegs segs).all (fun c => c < bnd uni) = true
  | [], _ => rfl
  | [s], h => by
    simp only [List.all_cons, Bool.and_eq_true] at h
    show s.all (fun c => c < bnd uni) = true
    have hw := h.1
    unfold wfName at hw
    simp only [Bool.and_eq_true] at hw
    rw [← charsOk_eq_bnd]
    exact hw.1.2
  | s :: s2 :: r, h => by
    simp only [List.all_cons, Bool.and_eq_true] at h
    show ((s ++ [92]) ++ joinSegs (s2 :: r)).all (fun c => c < bnd uni) = true
    simp only [List.all_append, List.all_cons, List.all_nil, Bool.and_eq_true,
      decide_eq_true_eq, and_true]
    have hB := @bnd_ge uni
    refine ⟨⟨?_, by omega⟩, ?_⟩
    · have hw := h.1
      unfold wfName at hw
      simp only [Bool.and_eq_true] at hw
      rw [← charsOk_eq_bnd]
      exact hw.1.2
    · exact joinSegs_chars (by
        simp only [List.all_cons, Bool.and_eq_true]
        exact h.2)

theorem pathText_chars {uni : Bool} {cls : Nat} (hcls : cls < 6) {segs : List WStr}
    (hsegs : segs.all (wfName uni) = true) :
    (pathText cls segs).all (fun c => c < bnd uni) = true := by
  have hroot : (regClassNames.getD cls []).all (fun c => c < bnd uni) = true := by
    have h256 : (regClassNames.getD cls []).all (fun c => c < 256) = true := by
      interval_cases cls <;> decide
    exact all_lt_mono h256 bnd_ge
  cases segs with
  | nil => exact hroot
  | cons s0 r =>
    show ((regClassNames.getD cls [] ++ [92]) ++ joinSegs (s0 :: r)).all _ = true
    simp only [List.all_append, List.all_cons, List.all_nil, Bool.and_eq_true,
      decide_eq_true_eq, and_true]
    have hB := @bnd_ge uni
    exact ⟨⟨hroot, by omega⟩, joinSegs_chars hsegs⟩

theorem exportFileText_chars {uni : Bool} {t : RegTree} (hwf : wfTree uni t = true)
    {cls : Nat} (hcls : cls < 6) {segs : List WStr} (hsegs : segs.all (wfName uni) = true) :
    (exportFileText uni (pathText cls segs) t).all (fun c => c < bnd uni) = true := by
  unfold exportFileText
  simp only [List.all_append, Bool.and_eq_true]
  refine ⟨⟨?_, ?_⟩, exportTree_chars t uni _ (pathText_chars hcls hsegs) hwf⟩
  · cases uni <;> decide
  · cases uni <;> decide

theorem termFree_joinSegs {uni : Bool} : ∀ {segs : List WStr},
    segs.all (wfName uni) = true → termFree (joinSegs segs) = true
  | [], _ => rfl
  | [s], h => by
    simp only [List.all_cons, Bool.and_eq_true] at h
    exact termFree_of_wfName h.1
  | s :: s2 :: r, h => by
    simp only [List.all_cons, Bool.and_eq_true] at h
    show termFree ((s ++ [92]) ++ joinSegs (s2 :: r)) = true
    exact termFree_append (termFree_append (termFree_of_wfName h.1) (by decide))
      (termFree_joinSegs (by
        simp only [List.all_cons, Bool.and_eq_true]
        exact h.2))

theorem termFree_pathText {uni : Bool} {cls : Nat} (hcls : cls < 6) {segs : List WStr}
    (hsegs : segs.all (wfName uni) = true) : termFree (pathText cls segs) = true := by
  have hroot : termFree (regClassNames.getD cls []) = true := by
    interval_cases cls <;> decide
  cases segs with
  | nil => exact hroot
  | cons s0 r =>
    show termFree ((regClassNames.getD cls [] ++ [92]) ++ joinSegs (s0 :: r)) = true
    exact termFree_append (termFree_append hroot (by decide)) (termFree_joinSegs hsegs)

theorem runLines_header_wide (s : Store) (L : List WStr) :
    runLines (⟨true, [255, 254], none, none, none, 0, 0, [], false, PState.HEADER,
        s, []⟩ : PCtx) (header50 :: L)
      = runLines (lineCtx true [255, 254] RegVersion.v50 none none 0 0 false s []) L := by
  simp only [runLines]
  rw [show feed (⟨true, [255, 254], none, none, none, 0, 0, [], false, PState.HEADER,
        s, []⟩ : PCtx) header50
      = some (lineCtx true [255, 254] RegVersion.v50 none none 0 0 false s [], true)
    from rfl]

theorem runLines_header_narrow (s : Store) (L : List WStr) :
    runLines (⟨false, [82, 69], none, none, none, 0, 0, [], false, PState.HEADER,
        s, []⟩ : PCtx) (strW "GEDIT4" :: L)
      = runLines (lineCtx false [82, 69] RegVersion.v40 none none 0 0 false s []) L := by
  simp only [runLines]
  rw [show feed (⟨false, [82, 69], none, none, none, 0, 0, [], false, PState.HEADER,
        s, []⟩ : PCtx) (strW "GEDIT4")
      = some (lineCtx false [82, 69] RegVersion.v40 none none 0 0 false s [], true)
    from rfl]

theorem runLines_lineCtx_end (u : Bool) (tw : WStr) (rv : RegVersion)
    (hk : Option (Nat × List WStr)) (vn : Option WStr) (pt dt : Nat) (bs : Bool)
    (s : Store) (o : List RegOp) :
    runLines (lineCtx u tw rv hk vn pt dt bs s o) [[]]
      = some (lineCtx u tw rv hk vn pt dt bs s o) := by
  rw [runLines_empty_line]
  simp only [runLines]
  rfl

end Regproc

namespace Regproc

/-- Claim C1 (amended): for a well-formed tree (NUL-terminated string
payloads, four-byte DWORDs, nonempty hex data, names and data representable
in the output encoding, distinct names), exporting the key at a class-rooted
path and importing the produced file into an empty store grafts exactly that
tree at the path, in both encodings. -/
theorem c1_amended {uni : Bool} {t : RegTree} (hwf : wfTree uni t = true)
    {cls : Nat} (hcls : cls < 6) {segs : List WStr} (hsegs : segs.all (wfName uni) = true)
    {st : Store} (hget : treeGetPath (storeGet st cls) segs = some t) :
    ∃ (f : Bytes) (ops : List RegOp),
      export_key_bytes st (pathText cls segs) uni = some f
      ∧ import_registry_file f emptyStore
          = some (true, storePut emptyStore cls (graft segs t), ops) := by
  refine ⟨exportFileBytes uni (pathText cls segs) t, treeOps cls segs t, ?_, ?_⟩
  · unfold export_key_bytes
    rw [parse_key_name_pathText hcls hsegs]
    show (match treeGetPath (storeGet st cls) (segsOf (segsSub segs)) with
          | none => none
          | some u => some (exportFileBytes uni (pathText cls segs) u)) = _
    rw [segsOf_segsSub hsegs, hget]
  · cases uni with
    | true =>
      have hT : (exportFileText true (pathText cls segs) t).all
          (fun c => c < 65536) = true := by
        have := exportFileText_chars hwf hcls hsegs
        simpa [bnd] using this
      rw [show exportFileBytes true (pathText cls segs) t
          = 255 :: 254 :: wideBytes (exportFileText true (pathText cls segs) t) from rfl]
      show (match runLines (⟨true, [255, 254], none, none, none, 0, 0, [], false,
            PState.HEADER, emptyStore, []⟩ : PCtx)
            (splitLines (bytePairs (wideBytes
              (exportFileText true (pathText cls segs) t)))) with
          | none => none
          | some q =>
            if q.reg_version = some RegVersion.fuzzy then some (true, q.store, q.ops)
            else if q.reg_version = some RegVersion.invalid then
              some (false, q.store, q.ops)
            else some (true, q.store, q.ops)) = _
      rw [bytePairs_wideBytes _ hT]
      rw [show exportFileText true (pathText cls segs) t
          = header50 ++ (13 :: 10 :: exportTree true (pathText cls segs) t) from rfl]
      rw [splitLines_line (by decide)]
      rw [← List.append_nil (exportTree true (pathText cls segs) t)]
      rw [splitLines_tree t true (pathText cls segs) []
        (termFree_pathText hcls hsegs) hwf]
      rw [show splitLines ([] : WStr) = [[]] from rfl]
      rw [runLines_header_wide emptyStore _]
      obtain ⟨hk1, vn1, pt1, dt1, bs1, hrun⟩ := tree_run t true hwf cls hcls segs hsegs
        [255, 254] RegVersion.v50 (by decide) none none 0 0 false emptyStore [] [[]]
      rw [hrun]
      rw [runLines_lineCtx_end]
      show some (true, treeStore emptyStore cls segs t, [] ++ treeOps cls segs t)
        = some (true, storePut emptyStore cls (graft segs t), treeOps cls segs t)
      rw [treeStore_empty hwf hcls segs, List.nil_append]
    | false =>
      have hT2 : (strW "GEDIT4"
          ++ (13 :: 10 :: exportTree false (pathText cls segs) t)).all
          (fun c => c < 256) = true := by
        simp only [List.all_append, List.all_cons, Bool.and_eq_true, decide_eq_true_eq]
        refine ⟨by decide, by omega, by omega, ?_⟩
        have := exportTree_chars t false _ (pathText_chars hcls hsegs) hwf
        simpa [bnd] using this
      rw [show exportFileBytes false (pathText cls segs) t
          = 82 :: 69 :: acpFromWide (strW "GEDIT4"
              ++ (13 :: 10 :: exportTree false (pathText cls segs) t)) from rfl]
      show (match runLines (⟨false, [82, 69], none, none, none, 0, 0, [], false,
            PState.HEADER, emptyStore, []⟩ : PCtx)
            (splitLines (acpFromWide (strW "GEDIT4"
              ++ (13 :: 10 :: exportTree false (pathText cls segs) t)))) with
          | none => none
          | some q =>
            if q.reg_version = some RegVersion.fuzzy then some (true, q.store, q.ops)
            else if q.reg_version = some RegVersion.invalid then
              some (false, q.store, q.ops)
            else some (true, q.store, q.ops)) = _
      rw [acpFromWide_id hT2]
      rw [splitLines_line (by decide)]
      rw [← List.append_nil (exportTree false (pathText cls segs) t)]
      rw [splitLines_tree t false (pathText cls segs) []
        (termFree_pathText hcls hsegs) hwf]
      rw [show splitLines ([] : WStr) = [[]] from rfl]
      rw [runLines_header_narrow emptyStore _]
      obtain ⟨hk1, vn1, pt1, dt1, bs1, hrun⟩ := tree_run t false hwf cls hcls segs hsegs
        [82, 69] RegVersion.v40 (by decide) none none 0 0 false emptyStore [] [[]]
      rw [hrun]
      rw [runLines_lineCtx_end]
      show some (true, treeStore emptyStore cls segs t, [] ++ treeOps cls segs t)
        = some (true, storePut emptyStore cls (graft segs t), treeOps cls segs t)
      rw [treeStore_empty hwf hcls segs, List.nil_append]

theorem c1_amended_witness :
    wfTree false (RegTree.mk [] SubkeyList.nil) = true
    ∧ (2 : Nat) < 6
    ∧ ([[65]] : List WStr).all (wfName false) = true
    ∧ treeGetPath (storeGet (storePut emptyStore 2
        (RegTree.mk [] (SubkeyList.cons [65] (RegTree.mk [] SubkeyList.nil)
          SubkeyList.nil))) 2) [[65]]
      = some (RegTree.mk [] SubkeyList.nil)
    ∧ (∃ (f : Bytes) (ops : List RegOp),
        export_key_bytes (storePut emptyStore 2
          (RegTree.mk [] (SubkeyList.cons [65] (RegTree.mk [] SubkeyList.nil)
            SubkeyList.nil))) (pathText 2 [[65]]) false = some f
        ∧ import_registry_file f emptyStore
            = some (true, storePut emptyStore 2
                (graft [[65]] (RegTree.mk [] SubkeyList.nil)), ops)) :=
  ⟨by decide, by decide, by decide, by decide,
   c1_amended (by decide) (by decide) (by decide) (by decide)⟩

end Regproc
